import Mathlib

/-!
# gosss: Shamir secret sharing over GF(256)

A shallow embedding of `shamir/shamir.go` and `shamir/files.go` together with the
properties of the split / combine engine.

Conventions of the embedding

* a Go `uint8` is a `Byte` (`Fin 256`); a Go `int` is an `Int`; a `uint64` is a `Nat`;
* a Go slice is a `List`; in-place writes into a slice are modelled by returning the
  updated list (aliased sub-slices are re-assembled explicitly where the source relies
  on aliasing);
* a run-time panic (index out of range, nil dereference, `makeslice: len out of range`)
  is the value `none` of the outer `Option`; a Go result `(v, err)` is the pair `(v, err)`
  with `err : Option GoError`; memory that runs out is outside the model;
* `crypto/rand` is a tape of bytes that is consumed from the front; reading past its end
  is the failure of the random source;
* a file that is open for reading delivers the bytes it held when it was opened, except
  that a part file of `CombineFiles` that is the same file as the output is emptied when the
  output is opened with `O_TRUNC`; the input of `SplitFile` is taken to be a file of its
  own, none of the part files that the run creates.
-/

set_option maxRecDepth 100000

/-- A Go `uint8`. -/
abbrev Byte := Fin 256

/-- The error values that the package creates or passes on. -/
inductive GoError
  /-- message "Number of parts should be between 2 and 255" -/
  | partsRange
  /-- message "Threshold should be between 2 and 255" -/
  | thresholdRange
  /-- message "Threshold should not be greater than number of parts" -/
  | thresholdAboveParts
  /-- message "number of parts should be 2 <= x < 255" -/
  | combineRange
  /-- message "You should use %i in filename pattern in order to distinguish different parts" -/
  | missingToken
  /-- message "Parts have different size" -/
  | differentSize
  /-- message "Unexpected EOF found in part file" -/
  | unexpectedEOF
  /-- message "Unable to read parts evenly" -/
  | unevenRead
  /-- the error of `galois.Div` for a zero divisor -/
  | divideByZero
  /-- failure of `crypto/rand` -/
  | randFailure
  /-- the value `io.EOF` -/
  | eof
  /-- an error of the operating system (open, read, write, readdir, stat) -/
  | os (code : Nat)
  deriving DecidableEq, Repr

/-! ## Package `galois` -/

namespace galois

/-- Carry-less product of `a` with the low `k` bits of `b`. -/
def clmulFrom (a b : Nat) : Nat → Nat
  | 0 => 0
  | i + 1 => if b.testBit i then clmulFrom a b i ^^^ (a <<< i) else clmulFrom a b i

/-- Carry-less (polynomial over GF(2)) product of two bytes. -/
def clmul (a b : Nat) : Nat := clmulFrom a b 8

/-- Shift-and-reduce: clears the bits `e + k - 1, ..., e` of `n` with multiples of the
polynomial `d` of degree `e`. -/
def polyModFrom (d e : Nat) : Nat → Nat → Nat
  | 0, n => n
  | i + 1, n => polyModFrom d e i (if n.testBit (i + e) then n ^^^ (d <<< i) else n)

/-- Index of the highest set bit among the low `k` bits. -/
def polyDegreeFrom (d : Nat) : Nat → Nat
  | 0 => 0
  | i + 1 => if d.testBit i then i else polyDegreeFrom d i

/-- Degree of the polynomial over GF(2) whose coefficients are the bits of `d`. -/
def polyDegree (d : Nat) : Nat := polyDegreeFrom d 16

/-- Remainder of the polynomial `n` modulo the polynomial `d`, for `n` of degree below
`polyDegree d + 8`. -/
def polyMod (n d : Nat) : Nat := polyModFrom d (polyDegree d) 8 n

/-- Modelled from the spec: the reduction polynomial of package `galois`, which is not part
of the sources at hand. The spec fixes it only as "a fixed irreducible degree-8
polynomial"; it is therefore a parameter `P` of the embedding (bit `i` of `P` is the
coefficient of `x^i`), and this predicate says that `P` has degree 8 and no divisor of
degree 1 to 4, that is, that `P` is irreducible over GF(2). -/
def irreducible8 (P : Nat) : Bool :=
  decide (polyDegree P = 8) && decide (P < 512) &&
    (List.range 30).all (fun k => polyMod P (k + 2) != 0)

/-- Product in GF(2)[x] / (P) on the bit patterns of two bytes, truncated to a byte. -/
def mulNat (P a b : Nat) : Nat := polyModFrom P 8 7 (clmul a b) % 256

/-- Modelled from the spec: `galois.Add`, "add/subtract are identical and implemented as
bitwise XOR". -/
def Add (a b : Byte) : Byte := ⟨a.val ^^^ b.val, Nat.xor_lt_two_pow (n := 8) a.isLt b.isLt⟩

/-- Modelled from the spec: `galois.Mul`, "carry-less polynomial multiplication of the two
bytes followed by reduction modulo the field's fixed degree-8 irreducible polynomial". -/
def Mul (P : Nat) (a b : Byte) : Byte := ⟨mulNat P a.val b.val, Nat.mod_lt _ (by decide)⟩

/-- Modelled from the spec: `invert(a)` "fails with an ArithmeticError when a == 0;
otherwise returns the unique element b such that multiply(a,b) == 1". The element is
found by search; for an irreducible `P` the search always succeeds (`invert_eq_ok`). -/
def invert (P : Nat) (a : Byte) : Except GoError Byte :=
  if a = 0 then .error .divideByZero
  else
    match (List.finRange 256).find? (fun b => Mul P a b = 1) with
    | some b => .ok b
    | none => .error .divideByZero

/-- Modelled from the spec: `galois.Div`, "divide(a,b) = multiply(a, invert(b)); fails with
the same ArithmeticError when b == 0". -/
def Div (P : Nat) (a b : Byte) : Except GoError Byte :=
  match invert P b with
  | .ok i => .ok (Mul P a i)
  | .error e => .error e

end galois

/-! ## `crypto/rand` -/

/-- The random source: the bytes it will deliver, in order. -/
abbrev Tape := List Byte

/-- The call `rand.Read(b)` with `len(b) = n`: the `n` bytes and the rest of the tape, or
`none` when the source fails. -/
def randRead (n : Nat) (tape : Tape) : Option (List Byte × Tape) :=
  if n ≤ tape.length then some (tape.take n, tape.drop n) else none

/-! ## `shamir/shamir.go` -/

/-- The type `polynomial` of shamir.go: `coefs[0]` is the intercept. -/
structure polynomial where
  coefs : List Byte
  deriving DecidableEq, Repr

/-- The function `newPolynomial(intercept, degree)`. The size `degree+1` is computed in
`uint8`; for size 0 the write `p.coefs[0] = intercept` panics. -/
def newPolynomial (intercept degree : Byte) (tape : Tape) :
    Option ((Option polynomial × Option GoError) × Tape) :=
  let size := (degree.val + 1) % 256
  if size = 0 then none
  else
    match randRead (size - 1) tape with
    | none => some ((none, some .randFailure), tape)
    | some (bs, tape1) => some ((some ⟨intercept :: bs⟩, none), tape1)

/-- The method `(p *polynomial) evaluate(x)`: the intercept for `x = 0`, otherwise Horner
from the highest coefficient down. Panics on an empty coefficient slice. -/
def polynomial.evaluate (P : Nat) (p : polynomial) (x : Byte) : Option Byte :=
  if x = 0 then p.coefs.head?
  else
    match p.coefs.reverse with
    | [] => none
    | top :: lower => some (lower.foldl (fun ret c => galois.Add (galois.Mul P ret x) c) top)

/-- The inner loop (over `j`) of `interpolate`: the Lagrange basis value of sample `i`. -/
def interpolateBasis (P : Nat) (x : Byte) (i : Nat) (xi : Byte) :
    List (Nat × Byte) → Byte → Except GoError Byte
  | [], basis => .ok basis
  | (j, xj) :: rest, basis =>
    if i = j then interpolateBasis P x i xi rest basis
    else
      let num := galois.Add x xj
      let denom := galois.Add xi xj
      match galois.Div P num denom with
      | .error e => .error e
      | .ok term => interpolateBasis P x i xi rest (galois.Mul P basis term)

/-- The outer loop (over `i`) of `interpolate`. -/
def interpolateLoop (P : Nat) (xSamples ySamples : List Byte) (x : Byte) :
    List (Nat × Byte) → Byte → Option (Byte × Option GoError)
  | [], ret => some (ret, none)
  | (i, xi) :: rest, ret =>
    match interpolateBasis P x i xi xSamples.enum 1 with
    | .error e => some (0, some e)
    | .ok basis =>
      match ySamples[i]? with
      | none => none
      | some yi =>
        interpolateLoop P xSamples ySamples x rest (galois.Add ret (galois.Mul P yi basis))

/-- The function `interpolate(xSamples, ySamples, x)`. -/
def interpolate (P : Nat) (xSamples ySamples : List Byte) (x : Byte) :
    Option (Byte × Option GoError) :=
  interpolateLoop P xSamples ySamples x xSamples.enum 0

/-- The loop over `partIdx` in `splitBlock` for byte position `i`: writes
`buf[partIdx][i] = p.evaluate(xCoords[partIdx])` into every row of `buf`. -/
def splitBlockParts (P : Nat) (p : polynomial) (xCoords : List Byte) (i : Nat) :
    Nat → List (List Byte) → Option (List (List Byte))
  | _, [] => some []
  | partIdx, row :: rows =>
    match xCoords[partIdx]? with
    | none => none
    | some x =>
      match p.evaluate P x with
      | none => none
      | some y =>
        if i < row.length then
          match splitBlockParts P p xCoords i (partIdx + 1) rows with
          | none => none
          | some rows1 => some (row.set i y :: rows1)
        else none

/-- The loop over `i` in `splitBlock`; `p` is the current polynomial pointer (`none` is
nil). The result is the final content of `buf`, the error, and the remaining tape. -/
def splitBlockLoop (P : Nat) (xCoords : List Byte) (threshold : Byte) (polynomPerByte : Bool) :
    List Byte → Nat → Option polynomial → List (List Byte) → Tape →
      Option ((List (List Byte) × Option GoError) × Tape)
  | [], _, _, buf, tape => some ((buf, none), tape)
  | b :: block, i, p, buf, tape =>
    let fresh : Option ((Option polynomial × Option GoError) × Tape) :=
      if polynomPerByte then newPolynomial 0 (threshold - 1) tape
      else some ((p, none), tape)
    match fresh with
    | none => none
    | some ((_, some err), tape1) => some ((buf, some err), tape1)
    | some ((none, none), _) => none
    | some ((some q, none), tape1) =>
      match q.coefs with
      | [] => none
      | _ :: cs =>
        let q1 : polynomial := ⟨b :: cs⟩
        match splitBlockParts P q1 xCoords i 0 buf with
        | none => none
        | some buf1 =>
          splitBlockLoop P xCoords threshold polynomPerByte block (i + 1) (some q1) buf1 tape1

/-- The function `splitBlock(block, buf, xCoords, threshold, polynomPerByte)`. -/
def splitBlock (P : Nat) (block : List Byte) (buf : List (List Byte)) (xCoords : List Byte)
    (threshold : Byte) (polynomPerByte : Bool) (tape : Tape) :
    Option ((List (List Byte) × Option GoError) × Tape) :=
  if polynomPerByte then
    splitBlockLoop P xCoords threshold polynomPerByte block 0 none buf tape
  else
    match newPolynomial 0 (threshold - 1) tape with
    | none => none
    | some ((_, some err), tape1) => some ((buf, some err), tape1)
    | some ((p, none), tape1) =>
      splitBlockLoop P xCoords threshold polynomPerByte block 0 p buf tape1

/-- The inner `for` of `fillXCoords`: draws one byte at a time until one is nonzero and not
in `seenX`. `none` is the failure of the random source. -/
def drawXCoord (seenX : List Byte) : Tape → Option (Byte × Tape)
  | [] => none
  | b :: tape => if b = 0 ∨ b ∈ seenX then drawXCoord seenX tape else some (b, tape)

/-- The outer loop of `fillXCoords`: `n` coordinates are still to be drawn, `xCoords` are
those drawn so far and `seenX` is the set of keys of the map of the same name. -/
def fillXCoordsLoop : Nat → List Byte → List Byte → Tape → (List Byte × Option GoError) × Tape
  | 0, xCoords, _, tape => ((xCoords, none), tape)
  | n + 1, xCoords, seenX, tape =>
    match drawXCoord seenX tape with
    | none => (([], some .randFailure), [])
    | some (b, tape1) => fillXCoordsLoop n (xCoords ++ [b]) (b :: seenX) tape1

/-- The function `fillXCoords(size)`. -/
def fillXCoords (size : Byte) (tape : Tape) : (List Byte × Option GoError) × Tape :=
  fillXCoordsLoop size.val [] [] tape

/-- The function `prepareSplit(blockSize, partsCount)`: the zeroed buffers, the
x-coordinates and the error. -/
def prepareSplit (blockSize : Nat) (partsCount : Byte) (tape : Tape) :
    (List (List Byte) × List Byte × Option GoError) × Tape :=
  match fillXCoords partsCount tape with
  | ((_, some err), tape1) => (([], [], some err), tape1)
  | ((xCoords, none), tape1) =>
    ((List.replicate partsCount.val (List.replicate blockSize 0), xCoords, none), tape1)

/-- The function `validateSplitArgs(partsCount, threshold)`. -/
def validateSplitArgs (partsCount threshold : Int) : Option GoError :=
  if partsCount > 255 ∨ partsCount < 2 then some .partsRange
  else if threshold > 255 ∨ threshold < 2 then some .thresholdRange
  else if threshold > partsCount then some .thresholdAboveParts
  else none

/-- The conversion `uint8(n)` of a Go `int`. -/
def toUint8 (n : Int) : Byte := ⟨(n % 256).toNat, by omega⟩

/-- The loop of `Split` that stores `xCoords[partIdx]` in `ret[partIdx][0]` and lets
`buf[partIdx]` alias `ret[partIdx][1:]`; the result is the pair of `ret` and `buf`. -/
def splitHeaders (xCoords : List Byte) :
    Nat → List (List Byte) → Option (List (List Byte) × List (List Byte))
  | _, [] => some ([], [])
  | partIdx, row :: rows =>
    match xCoords[partIdx]?, row with
    | some x, _ :: ys =>
      match splitHeaders xCoords (partIdx + 1) rows with
      | none => none
      | some (ret, buf) => some ((x :: ys) :: ret, ys :: buf)
    | _, _ => none

/-- The function `Split(secret, partsCount, threshold)`. Because `buf[partIdx]` aliases
`ret[partIdx][1:]`, the returned `ret[partIdx]` is its first byte followed by the final
content of `buf[partIdx]`. -/
def Split (P : Nat) (secret : List Byte) (partsCount threshold : Int) (tape : Tape) :
    Option (List (List Byte) × Option GoError) :=
  match validateSplitArgs partsCount threshold with
  | some err => some ([], some err)
  | none =>
    match prepareSplit (secret.length + 1) (toUint8 partsCount) tape with
    | ((_, _, some err), _) => some ([], some err)
    | ((ret, xCoords, none), tape1) =>
      match splitHeaders xCoords 0 ret with
      | none => none
      | some (ret1, buf) =>
        match splitBlock P secret buf xCoords (toUint8 threshold) true tape1 with
        | none => none
        | some ((buf1, err), _) =>
          some (List.zipWith (fun r ys => r.take 1 ++ ys) ret1 buf1, err)

/-- The loop over `partIdx` in `combineBlock` for position `i`:
`ySamplesBuf[partIdx] = parts[partIdx][i]`. -/
def gatherSamples (i : Nat) : Nat → List (List Byte) → List Byte → Option (List Byte)
  | _, [], ySamplesBuf => some ySamplesBuf
  | partIdx, part :: parts, ySamplesBuf =>
    match part[i]? with
    | none => none
    | some y =>
      if partIdx < ySamplesBuf.length then
        gatherSamples i (partIdx + 1) parts (ySamplesBuf.set partIdx y)
      else none

/-- The loop over `i` in `combineBlock`, with `n` positions still to do. The state is the
pair of `buf` and `ySamplesBuf`. -/
def combineBlockLoop (P : Nat) (parts : List (List Byte)) (xSamples : List Byte) :
    Nat → Nat → List Byte → List Byte → Option ((List Byte × List Byte) × Option GoError)
  | 0, _, buf, ySamplesBuf => some ((buf, ySamplesBuf), none)
  | n + 1, i, buf, ySamplesBuf =>
    match gatherSamples i 0 parts ySamplesBuf with
    | none => none
    | some ys =>
      match interpolate P xSamples ys 0 with
      | none => none
      | some (v, err) =>
        if i < buf.length then
          match err with
          | some e => some ((buf.set i v, ys), some e)
          | none => combineBlockLoop P parts xSamples n (i + 1) (buf.set i v) ys
        else none

/-- The function `combineBlock(buf, parts, xSamples, ySamplesBuf)`. -/
def combineBlock (P : Nat) (buf : List Byte) (parts : List (List Byte))
    (xSamples ySamplesBuf : List Byte) : Option ((List Byte × List Byte) × Option GoError) :=
  match parts with
  | [] => none
  | part0 :: _ => combineBlockLoop P parts xSamples part0.length 0 buf ySamplesBuf

/-- The loop of `Combine` that reads `xSamples[partIdx] = parts[partIdx][0]` and
`partsBuf[partIdx] = parts[partIdx][1:]`. -/
def combineHeaders : List (List Byte) → Option (List Byte × List (List Byte))
  | [] => some ([], [])
  | [] :: _ => none
  | (x :: ys) :: parts =>
    match combineHeaders parts with
    | none => none
    | some (xSamples, partsBuf) => some (x :: xSamples, ys :: partsBuf)

/-- The function `Combine(parts)`. -/
def Combine (P : Nat) (parts : List (List Byte)) : Option (List Byte × Option GoError) :=
  let partsCount := parts.length
  if partsCount < 2 ∨ partsCount ≥ 255 then some ([], some .combineRange)
  else
    match parts with
    | [] => none
    | part0 :: _ =>
      let partLen : Int := (part0.length : Int) - 1
      if partLen < 1 then some ([], none)
      else
        match combineHeaders parts with
        | none => none
        | some (xSamples, partsBuf) =>
          match combineBlock P (List.replicate partLen.toNat 0) partsBuf xSamples
              (List.replicate partsCount 0) with
          | none => none
          | some ((ret, _), err) => some (ret, err)


/-! ## The operating system as seen by `shamir/files.go` -/

/-- A Go `string`. The only strings the package inspects are file names and patterns, and
it inspects them for the ASCII token `%i` and for ASCII digits. -/
abbrev GoString := List Char

/-- A path handed to the operating system: `path.Join(dir, name)`, kept symbolic, or a
path that the caller supplies. -/
inductive OsPath
  | join (dir name : GoString)
  | named (p : GoString)
  deriving DecidableEq, Repr

/-- An opened `*os.File` as a source of bytes: the bytes arrive in the segments `pending`
(a `Read` never crosses a segment border, so short reads can be expressed; a regular file
is one segment); when they are used up `Read` reports `failure`, or `io.EOF` if there is
none. `statSize` is the answer of `Stat()`: the size or an error. -/
structure File where
  pending : List (List Byte)
  failure : Option GoError
  statSize : Except GoError Nat

/-- The call `Read(b)` on the segments of a file, for `len(b) = cap > 0`. -/
def readPending (cap : Nat) (failure : Option GoError) :
    List (List Byte) → (List Byte × Option GoError) × List (List Byte)
  | [] => (([], some (failure.getD .eof)), [])
  | [] :: rest => readPending cap failure rest
  | (b :: seg) :: rest =>
    (((b :: seg).take cap, none),
      if (b :: seg).drop cap = [] then rest else (b :: seg).drop cap :: rest)

/-- The method `(*os.File).Read(b)` with `len(b) = cap`: the bytes read, the error, and the
file afterwards. A read into an empty buffer returns `0, nil`. -/
def File.read (cap : Nat) (f : File) : (List Byte × Option GoError) × File :=
  if cap = 0 then (([], none), f)
  else
    let r := readPending cap f.failure f.pending
    (r.1, { f with pending := r.2 })

/-- The number of bytes that a file will still deliver. -/
def File.remaining (f : File) : Nat := (f.pending.map List.length).sum

/-- A regular file with the given content. -/
def File.regular (content : List Byte) : File :=
  { pending := [content], failure := none, statSize := .ok content.length }

/-- The environment: what the operating system answers. -/
structure OS where
  /-- the stream behind `os.Stdin` -/
  stdin : File
  /-- the call `os.Open(path)` -/
  openRead : OsPath → Except GoError File
  /-- the error of `os.OpenFile(path, O_WRONLY|O_CREATE|O_TRUNC, 0644)`, if any -/
  createErr : OsPath → Option GoError
  /-- the error of a `Write` to a created file (`none`: to `os.Stdout`) that already holds
  the given number of bytes, if any; a failing write stores nothing -/
  writeErr : Option OsPath → Nat → Option GoError
  /-- the call `ioutil.ReadDir(dir)`: the names of the entries and whether each is a
  directory -/
  readDir : GoString → Except GoError (List (GoString × Bool))
  /-- whether the path of an output (first argument) names the same file as the path of a
  file that is open for reading (second argument) -/
  sameFile : OsPath → OsPath → Bool

/-- The effects of a run on the outside world. -/
structure World where
  /-- the paths on which `os.Open` has been called, in order -/
  opened : List OsPath
  /-- the files created (truncated) by `os.OpenFile`, in order, each with the bytes written
  to it through its handle; a handle is the index in this list -/
  created : List (OsPath × List Byte)
  /-- the bytes written to `os.Stdout` -/
  stdout : List Byte
  deriving DecidableEq, Repr

/-- The world before a run. -/
def World.initial : World := { opened := [], created := [], stdout := [] }

/-- The call `os.OpenFile(path, O_WRONLY|O_CREATE|O_TRUNC, 0644)`. -/
def World.create (os : OS) (path : OsPath) (w : World) : Option GoError × World :=
  match os.createErr path with
  | some e => (some e, w)
  | none => (none, { w with created := w.created ++ [(path, [])] })

/-- The call `Write(data)` on the handle `h` of a created file; `none` when the handle
does not exist (a nil `*os.File` returns an error value, it does not panic). -/
def World.write (os : OS) (h : Nat) (data : List Byte) (w : World) : Option GoError × World :=
  match w.created[h]? with
  | none => (some (.os 0), w)
  | some (path, content) =>
    match os.writeErr (some path) content.length with
    | some e => (some e, w)
    | none => (none, { w with created := w.created.set h (path, content ++ data) })

/-- The call `os.Stdout.Write(data)`. -/
def World.writeStdout (os : OS) (data : List Byte) (w : World) : Option GoError × World :=
  match os.writeErr none w.stdout.length with
  | some e => (some e, w)
  | none => (none, { w with stdout := w.stdout ++ data })

/-! ## `shamir/files.go` -/

/-- The constant `defaultBlockSize`. -/
def defaultBlockSize : Nat := 16384

/-- The limit `maxAlloc` of the Go runtime on a 64-bit platform, 2^48 bytes: the call
`make([]T, n)` panics (`makeslice: len out of range`) when `n` is negative or the slice
would hold more than this many bytes; a `uint64` length of 2^63 or more is among these.
Memory that runs out below this limit is outside the model. -/
def maxAlloc : Nat := 281474976710656

/-- The call `fmt.Sprint(n)` for a non-negative integer: its decimal digits. -/
def fmtSprint (n : Nat) : GoString := Nat.toDigits 10 n

/-- The call `strings.ReplaceAll(s, "%i", new)`. -/
def replaceAllToken (new : GoString) : GoString → GoString
  | [] => []
  | '%' :: 'i' :: rest => new ++ replaceAllToken new rest
  | c :: rest => c :: replaceAllToken new rest

/-- The call `rxNumber.ReplaceAllString(s, "%i")` for `rxNumber = [0-9]+`: every maximal
run of ASCII digits becomes `%i`. -/
def replaceDigitRuns : GoString → GoString
  | [] => []
  | c :: rest =>
    if c.isDigit then
      match rest with
      | [] => ['%', 'i']
      | d :: _ => if d.isDigit then replaceDigitRuns rest else '%' :: 'i' :: replaceDigitRuns rest
    else c :: replaceDigitRuns rest

/-- The file name of part `partIdx` (0-based) in `SplitFile`, or the error that the
pattern has no token. -/
def partFileName (filePattern : GoString) (partIdx : Nat) : Except GoError GoString :=
  if filePattern.length > 0 then
    let filename := replaceAllToken (fmtSprint (partIdx + 1)) filePattern
    if filename = filePattern then .error .missingToken else .ok filename
  else .ok (fmtSprint (partIdx + 1))

/-- The first loop of `SplitFile`, with `n` part files still to create: names the file,
creates it and writes the x-coordinate, ignoring the result of that write. The handle of
part `partIdx` is `base + partIdx`. -/
def createParts (os : OS) (outDir filePattern : GoString) (xCoords : List Byte) (base : Nat) :
    Nat → Nat → World → Option (Option GoError × World)
  | 0, _, w => some (none, w)
  | n + 1, partIdx, w =>
    match partFileName filePattern partIdx with
    | .error e => some (some e, w)
    | .ok filename =>
      match w.create os (.join outDir filename) with
      | (some e, w1) => some (some e, w1)
      | (none, w1) =>
        match xCoords[partIdx]? with
        | none => none
        | some x => createParts os outDir filePattern xCoords base n (partIdx + 1)
            (w1.write os (base + partIdx) [x]).2

/-- The loop `for partIdx := range partsBuf` of `SplitFile` that appends
`partsBuf[partIdx][:bytesRead]` to part file `partIdx`. -/
def writeParts (os : OS) (base bytesRead : Nat) :
    Nat → List (List Byte) → World → Option GoError × World
  | _, [], w => (none, w)
  | partIdx, row :: rows, w =>
    match w.write os (base + partIdx) (row.take bytesRead) with
    | (some e, w1) => (some e, w1)
    | (none, w1) => writeParts os base bytesRead (partIdx + 1) rows w1

/-- The read loop of `SplitFile`. Every round consumes at least one byte of the input or
ends the loop, so the `fuel` that `SplitFile` supplies (the number of input bytes plus one)
is never used up. -/
def splitFileLoop (P : Nat) (os : OS) (xCoords : List Byte) (threshold : Byte)
    (polynomPerByte : Bool) (blockSize base : Nat) :
    Nat → File → List (List Byte) → Tape → World → Option (Option GoError × World)
  | 0, _, _, _, _ => none
  | fuel + 1, inputFile, partsBuf, tape, w =>
    match inputFile.read blockSize with
    | ((_, some e), _) => if e = .eof then some (none, w) else some (some e, w)
    | ((data, none), inputFile1) =>
      match splitBlock P data partsBuf xCoords threshold polynomPerByte tape with
      | none => none
      | some ((_, some e), _) => some (some e, w)
      | some ((partsBuf1, none), tape1) =>
        match writeParts os base data.length 0 partsBuf1 w with
        | (some e, w1) => some (some e, w1)
        | (none, w1) =>
          splitFileLoop P os xCoords threshold polynomPerByte blockSize base fuel inputFile1
            partsBuf1 tape1 w1

/-- The function `SplitFile(inputFilename, outDir, filePattern, partsCount, threshold,
blockSize, polynomPerByte)`: the returned error and the world afterwards. The allocations
`outFiles = make([]*os.File, partsCount)` (pointers of 8 bytes) and
`readBuf = make([]byte, blockSize)` of the `var` block come before everything else and
panic for a negative or too large `partsCount` and for a too large `blockSize`. -/
def SplitFile (P : Nat) (os : OS) (inputFilename outDir filePattern : GoString)
    (partsCount threshold : Int) (blockSize : Nat) (polynomPerByte : Bool) (tape : Tape)
    (w : World) : Option (Option GoError × World) :=
  let blockSize := if blockSize = 0 then defaultBlockSize else blockSize
  if partsCount < 0 ∨ 8 * partsCount.toNat > maxAlloc then none
  else if blockSize > maxAlloc then none
  else
    match validateSplitArgs partsCount threshold with
    | some e => some (some e, w)
    | none =>
      let inputOpen : Except GoError File × World :=
        if inputFilename = [] then (.ok os.stdin, w)
        else (os.openRead (.named inputFilename),
          { w with opened := w.opened ++ [.named inputFilename] })
      match inputOpen with
      | (.error e, w1) => some (some e, w1)
      | (.ok inputFile, w1) =>
        match prepareSplit blockSize (toUint8 partsCount) tape with
        | ((_, _, some e), _) => some (some e, w1)
        | ((partsBuf, xCoords, none), tape1) =>
          match createParts os outDir filePattern xCoords w1.created.length
              partsCount.toNat 0 w1 with
          | none => none
          | some (some e, w2) => some (some e, w2)
          | some (none, w2) =>
            splitFileLoop P os xCoords (toUint8 threshold) polynomPerByte blockSize
              w1.created.length (inputFile.remaining + 1) inputFile partsBuf tape1 w2

/-- The state of the discovery loop of `CombineFiles`: the opened part files and the
common size (`none` is -1). -/
structure Discovery where
  partFiles : List File
  partLen : Option Nat

/-- The discovery loop of `CombineFiles` over the directory entries. The result is the
returned pair when the loop returns early, otherwise the final state. -/
def discoverParts (os : OS) (searchDir filePattern : GoString) :
    List (GoString × Bool) → Discovery → World → ((Int × GoError) ⊕ Discovery) × World
  | [], d, w => (.inr d, w)
  | (name, isDir) :: files, d, w =>
    if isDir then discoverParts os searchDir filePattern files d w
    else if replaceDigitRuns name ≠ filePattern then
      discoverParts os searchDir filePattern files d w
    else
      let w1 : World := { w with opened := w.opened ++ [.join searchDir name] }
      match os.openRead (.join searchDir name) with
      | .error e => (.inl (d.partFiles.length, e), w1)
      | .ok partFile =>
        match partFile.statSize with
        | .error e => (.inl (d.partFiles.length, e), w1)
        | .ok size =>
          match d.partLen with
          | none =>
            discoverParts os searchDir filePattern files
              { partFiles := d.partFiles ++ [partFile], partLen := some size } w1
          | some partLen =>
            if partLen ≠ size then (.inl (0, .differentSize), w1)
            else
              discoverParts os searchDir filePattern files
                { partFiles := d.partFiles ++ [partFile], partLen := some partLen } w1

/-- The loop of `CombineFiles` that reads the first byte of every part file into
`xSamples`: the error of the first failing read, or the x-coordinates and the files
afterwards. -/
def readXSamples : List File → Except GoError (List Byte × List File)
  | [] => .ok ([], [])
  | partFile :: partFiles =>
    match partFile.read 1 with
    | ((_, some e), _) => .error e
    | ((bs, none), partFile1) =>
      match readXSamples partFiles with
      | .error e => .error e
      | .ok (xs, fs) => .ok (bs.headD 0 :: xs, partFile1 :: fs)

/-- How one round of lock-step reads ends. -/
inductive RoundResult
  /-- every part delivered a chunk: the chunks, their common length, the files afterwards -/
  | chunks (partsCombineBuf : List (List Byte)) (currentRead : Int) (partFiles : List File)
  /-- the part at index 0 reported end-of-stream -/
  | finished
  /-- the round returns this error -/
  | failed (e : GoError)

/-- The inner loop of a round of `CombineFiles`: one `Read` of at most `blockSize` bytes
per part file, starting with the part at index `partIdx`. -/
def readRound (blockSize : Nat) : Nat → Int → List File → RoundResult
  | _, currentRead, [] => .chunks [] currentRead []
  | partIdx, currentRead, partFile :: partFiles =>
    match partFile.read blockSize with
    | ((_, some e), _) =>
      if e = .eof then (if partIdx ≠ 0 then .failed .unexpectedEOF else .finished)
      else .failed e
    | ((data, none), partFile1) =>
      if currentRead ≥ 0 ∧ currentRead ≠ (data.length : Int) then .failed .unevenRead
      else
        match readRound blockSize (partIdx + 1)
            (if currentRead < 0 then (data.length : Int) else currentRead) partFiles with
        | .chunks bufs cr fs => .chunks (data :: bufs) cr (partFile1 :: fs)
        | .finished => .finished
        | .failed e => .failed e

/-- The call `outFile.Write(data)`: to the created output file with handle `h`, or to
`os.Stdout`. -/
def writeOutput (os : OS) (outFile : Option Nat) (data : List Byte) (w : World) :
    Option GoError × World :=
  match outFile with
  | none => w.writeStdout os data
  | some h => w.write os h data

/-- The round loop of `CombineFiles`. Every round consumes at least one byte of the first
part file or ends the loop, so the `fuel` that `CombineFiles` supplies is never used up. -/
def combineRounds (P : Nat) (os : OS) (blockSize : Nat) (outFile : Option Nat)
    (xSamples : List Byte) (partsCount : Int) :
    Nat → List File → List Byte → List Byte → World → Option ((Int × Option GoError) × World)
  | 0, _, _, _, _ => none
  | fuel + 1, partFiles, buf, ySamplesBuf, w =>
    match readRound blockSize 0 (-1) partFiles with
    | .failed e => some ((partsCount, some e), w)
    | .finished => some ((partsCount, none), w)
    | .chunks partsCombineBuf currentRead partFiles1 =>
      match combineBlock P buf partsCombineBuf xSamples ySamplesBuf with
      | none => none
      | some ((_, _), some e) => some ((partsCount, some e), w)
      | some ((buf1, ys1), none) =>
        if currentRead < 0 ∨ currentRead > (buf1.length : Int) then none
        else
          match writeOutput os outFile (buf1.take currentRead.toNat) w with
          | (some e, w1) => some ((partsCount, some e), w1)
          | (none, w1) =>
            combineRounds P os blockSize outFile xSamples partsCount fuel partFiles1 buf1 ys1 w1

/-- The effect of `O_TRUNC` in the opening of the output on the part files that are open
already: a part file that is the file at `path` is empty from then on. The part files
stand in the order of their paths. -/
def truncateAliased (os : OS) (path : OsPath) : List OsPath → List File → List File
  | p :: paths, f :: files =>
    (if os.sameFile path p then { f with pending := [] } else f) ::
      truncateAliased os path paths files
  | _, files => files

/-- The function `CombineFiles(searchDir, filePattern, outputFilename, blockSize)`: the
returned pair and the world afterwards. The allocation `buf = make([]byte, blockSize)` of
the `var` block comes before everything else and panics for a too large `blockSize`. The
paths of the part files are those on which the discovery has called `os.Open`. -/
def CombineFiles (P : Nat) (os : OS) (searchDir filePattern outputFilename : GoString)
    (blockSize : Nat) (w : World) : Option ((Int × Option GoError) × World) :=
  let blockSize := if blockSize = 0 then defaultBlockSize else blockSize
  if blockSize > maxAlloc then none
  else if filePattern.length > 0 ∧ replaceAllToken [] filePattern = filePattern then
    some ((0, some .missingToken), w)
  else
    match os.readDir searchDir with
    | .error e => some ((0, some e), w)
    | .ok files =>
      let filePattern := if filePattern = [] then ['%', 'i'] else filePattern
      match discoverParts os searchDir filePattern files { partFiles := [], partLen := none } w with
      | (.inl (n, e), w1) => some ((n, some e), w1)
      | (.inr d, w1) =>
        let partsCount : Int := d.partFiles.length
        let outOpen : Option GoError × Option Nat × World × List File :=
          if outputFilename = [] then (none, none, w1, d.partFiles)
          else
            let r := w1.create os (.named outputFilename)
            (r.1, some w1.created.length, r.2,
              truncateAliased os (.named outputFilename) (w1.opened.drop w.opened.length)
                d.partFiles)
        match outOpen with
        | (some e, _, w2, _) => some ((partsCount, some e), w2)
        | (none, outFile, w2, partFiles) =>
          match readXSamples partFiles with
          | .error e => some ((partsCount, some e), w2)
          | .ok (xSamples, partFiles1) =>
            combineRounds P os blockSize outFile xSamples partsCount
              ((partFiles1.headD (File.regular [])).remaining + 1) partFiles1
              (List.replicate blockSize 0) (List.replicate d.partFiles.length 0) w2

/-! ## Concrete environments used by the examples -/

/-- An environment whose standard input delivers the given segments and in which nothing
can be opened for reading. -/
def exampleSplitOS (segments : List (List Byte)) : OS :=
  { stdin := { pending := segments, failure := none, statSize := .ok 0 }
    openRead := fun _ => .error (.os 2)
    createErr := fun _ => none
    writeErr := fun _ _ => none
    readDir := fun _ => .error (.os 2)
    sameFile := fun _ _ => false }

/-- An environment with one directory that holds the given regular files. -/
def exampleCombineOS (dir : List (GoString × List Byte)) : OS :=
  { stdin := File.regular []
    openRead := fun p =>
      match p with
      | .join _ name =>
        match dir.lookup name with
        | some content => .ok (File.regular content)
        | none => .error (.os 2)
      | .named _ => .error (.os 2)
    createErr := fun _ => none
    writeErr := fun _ _ => none
    readDir := fun _ => .ok (dir.map (fun f => (f.1, false)))
    sameFile := fun _ _ => false }

/-- An environment like `exampleSplitOS` in which every write to a file fails. -/
def exampleNoWriteOS (segments : List (List Byte)) : OS :=
  { exampleSplitOS segments with writeErr := fun _ _ => some (.os 5) }

/-- An environment like `exampleCombineOS` in which the path `out` names the file `name`
of the directory. -/
def exampleAliasOS (dir : List (GoString × List Byte)) (out name : GoString) : OS :=
  { exampleCombineOS dir with
    sameFile := fun p q => decide (p = .named out) && decide (q = .join ['d'] name) }

/-! ## Auxiliary definitions of the proofs -/

open galois

/-- A certificate, checked by evaluation, from which the field laws follow. -/
def fieldCert (P : Nat) : Prop :=
  (∀ i < 8, mulNat P 1 (2 ^ i) = 2 ^ i) ∧
  (∀ i < 7, mulNat P (2 ^ i) 2 = 2 ^ (i + 1)) ∧
  (∀ i < 8, ∀ j < 8, mulNat P (2 ^ i) (2 ^ j) = mulNat P (2 ^ j) (2 ^ i)) ∧
  (∀ i < 8, ∀ j < 8,
    mulNat P (mulNat P (2 ^ i) (2 ^ j)) 2 = mulNat P (2 ^ i) (mulNat P (2 ^ j) 2))

instance (P : Nat) : Decidable (fieldCert P) := by
  unfold fieldCert; infer_instance

/-- Third power on bit patterns. -/
def pw3 (P a : Nat) : Nat := mulNat P (mulNat P a a) a

/-- Fifth power on bit patterns. -/
def pw5 (P a : Nat) : Nat := mulNat P (mulNat P (mulNat P a a) (mulNat P a a)) a

/-- Square on bit patterns. -/
def sqrNat (P a : Nat) : Nat := mulNat P a a

/-- Seventeenth power on bit patterns. -/
def pw17 (P a : Nat) : Nat := mulNat P (sqrNat P (sqrNat P (sqrNat P (sqrNat P a)))) a

/-- The element `g` has multiplicative order 255 = 3 * 5 * 17. -/
def isGenerator (P g : Nat) : Bool :=
  pw17 P (pw5 P (pw3 P g)) == 1 && pw17 P (pw5 P g) != 1 && pw17 P (pw3 P g) != 1 &&
    pw5 P (pw3 P g) != 1

/-- The bytes with the arithmetic of package `galois` for the reduction polynomial `P`. -/
structure GF (P : Nat) where
  val : Byte
  deriving DecidableEq

namespace GF

variable {P : Nat}

instance : Zero (GF P) := ⟨⟨0⟩⟩
instance : One (GF P) := ⟨⟨1⟩⟩
instance : Add (GF P) := ⟨fun a b => ⟨galois.Add a.val b.val⟩⟩
instance : Neg (GF P) := ⟨fun a => a⟩
instance : Mul (GF P) := ⟨fun a b => ⟨galois.Mul P a.val b.val⟩⟩

/-- The equivalence with the bytes. -/
def equivByte : GF P ≃ Byte where
  toFun := GF.val
  invFun := GF.mk
  left_inv := fun _ => rfl
  right_inv := fun _ => rfl

instance : Fintype (GF P) := Fintype.ofEquiv Byte equivByte.symm

end GF

/-- The bit pattern of a field element. -/
def GF.toNat {P : Nat} (x : GF P) : Nat := x.val.val

/-- The inverse used by the field structure: the result of `invert`, and 0 at 0. -/
def GF.invFn {P : Nat} (a : GF P) : GF P :=
  match invert P a.val with
  | .ok b => ⟨b⟩
  | .error _ => 0

/-- The value at `x` of the polynomial with coefficient list `coefs` (0 for the empty
list). -/
def evalCoefs (P : Nat) (coefs : List Byte) (x : Byte) : Byte :=
  (polynomial.evaluate P ⟨coefs⟩ x).getD 0

/-- The y-values of one share for the bytes of `block`: the polynomial of byte `b` has the
coefficients `b :: cs`. -/
def colVals (P : Nat) (block : List Byte) (coeffs : List (List Byte)) (x : Byte) : List Byte :=
  List.zipWith (fun b cs => evalCoefs P (b :: cs) x) block coeffs

/-- The content of `buf` after `splitBlock` has written the columns `i, ..., i + len(block) - 1`. -/
def blockRows (P : Nat) (block : List Byte) (coeffs : List (List Byte)) (i : Nat)
    (buf : List (List Byte)) (xCoords : List Byte) : List (List Byte) :=
  List.zipWith (fun row x => row.take i ++ colVals P block coeffs x ++ row.drop (i + block.length))
    buf xCoords

/-- The value that `interpolate` returns at 0 (0 after a panic). -/
def interpAt0 (P : Nat) (xSamples ySamples : List Byte) : Byte :=
  match interpolate P xSamples ySamples 0 with
  | some (v, _) => v
  | none => 0

/-- All bytes that a list of segments holds. -/
def segBytes : List (List Byte) → List Byte
  | [] => []
  | seg :: rest => seg ++ segBytes rest

/-- All bytes that a file will still deliver. -/
def File.content (f : File) : List Byte := segBytes f.pending

/-- The name of part file `partIdx`, when the pattern is acceptable. -/
def partName (filePattern : GoString) (partIdx : Nat) : GoString :=
  match partFileName filePattern partIdx with
  | .ok s => s
  | .error _ => []

/-- The file `f` is a regular file that still holds exactly the bytes `r`. -/
def File.holds (f : File) (r : List Byte) : Prop :=
  f.failure = none ∧ (f.pending = [r] ∨ (f.pending = [] ∧ r = []))

/-- Where `CombineFiles` has written: the outcome of appending `data` to the output. -/
def outputGrown (outFile : Option Nat) (w w1 : World) (data : List Byte) : Prop :=
  w1.opened = w.opened ∧
  match outFile with
  | none => w1.stdout = w.stdout ++ data ∧ w1.created = w.created
  | some h => w1.stdout = w.stdout ∧
      ∃ p c, w.created[h]? = some (p, c) ∧ w1.created = w.created.set h (p, c ++ data)

/-- The directory entries that the discovery loop of `CombineFiles` selects for the
effective pattern `filePattern`. -/
def selectedEntries (filePattern : GoString) (files : List (GoString × Bool)) :
    List (GoString × Bool) :=
  files.filter (fun e => !e.2 && decide (replaceDigitRuns e.1 = filePattern))

/-- The file that `os.Open` returns for an entry of the search directory (an empty file
when the call fails). -/
def openedFile (os : OS) (searchDir : GoString) (name : GoString) : File :=
  match os.openRead (.join searchDir name) with
  | .ok f => f
  | .error _ => File.regular []

/-- The size that `Stat()` reports for an entry of the search directory, when both
`os.Open` and `Stat()` succeed on it. -/
def partSize (os : OS) (searchDir name : GoString) : Option Nat :=
  match os.openRead (.join searchDir name) with
  | .ok f =>
    match f.statSize with
    | .ok size => some size
    | .error _ => none
  | .error _ => none

/-- The state of the round loop of `CombineFiles`: the part files, the buffers `buf` and
`ySamplesBuf`, and the outside world. -/
structure RoundState where
  partFiles : List File
  buf : List Byte
  ySamplesBuf : List Byte
  world : World

/-- One round of `CombineFiles` that runs to its end: every part delivers a chunk, the
block is reconstructed and written. `none` when the round leaves the loop instead. -/
def combineRound (P : Nat) (os : OS) (blockSize : Nat) (outFile : Option Nat)
    (xSamples : List Byte) (s : RoundState) : Option RoundState :=
  match readRound blockSize 0 (-1) s.partFiles with
  | .chunks partsCombineBuf currentRead partFiles1 =>
    match combineBlock P s.buf partsCombineBuf xSamples s.ySamplesBuf with
    | some ((buf1, ys1), none) =>
      if currentRead < 0 ∨ currentRead > (buf1.length : Int) then none
      else
        match writeOutput os outFile (buf1.take currentRead.toNat) s.world with
        | (none, w1) => some ⟨partFiles1, buf1, ys1, w1⟩
        | (some _, _) => none
    | _ => none
  | _ => none

/-- The state after `k` rounds that ran to their end. -/
def combineRoundsN (P : Nat) (os : OS) (blockSize : Nat) (outFile : Option Nat)
    (xSamples : List Byte) : Nat → RoundState → Option RoundState
  | 0, s => some s
  | k + 1, s =>
    match combineRound P os blockSize outFile xSamples s with
    | none => none
    | some s1 => combineRoundsN P os blockSize outFile xSamples k s1

/-- The bytes `s pos, s (pos + 1), ..., s (pos + len - 1)` of an endless random stream `s`,
as a tape. -/
def streamFrom (s : Nat → Byte) (pos len : Nat) : Tape :=
  (List.range len).map (fun i => s (pos + i))

/-! ## Field structure of the byte arithmetic -/

section FieldProofs
open galois

theorem shiftLeft_xor (a b i : Nat) : (a ^^^ b) <<< i = a <<< i ^^^ b <<< i := by
  apply Nat.eq_of_testBit_eq; intro j
  simp only [Nat.testBit_xor, Nat.testBit_shiftLeft]
  cases decide (j ≥ i) <;> simp

theorem xor_xor_xor_self (a b s : Nat) : (a ^^^ s) ^^^ (b ^^^ s) = a ^^^ b := by
  rw [Nat.xor_assoc, Nat.xor_comm b s, ← Nat.xor_assoc s, Nat.xor_self, Nat.zero_xor]

theorem xor_xor_xor_comm (a b c d : Nat) :
    (a ^^^ b) ^^^ (c ^^^ d) = (a ^^^ c) ^^^ (b ^^^ d) := by
  ac_rfl

theorem clmulFrom_xor_left (a a' b : Nat) (k : Nat) :
    clmulFrom (a ^^^ a') b k = clmulFrom a b k ^^^ clmulFrom a' b k := by
  induction k with
  | zero => simp [clmulFrom]
  | succ i ih =>
    simp only [clmulFrom, ih, shiftLeft_xor]
    split
    · exact xor_xor_xor_comm _ _ _ _
    · rfl

theorem clmulFrom_xor_right (a b b' : Nat) (k : Nat) :
    clmulFrom a (b ^^^ b') k = clmulFrom a b k ^^^ clmulFrom a b' k := by
  induction k with
  | zero => simp [clmulFrom]
  | succ i ih =>
    simp only [clmulFrom, ih, Nat.testBit_xor]
    cases b.testBit i <;> cases b'.testBit i <;> simp
    · ac_rfl
    · ac_rfl
    · exact (xor_xor_xor_self _ _ _).symm

theorem polyModFrom_xor (d e : Nat) (k : Nat) (n m : Nat) :
    polyModFrom d e k (n ^^^ m) = polyModFrom d e k n ^^^ polyModFrom d e k m := by
  induction k generalizing n m with
  | zero => simp [polyModFrom]
  | succ i ih =>
    simp only [polyModFrom, ← ih, Nat.testBit_xor]
    congr 1
    cases n.testBit (i + e) <;> cases m.testBit (i + e) <;> simp
    · ac_rfl
    · ac_rfl
    · exact (xor_xor_xor_self _ _ _).symm

theorem xor_mod_256 (n m : Nat) : (n ^^^ m) % 256 = n % 256 ^^^ m % 256 := by
  apply Nat.eq_of_testBit_eq; intro j
  have h : (256 : Nat) = 2 ^ 8 := by norm_num
  simp only [h, Nat.testBit_mod_two_pow, Nat.testBit_xor]
  cases decide (j < 8) <;> simp

theorem mulNat_xor_left (P a a' b : Nat) :
    mulNat P (a ^^^ a') b = mulNat P a b ^^^ mulNat P a' b := by
  simp [mulNat, clmul, clmulFrom_xor_left, polyModFrom_xor, xor_mod_256]

theorem mulNat_xor_right (P a b b' : Nat) :
    mulNat P a (b ^^^ b') = mulNat P a b ^^^ mulNat P a b' := by
  simp [mulNat, clmul, clmulFrom_xor_right, polyModFrom_xor, xor_mod_256]

theorem mulNat_lt (P a b : Nat) : mulNat P a b < 256 := Nat.mod_lt _ (by decide)

theorem xor_two_pow_lt :
    ∀ k < 8, ∀ a < 256, 2 ^ k ≤ a → a < 2 ^ (k + 1) → a ^^^ 2 ^ k < 2 ^ k := by
  decide

/-- Two xor-additive functions that agree on the powers of two agree on all bytes. -/
theorem additive_ext (f g : Nat → Nat) (hf : ∀ a b, f (a ^^^ b) = f a ^^^ f b)
    (hg : ∀ a b, g (a ^^^ b) = g a ^^^ g b) (h : ∀ i < 8, f (2 ^ i) = g (2 ^ i)) :
    ∀ a < 256, f a = g a := by
  have zero : ∀ (u : Nat → Nat), (∀ a b, u (a ^^^ b) = u a ^^^ u b) → u 0 = 0 := by
    intro u hu
    have := hu 0 0
    simp only [Nat.xor_self] at this
    exact this
  have key : ∀ k, k ≤ 8 → ∀ a, a < 2 ^ k → f a = g a := by
    intro k
    induction k with
    | zero =>
      intro _ a ha
      have : a = 0 := by simpa using ha
      subst this
      rw [zero f hf, zero g hg]
    | succ k ih =>
      intro hk a ha
      by_cases hlt : a < 2 ^ k
      · exact ih (by omega) a hlt
      · have ha256 : a < 256 :=
          lt_of_lt_of_le ha (by
            have : (256 : Nat) = 2 ^ 8 := by norm_num
            rw [this]; exact Nat.pow_le_pow_right (by norm_num) hk)
        have hb := xor_two_pow_lt k (by omega) a ha256 (by omega) ha
        have hab : a = (a ^^^ 2 ^ k) ^^^ 2 ^ k := (Nat.xor_cancel_right _ _).symm
        rw [hab, hf, hg, ih (by omega) _ hb, h k (by omega)]
  intro a ha
  exact key 8 le_rfl a (by simpa using ha)

theorem fieldCert_of_irreducible8 : ∀ P < 512, irreducible8 P = true → fieldCert P := by
  decide!

theorem irreducible8_lt {P : Nat} (h : irreducible8 P = true) : P < 512 := by
  simp only [irreducible8, Bool.and_eq_true, decide_eq_true_eq] at h
  exact h.1.2

variable {P : Nat}

theorem mulNat_one_left (h : irreducible8 P = true) : ∀ b < 256, mulNat P 1 b = b :=
  additive_ext (mulNat P 1) id (mulNat_xor_right P 1) (fun _ _ => rfl)
    (fieldCert_of_irreducible8 P (irreducible8_lt h) h).1

theorem mulNat_comm (h : irreducible8 P = true) :
    ∀ a < 256, ∀ b < 256, mulNat P a b = mulNat P b a := by
  have c := (fieldCert_of_irreducible8 P (irreducible8_lt h) h).2.2.1
  intro a ha b hb
  refine additive_ext (fun a => mulNat P a b) (fun a => mulNat P b a)
    (fun x y => mulNat_xor_left P x y b) (fun x y => mulNat_xor_right P b x y) ?_ a ha
  intro i hi
  exact additive_ext (fun b => mulNat P (2 ^ i) b) (fun b => mulNat P b (2 ^ i))
    (fun x y => mulNat_xor_right P _ x y) (fun x y => mulNat_xor_left P x y _)
    (fun j hj => c i hi j hj) b hb

theorem mulNat_zero_left (P b : Nat) : mulNat P 0 b = 0 := by
  have := mulNat_xor_left P 0 0 b
  simpa using this

theorem mulNat_zero_right (P a : Nat) : mulNat P a 0 = 0 := by
  have := mulNat_xor_right P a 0 0
  simpa using this

theorem mulNat_assoc_two (h : irreducible8 P = true) :
    ∀ a < 256, ∀ b < 256, mulNat P (mulNat P a b) 2 = mulNat P a (mulNat P b 2) := by
  have c := (fieldCert_of_irreducible8 P (irreducible8_lt h) h).2.2.2
  intro a ha b hb
  refine additive_ext (fun a => mulNat P (mulNat P a b) 2) (fun a => mulNat P a (mulNat P b 2))
    (fun x y => by simp only [mulNat_xor_left]) (fun x y => by simp only [mulNat_xor_left]) ?_ a ha
  intro i hi
  exact additive_ext (fun b => mulNat P (mulNat P (2 ^ i) b) 2)
    (fun b => mulNat P (2 ^ i) (mulNat P b 2))
    (fun x y => by simp only [mulNat_xor_left, mulNat_xor_right])
    (fun x y => by simp only [mulNat_xor_left, mulNat_xor_right])
    (fun j hj => c i hi j hj) b hb

theorem mulNat_assoc (h : irreducible8 P = true) :
    ∀ a < 256, ∀ b < 256, ∀ c < 256,
      mulNat P (mulNat P a b) c = mulNat P a (mulNat P b c) := by
  have cert := fieldCert_of_irreducible8 P (irreducible8_lt h) h
  have two := mulNat_assoc_two h
  have pw : ∀ i, i < 8 → ∀ a < 256, ∀ b < 256,
      mulNat P (mulNat P a b) (2 ^ i) = mulNat P a (mulNat P b (2 ^ i)) := by
    intro i
    induction i with
    | zero =>
      intro _ a _ b hb
      have h1 : ∀ x < 256, mulNat P x (2 ^ 0) = x := by
        intro x hx
        rw [pow_zero, mulNat_comm h x hx 1 (by norm_num), mulNat_one_left h x hx]
      rw [h1 _ (mulNat_lt _ _ _), h1 b hb]
    | succ i ih =>
      intro hi a ha b hb
      have hstep := cert.2.1 i (by omega)
      have hpi : 2 ^ i < 256 := by
        have : (256 : Nat) = 2 ^ 8 := by norm_num
        rw [this]; exact Nat.pow_lt_pow_right (by norm_num) (by omega)
      rw [← hstep, ← two _ (mulNat_lt _ _ _) _ hpi, ih (by omega) a ha b hb,
        two a ha _ (mulNat_lt _ _ _), two b hb _ hpi]
  intro a ha b hb c hc
  exact additive_ext (fun c => mulNat P (mulNat P a b) c) (fun c => mulNat P a (mulNat P b c))
    (fun x y => mulNat_xor_right P _ x y)
    (fun x y => by simp only [mulNat_xor_right]) (fun i hi => pw i hi a ha b hb) c hc

end FieldProofs

/-! ## The field `GF P` -/

namespace GF
open galois

variable {P : Nat}

theorem ext_val {a b : GF P} (h : a.val = b.val) : a = b := by
  cases a; cases b; simp_all

@[simp] theorem zero_val : (0 : GF P).val = 0 := rfl
@[simp] theorem one_val : (1 : GF P).val = 1 := rfl
@[simp] theorem add_val (a b : GF P) : (a + b).val = galois.Add a.val b.val := rfl
@[simp] theorem mul_val (a b : GF P) : (a * b).val = galois.Mul P a.val b.val := rfl
@[simp] theorem neg_eq (a : GF P) : -a = a := rfl

theorem card_eq : Fintype.card (GF P) = 256 := by
  rw [Fintype.card_congr equivByte]; simp

end GF

section RingLaws
open galois
variable {P : Nat}

theorem Add_comm (a b : Byte) : galois.Add a b = galois.Add b a :=
  Fin.ext (Nat.xor_comm _ _)

theorem Add_assoc (a b c : Byte) :
    galois.Add (galois.Add a b) c = galois.Add a (galois.Add b c) :=
  Fin.ext (Nat.xor_assoc _ _ _)

theorem Add_zero (a : Byte) : galois.Add a 0 = a := Fin.ext (Nat.xor_zero _)

theorem zero_Add (a : Byte) : galois.Add 0 a = a := Fin.ext (Nat.zero_xor _)

theorem Add_self (a : Byte) : galois.Add a a = 0 := Fin.ext (Nat.xor_self _)

theorem Add_eq_zero_iff (a b : Byte) : galois.Add a b = 0 ↔ a = b := by
  constructor
  · intro h
    have := congrArg Fin.val h
    exact Fin.ext (Nat.xor_eq_zero.mp this)
  · rintro rfl; exact Add_self a

theorem Mul_zero (P : Nat) (a : Byte) : galois.Mul P a 0 = 0 :=
  Fin.ext (mulNat_zero_right P a.val)

theorem zero_Mul (P : Nat) (a : Byte) : galois.Mul P 0 a = 0 :=
  Fin.ext (mulNat_zero_left P a.val)

theorem Mul_Add (P : Nat) (a b c : Byte) :
    galois.Mul P a (galois.Add b c) = galois.Add (galois.Mul P a b) (galois.Mul P a c) :=
  Fin.ext (mulNat_xor_right P _ _ _)

theorem Add_Mul (P : Nat) (a b c : Byte) :
    galois.Mul P (galois.Add a b) c = galois.Add (galois.Mul P a c) (galois.Mul P b c) :=
  Fin.ext (mulNat_xor_left P _ _ _)

theorem Mul_comm (h : irreducible8 P = true) (a b : Byte) :
    galois.Mul P a b = galois.Mul P b a :=
  Fin.ext (mulNat_comm h _ a.isLt _ b.isLt)

theorem Mul_assoc (h : irreducible8 P = true) (a b c : Byte) :
    galois.Mul P (galois.Mul P a b) c = galois.Mul P a (galois.Mul P b c) :=
  Fin.ext (mulNat_assoc h _ a.isLt _ b.isLt _ c.isLt)

theorem one_Mul (h : irreducible8 P = true) (a : Byte) : galois.Mul P 1 a = a :=
  Fin.ext (mulNat_one_left h _ a.isLt)

theorem Mul_one (h : irreducible8 P = true) (a : Byte) : galois.Mul P a 1 = a := by
  rw [Mul_comm h, one_Mul h]

end RingLaws

namespace GF
open galois
variable {P : Nat}

instance instCommRing [hP : Fact (irreducible8 P = true)] : CommRing (GF P) where
  add_assoc a b c := ext_val (Add_assoc _ _ _)
  zero_add a := ext_val (zero_Add _)
  add_zero a := ext_val (Add_zero _)
  nsmul := nsmulRec
  zsmul := zsmulRec
  neg_add_cancel a := ext_val (Add_self _)
  add_comm a b := ext_val (Add_comm _ _)
  left_distrib a b c := ext_val (Mul_Add P _ _ _)
  right_distrib a b c := ext_val (Add_Mul P _ _ _)
  zero_mul a := ext_val (zero_Mul P _)
  mul_zero a := ext_val (Mul_zero P _)
  mul_assoc a b c := ext_val (Mul_assoc hP.out _ _ _)
  one_mul a := ext_val (one_Mul hP.out _)
  mul_one a := ext_val (Mul_one hP.out _)
  mul_comm a b := ext_val (Mul_comm hP.out _ _)

theorem zero_ne_one' : (0 : GF P) ≠ 1 := by
  intro h
  have := congrArg (fun a : GF P => a.val.val) h
  simp at this

theorem add_self_eq_zero' (a : GF P) : a + a = 0 := ext_val (Add_self _)

end GF

section Generator
open galois

theorem generator_of_irreducible8 :
    ∀ P < 512, irreducible8 P = true → ∃ g < 16, isGenerator P g = true := by
  decide!

variable {P : Nat}

theorem GF.toNat_mul (x y : GF P) : (x * y).toNat = mulNat P x.toNat y.toNat := rfl

theorem GF.toNat_inj {x y : GF P} (h : x.toNat = y.toNat) : x = y :=
  GF.ext_val (Fin.ext h)

theorem GF.toNat_eq_one {x : GF P} : x.toNat = 1 ↔ x = 1 :=
  ⟨fun h => GF.toNat_inj h, fun h => by rw [h]; rfl⟩

variable [hP : Fact (irreducible8 P = true)]

theorem GF.toNat_pow3 (x : GF P) : (x ^ 3).toNat = pw3 P x.toNat := by
  have : x ^ 3 = x * x * x := by ring
  rw [this]; rfl

theorem GF.toNat_pow5 (x : GF P) : (x ^ 5).toNat = pw5 P x.toNat := by
  have : x ^ 5 = (x * x) * (x * x) * x := by ring
  rw [this]; rfl

theorem GF.toNat_pow17 (x : GF P) : (x ^ 17).toNat = pw17 P x.toNat := by
  have : x ^ 17 = (((x * x) * (x * x)) * ((x * x) * (x * x))) *
      (((x * x) * (x * x)) * ((x * x) * (x * x))) * x := by ring
  rw [this]; rfl

theorem GF.exists_orderOf : ∃ g : GF P, orderOf g = 255 := by
  obtain ⟨g0, hg0, hgen⟩ := generator_of_irreducible8 P (irreducible8_lt hP.out) hP.out
  let g : GF P := ⟨⟨g0, by omega⟩⟩
  have hg : g.toNat = g0 := rfl
  simp only [isGenerator, Bool.and_eq_true, beq_iff_eq, bne_iff_ne, ne_eq] at hgen
  obtain ⟨⟨⟨h255, h85⟩, h51⟩, h15⟩ := hgen
  rw [← hg, ← GF.toNat_pow3, ← GF.toNat_pow5, ← GF.toNat_pow17, GF.toNat_eq_one] at h255
  rw [← hg, ← GF.toNat_pow5, ← GF.toNat_pow17, GF.toNat_eq_one] at h85
  rw [← hg, ← GF.toNat_pow3, ← GF.toNat_pow17, GF.toNat_eq_one] at h51
  rw [← hg, ← GF.toNat_pow3, ← GF.toNat_pow5, GF.toNat_eq_one] at h15
  rw [← pow_mul, ← pow_mul] at h255
  rw [← pow_mul] at h85 h51 h15
  refine ⟨g, orderOf_eq_of_pow_and_pow_div_prime (by norm_num) h255 ?_⟩
  intro p hp hdvd
  have h3 : (255 : Nat) = 3 * (5 * 17) := by norm_num
  rw [h3] at hdvd
  rcases (Nat.Prime.dvd_mul hp).mp hdvd with h | h
  · have : p = 3 := (Nat.prime_dvd_prime_iff_eq hp (by norm_num)).mp h
    subst this; exact h85
  · rcases (Nat.Prime.dvd_mul hp).mp h with h | h
    · have : p = 5 := (Nat.prime_dvd_prime_iff_eq hp (by norm_num)).mp h
      subst this; exact h51
    · have : p = 17 := (Nat.prime_dvd_prime_iff_eq hp (by norm_num)).mp h
      subst this; exact h15

/-- Every nonzero element has a multiplicative inverse. -/
theorem GF.exists_mul_eq_one (a : GF P) (ha : a ≠ 0) : ∃ b : GF P, a * b = 1 := by
  obtain ⟨g, hg⟩ := GF.exists_orderOf (P := P)
  have hg255 : g ^ 255 = 1 := by rw [← hg]; exact pow_orderOf_eq_one g
  have hne : ∀ k : Fin 255, g ^ (k : Nat) ≠ 0 := by
    intro k h0
    have : g ^ (k : Nat) * g ^ (255 - (k : Nat)) = 1 := by
      rw [← pow_add, Nat.add_sub_cancel' (le_of_lt k.isLt), hg255]
    rw [h0, zero_mul] at this
    exact GF.zero_ne_one' this
  have hinj : Function.Injective (fun k : Fin 255 => g ^ (k : Nat)) := by
    intro i j hij
    have := pow_injOn_Iio_orderOf (x := g) (by simp [hg]) (by simp [hg]) hij
    exact Fin.ext this
  have hsub : Finset.image (fun k : Fin 255 => g ^ (k : Nat)) Finset.univ ⊆
      Finset.univ.erase (0 : GF P) := by
    intro x hx
    obtain ⟨k, _, rfl⟩ := Finset.mem_image.mp hx
    exact Finset.mem_erase.mpr ⟨hne k, Finset.mem_univ _⟩
  have hcard : (Finset.univ.erase (0 : GF P)).card ≤
      (Finset.image (fun k : Fin 255 => g ^ (k : Nat)) Finset.univ).card := by
    rw [Finset.card_image_of_injective _ hinj, Finset.card_erase_of_mem (Finset.mem_univ _),
      Finset.card_univ, Finset.card_univ, GF.card_eq]
    simp
  have heq := Finset.eq_of_subset_of_card_le hsub hcard
  have hmem : a ∈ Finset.univ.erase (0 : GF P) := Finset.mem_erase.mpr ⟨ha, Finset.mem_univ _⟩
  rw [← heq] at hmem
  obtain ⟨k, _, rfl⟩ := Finset.mem_image.mp hmem
  exact ⟨g ^ (255 - (k : Nat)), by
    rw [← pow_add, Nat.add_sub_cancel' (le_of_lt k.isLt), hg255]⟩

end Generator

section Inverse
open galois
variable {P : Nat}

theorem invert_zero (P : Nat) : invert P 0 = .error .divideByZero := by
  simp [invert]

/-- For an irreducible `P` the search of `invert` succeeds on every nonzero byte. -/
theorem invert_eq_ok (h : irreducible8 P = true) (a : Byte) (ha : a ≠ 0) :
    ∃ b, invert P a = .ok b ∧ galois.Mul P a b = 1 := by
  haveI : Fact (irreducible8 P = true) := ⟨h⟩
  have hne : (⟨a⟩ : GF P) ≠ 0 := fun h0 => ha (congrArg GF.val h0)
  obtain ⟨b, hb⟩ := GF.exists_mul_eq_one (⟨a⟩ : GF P) hne
  have hb1 : galois.Mul P a b.val = 1 := congrArg GF.val hb
  cases hf : (List.finRange 256).find? (fun b => galois.Mul P a b = 1) with
  | none =>
    have := List.find?_eq_none.mp hf b.val (List.mem_finRange _)
    simp [hb1] at this
  | some c =>
    have hc := List.find?_some hf
    refine ⟨c, ?_, by simpa using hc⟩
    simp [invert, ha, hf]

theorem Div_zero (P : Nat) (a : Byte) : galois.Div P a 0 = .error .divideByZero := by
  simp [galois.Div, invert_zero]

instance GF.instField [hP : Fact (irreducible8 P = true)] : Field (GF P) :=
  { GF.instCommRing with
    inv := GF.invFn
    exists_pair_ne := ⟨0, 1, GF.zero_ne_one'⟩
    mul_inv_cancel := by
      intro a ha
      have hne : a.val ≠ 0 := fun h0 => ha (GF.ext_val h0)
      obtain ⟨b, hb, hmul⟩ := invert_eq_ok hP.out a.val hne
      show a * GF.invFn a = 1
      simp only [GF.invFn, hb]
      exact GF.ext_val hmul
    inv_zero := by
      show GF.invFn (0 : GF P) = 0
      simp [GF.invFn, invert_zero]
    nnqsmul := _
    nnqsmul_def := fun _ _ => rfl
    qsmul := _
    qsmul_def := fun _ _ => rfl }

/-- The function `galois.Div` is the division of the field whenever the divisor is not 0. -/
theorem Div_eq_ok [Fact (irreducible8 P = true)] (a b : Byte) (hb : b ≠ 0) :
    galois.Div P a b = .ok ((⟨a⟩ : GF P) / ⟨b⟩).val := by
  obtain ⟨i, hi, _⟩ := invert_eq_ok (Fact.out : irreducible8 P = true) b hb
  have hinv : ((⟨b⟩ : GF P))⁻¹ = ⟨i⟩ := by
    show GF.invFn (⟨b⟩ : GF P) = ⟨i⟩
    simp [GF.invFn, hi]
  rw [div_eq_mul_inv, hinv]
  simp [galois.Div, hi]

end Inverse

section Evaluate
open galois Polynomial
variable {P : Nat} [hP : Fact (irreducible8 P = true)]

/-- The polynomial over `GF P` with the given list of coefficients, constant term first. -/
noncomputable def polyOfList : List Byte → (GF P)[X]
  | [] => 0
  | c :: cs => C (⟨c⟩ : GF P) + X * polyOfList cs

theorem eval_polyOfList_cons (x : GF P) (c : Byte) (cs : List Byte) :
    eval x (polyOfList (P := P) (c :: cs)) = ⟨c⟩ + x * eval x (polyOfList (P := P) cs) := by
  simp [polyOfList]

theorem horner_foldl (x : Byte) (acc : Byte) (lower : List Byte) :
    (⟨lower.foldl (fun ret c => galois.Add (galois.Mul P ret x) c) acc⟩ : GF P) =
      eval ⟨x⟩ (polyOfList (P := P) (lower.reverse ++ [acc])) := by
  induction lower using List.reverseRecOn with
  | nil => simp [polyOfList]
  | append_singleton l c ih =>
    rw [List.foldl_append, List.reverse_append]
    simp only [List.foldl_cons, List.foldl_nil, List.reverse_cons, List.reverse_nil,
      List.nil_append, List.singleton_append, List.cons_append]
    rw [eval_polyOfList_cons, ← ih]
    apply GF.ext_val
    simp only [GF.add_val, GF.mul_val]
    rw [Add_comm, Mul_comm hP.out]

/-- The method `evaluate` computes the value of the polynomial with the coefficients
`p.coefs`. -/
theorem evaluate_eq (c : Byte) (cs : List Byte) (x : Byte) :
    polynomial.evaluate P ⟨c :: cs⟩ x = some (eval (⟨x⟩ : GF P) (polyOfList (c :: cs))).val := by
  unfold polynomial.evaluate
  by_cases hx : x = 0
  · subst hx
    have h0 : (⟨0⟩ : GF P) = 0 := rfl
    simp [polyOfList, h0]
  · simp only [hx, if_false]
    have hne : (c :: cs).reverse ≠ [] := by simp
    cases hrev : (c :: cs).reverse with
    | nil => exact absurd hrev hne
    | cons top lower =>
      simp only
      have := horner_foldl (P := P) x top lower
      have hl : lower.reverse ++ [top] = c :: cs := by
        have := congrArg List.reverse hrev
        simpa using this.symm
      rw [hl] at this
      rw [← this]

theorem degree_polyOfList_lt (cs : List Byte) :
    (polyOfList (P := P) cs).degree < (cs.length : WithBot Nat) := by
  induction cs with
  | nil => simp [polyOfList]
  | cons c cs ih =>
    simp only [polyOfList, List.length_cons]
    refine lt_of_le_of_lt (degree_add_le _ _) (max_lt ?_ ?_)
    · exact lt_of_le_of_lt degree_C_le (by exact_mod_cast Nat.succ_pos _)
    · rw [mul_comm, degree_mul_X]
      by_cases h0 : polyOfList (P := P) cs = 0
      · rw [h0]; simp only [degree_zero, WithBot.bot_add]
        exact_mod_cast WithBot.bot_lt_coe (cs.length + 1)
      · have := ih
        rw [degree_eq_natDegree h0] at this ⊢
        have h1 : (polyOfList (P := P) cs).natDegree < cs.length := by exact_mod_cast this
        exact_mod_cast Nat.succ_lt_succ h1

end Evaluate

section Interpolate
open galois Polynomial
variable {P : Nat}

theorem GF.mk_add (a b : Byte) : (⟨galois.Add a b⟩ : GF P) = ⟨a⟩ + ⟨b⟩ := rfl

theorem GF.mk_mul (a b : Byte) : (⟨galois.Mul P a b⟩ : GF P) = ⟨a⟩ * ⟨b⟩ := rfl

theorem GF.mk_val (a : GF P) : (⟨a.val⟩ : GF P) = a := rfl

variable [hP : Fact (irreducible8 P = true)]

theorem GF.sub_eq_add (a b : GF P) : a - b = a + b := by
  rw [sub_eq_add_neg]; rfl

/-- One factor of the Lagrange basis value as `interpolate` computes it. -/
def basisFactor (x0 xi : GF P) (i : Nat) (jx : Nat × Byte) : GF P :=
  if i = jx.1 then 1 else (x0 + ⟨jx.2⟩) / (xi + ⟨jx.2⟩)

theorem interpolateBasis_eq (x0 : Byte) (i : Nat) (xi : Byte) (l : List (Nat × Byte))
    (b : Byte) (h : ∀ jx ∈ l, i ≠ jx.1 → jx.2 ≠ xi) :
    interpolateBasis P x0 i xi l b =
      .ok ((⟨b⟩ : GF P) * (l.map (basisFactor ⟨x0⟩ ⟨xi⟩ i)).prod).val := by
  induction l generalizing b with
  | nil => simp [interpolateBasis]
  | cons jx l ih =>
    obtain ⟨j, xj⟩ := jx
    have hl : ∀ jx ∈ l, i ≠ jx.1 → jx.2 ≠ xi := fun jx hjx => h jx (List.mem_cons_of_mem _ hjx)
    by_cases hij : i = j
    · subst hij
      simp only [interpolateBasis, if_true]
      rw [ih b hl]
      simp [basisFactor]
    · have hne : xj ≠ xi := h (j, xj) (List.mem_cons_self _ _) hij
      have hden : galois.Add xi xj ≠ 0 := fun h0 => hne ((Add_eq_zero_iff _ _).mp h0).symm
      simp only [interpolateBasis, hij, if_false, Div_eq_ok (P := P) _ _ hden]
      rw [ih _ hl]
      simp only [List.map_cons, List.prod_cons, basisFactor, hij, if_false]
      congr 2
      rw [GF.mk_mul, GF.mk_val, GF.mk_add, GF.mk_add, mul_assoc]

theorem interpolateLoop_eq (xs ys : List Byte) (x0 : Byte) (l : List (Nat × Byte)) (ret : Byte)
    (hd : ∀ ix ∈ l, ∀ jx ∈ xs.enum, ix.1 ≠ jx.1 → jx.2 ≠ ix.2)
    (hy : ∀ ix ∈ l, ix.1 < ys.length) :
    interpolateLoop P xs ys x0 l ret =
      some (((⟨ret⟩ : GF P) + (l.map (fun ix => (⟨ys.getD ix.1 0⟩ : GF P) *
        (xs.enum.map (basisFactor ⟨x0⟩ ⟨ix.2⟩ ix.1)).prod)).sum).val, none) := by
  induction l generalizing ret with
  | nil => simp [interpolateLoop]
  | cons ix l ih =>
    obtain ⟨i, xi⟩ := ix
    have hi : i < ys.length := hy (i, xi) (List.mem_cons_self _ _)
    have hb := interpolateBasis_eq (P := P) x0 i xi xs.enum 1
      (fun jx hjx hne => hd (i, xi) (List.mem_cons_self _ _) jx hjx hne)
    simp only [interpolateLoop, hb, List.getElem?_eq_getElem hi]
    rw [ih _ (fun ix hix => hd ix (List.mem_cons_of_mem _ hix))
      (fun ix hix => hy ix (List.mem_cons_of_mem _ hix))]
    simp only [List.map_cons, List.sum_cons]
    have h1 : (⟨(1 : Byte)⟩ : GF P) = 1 := rfl
    have hg : ys.getD i 0 = ys[i] := List.getD_eq_getElem _ _ hi
    rw [GF.mk_add, GF.mk_mul, GF.mk_val, h1, one_mul, add_assoc, hg]

theorem enum_eq_ofFn (xs : List Byte) :
    xs.enum = List.ofFn (fun i : Fin xs.length => ((i : Nat), xs.get i)) := by
  apply List.ext_get
  · simp
  · intro n h1 h2
    simp

/-- The function `interpolate` evaluates the Lagrange interpolation polynomial through the
samples, provided the x-coordinates are pairwise distinct. -/
theorem interpolate_eq_lagrange (xs ys : List Byte) (x0 : Byte) (hnd : xs.Nodup)
    (hlen : ys.length = xs.length) :
    interpolate P xs ys x0 = some ((eval (⟨x0⟩ : GF P)
      (Lagrange.interpolate Finset.univ (fun i : Fin xs.length => (⟨xs.get i⟩ : GF P))
        (fun i : Fin xs.length => (⟨ys.getD i 0⟩ : GF P)))).val, none) := by
  unfold interpolate
  rw [interpolateLoop_eq]
  · congr 3
    have h0 : (⟨(0 : Byte)⟩ : GF P) = 0 := rfl
    rw [h0, zero_add, Lagrange.interpolate_apply, eval_finset_sum, enum_eq_ofFn, List.map_ofFn,
      List.sum_ofFn]
    refine Finset.sum_congr rfl (fun i _ => ?_)
    simp only [Function.comp, eval_mul, eval_C]
    congr 1
    rw [List.map_ofFn, List.prod_ofFn, Lagrange.basis, eval_prod,
      ← Finset.prod_erase (a := i) Finset.univ (by simp [basisFactor])]
    refine Finset.prod_congr rfl (fun j hj => ?_)
    have hji : j ≠ i := (Finset.mem_erase.mp hj).1
    have hval : (i : Nat) ≠ (j : Nat) := fun h => hji (Fin.ext h.symm)
    simp only [Function.comp, basisFactor, hval, if_false, Lagrange.basisDivisor, eval_mul,
      eval_C, eval_sub, eval_X, GF.sub_eq_add]
    rw [div_eq_mul_inv, mul_comm]
  · intro ix hix jx hjx hne heq
    rw [enum_eq_ofFn, List.mem_ofFn] at hix hjx
    obtain ⟨i, rfl⟩ := hix
    obtain ⟨j, rfl⟩ := hjx
    simp only at hne heq
    have := (List.Nodup.get_inj_iff hnd).mp heq
    exact hne (congrArg Fin.val this).symm
  · intro ix hix
    rw [enum_eq_ofFn, List.mem_ofFn] at hix
    obtain ⟨i, rfl⟩ := hix
    simp only
    rw [hlen]; exact i.isLt

/-- Lagrange reconstruction: interpolating the values of a polynomial with at most
`xs.length` coefficients gives back its value at any point. -/
theorem interpolate_evaluate (c : Byte) (cs : List Byte) (xs ys : List Byte) (x0 : Byte)
    (hnd : xs.Nodup) (hdeg : (c :: cs).length ≤ xs.length) (hlen : ys.length = xs.length)
    (hys : ∀ i : Fin xs.length, polynomial.evaluate P ⟨c :: cs⟩ (xs.get i) = some (ys.getD i 0)) :
    interpolate P xs ys x0 = (polynomial.evaluate P ⟨c :: cs⟩ x0).map (fun v => (v, none)) := by
  rw [interpolate_eq_lagrange xs ys x0 hnd hlen, evaluate_eq]
  simp only [Option.map_some']
  congr 3
  have hinj : Set.InjOn (fun i : Fin xs.length => (⟨xs.get i⟩ : GF P))
      (Finset.univ : Finset (Fin xs.length)) := by
    intro i _ j _ hij
    have : xs.get i = xs.get j := congrArg GF.val hij
    exact (List.Nodup.get_inj_iff hnd).mp this
  have hdeg' : (polyOfList (P := P) (c :: cs)).degree <
      ((Finset.univ : Finset (Fin xs.length)).card : WithBot Nat) := by
    refine lt_of_lt_of_le (degree_polyOfList_lt _) ?_
    simp only [Finset.card_univ, Fintype.card_fin]
    exact_mod_cast hdeg
  rw [Lagrange.eq_interpolate_of_eval_eq (fun i : Fin xs.length => (⟨ys.getD i 0⟩ : GF P))
    hinj hdeg' (fun i _ => ?_)]
  have h1 := hys i
  rw [evaluate_eq] at h1
  have h2 := Option.some.inj h1
  exact GF.ext_val h2
end Interpolate

/-! ## The x-coordinates -/

section XCoords

theorem drawXCoord_spec (seenX : List Byte) (tape : Tape) (b : Byte) (tape1 : Tape)
    (h : drawXCoord seenX tape = some (b, tape1)) : b ≠ 0 ∧ b ∉ seenX := by
  induction tape with
  | nil => simp [drawXCoord] at h
  | cons a tape ih =>
    unfold drawXCoord at h
    split at h
    · exact ih h
    · rename_i hcond
      simp only [Option.some.injEq, Prod.mk.injEq] at h
      obtain ⟨rfl, _⟩ := h
      exact ⟨fun h0 => hcond (Or.inl h0), fun hm => hcond (Or.inr hm)⟩

theorem fillXCoordsLoop_err (n : Nat) (xCoords seenX : List Byte) (tape : Tape) :
    (fillXCoordsLoop n xCoords seenX tape).1.2 = none ∨
      fillXCoordsLoop n xCoords seenX tape = (([], some .randFailure), []) := by
  induction n generalizing xCoords seenX tape with
  | zero => left; rfl
  | succ n ih =>
    unfold fillXCoordsLoop
    cases hdraw : drawXCoord seenX tape with
    | none => right; rfl
    | some r => obtain ⟨b, tape1⟩ := r; exact ih _ _ _

theorem fillXCoordsLoop_spec (n : Nat) (xCoords seenX : List Byte) (tape : Tape)
    (xs : List Byte) (tape1 : Tape)
    (hseen : ∀ b, b ∈ seenX ↔ b ∈ xCoords) (hnd : xCoords.Nodup) (hnz : ∀ x ∈ xCoords, x ≠ 0)
    (h : fillXCoordsLoop n xCoords seenX tape = ((xs, none), tape1)) :
    xs.length = xCoords.length + n ∧ xs.Nodup ∧ ∀ x ∈ xs, x ≠ 0 := by
  induction n generalizing xCoords seenX tape with
  | zero =>
    simp only [fillXCoordsLoop, Prod.mk.injEq, and_true] at h
    obtain ⟨rfl, _⟩ := h
    exact ⟨rfl, hnd, hnz⟩
  | succ n ih =>
    unfold fillXCoordsLoop at h
    cases hdraw : drawXCoord seenX tape with
    | none => simp [hdraw] at h
    | some r =>
      obtain ⟨b, tape2⟩ := r
      simp only [hdraw] at h
      obtain ⟨hb0, hbs⟩ := drawXCoord_spec _ _ _ _ hdraw
      have hbx : b ∉ xCoords := fun hm => hbs ((hseen b).mpr hm)
      have := ih (xCoords ++ [b]) (b :: seenX) tape2
        (by intro c; simp [hseen c, or_comm])
        (by
          rw [List.nodup_append]
          refine ⟨hnd, List.nodup_singleton b, ?_⟩
          intro c hc hc'
          rw [List.mem_singleton] at hc'
          subst hc'; exact hbx hc)
        (by
          intro x hx
          rcases List.mem_append.mp hx with hx | hx
          · exact hnz x hx
          · rw [List.mem_singleton] at hx; subst hx; exact hb0)
        h
      refine ⟨?_, this.2⟩
      rw [this.1]; simp; omega

/-- A successful `fillXCoords(size)` returns `size` pairwise distinct nonzero bytes. -/
theorem fillXCoords_spec (size : Byte) (tape : Tape) (xs : List Byte) (tape1 : Tape)
    (h : fillXCoords size tape = ((xs, none), tape1)) :
    xs.length = size.val ∧ xs.Nodup ∧ ∀ x ∈ xs, x ≠ 0 := by
  have := fillXCoordsLoop_spec size.val [] [] tape xs tape1 (by simp) List.nodup_nil (by simp) h
  simpa using this

theorem fillXCoords_err (size : Byte) (tape : Tape) :
    (fillXCoords size tape).1.2 = none ∨ (fillXCoords size tape).1.2 = some .randFailure := by
  rcases fillXCoordsLoop_err size.val [] [] tape with h | h
  · exact Or.inl h
  · right; unfold fillXCoords; rw [h]

end XCoords

/-! ## The split loop -/

section SplitLoop

theorem evaluate_cons (P : Nat) (c : Byte) (cs : List Byte) (x : Byte) :
    polynomial.evaluate P ⟨c :: cs⟩ x = some (evalCoefs P (c :: cs) x) := by
  unfold evalCoefs polynomial.evaluate
  by_cases hx : x = 0
  · simp [hx]
  · simp only [hx, if_false]
    cases hrev : (c :: cs).reverse with
    | nil => simp at hrev
    | cons top lower => simp

theorem zipWith_zipWith_same {α β : Type} (f g : α → β → α) (l : List α) (xs : List β) :
    List.zipWith g (List.zipWith f l xs) xs = List.zipWith (fun a x => g (f a x) x) l xs := by
  induction l generalizing xs with
  | nil => simp
  | cons a l ih =>
    cases xs with
    | nil => simp
    | cons x xs => simp [ih]

theorem forall_mem_zipWith {α β γ : Type} (f : α → β → γ) (Q : γ → Prop) (l : List α)
    (xs : List β) (h : ∀ a ∈ l, ∀ x, Q (f a x)) : ∀ r ∈ List.zipWith f l xs, Q r := by
  induction l generalizing xs with
  | nil => simp
  | cons a l ih =>
    cases xs with
    | nil => simp
    | cons x xs =>
      intro r hr
      simp only [List.zipWith_cons_cons, List.mem_cons] at hr
      rcases hr with rfl | hr
      · exact h a (List.mem_cons_self _ _) x
      · exact ih xs (fun a ha => h a (List.mem_cons_of_mem _ ha)) r hr

theorem splitBlockParts_eq (P : Nat) (c : Byte) (cs : List Byte) (xCoords : List Byte) (i : Nat)
    (partIdx : Nat) (rows : List (List Byte)) (hx : partIdx + rows.length ≤ xCoords.length)
    (hrows : ∀ row ∈ rows, i < row.length) :
    splitBlockParts P ⟨c :: cs⟩ xCoords i partIdx rows =
      some (List.zipWith (fun row x => row.set i (evalCoefs P (c :: cs) x)) rows
        (xCoords.drop partIdx)) := by
  induction rows generalizing partIdx with
  | nil => simp [splitBlockParts]
  | cons row rows ih =>
    have hlt : partIdx < xCoords.length := by simp at hx; omega
    have hih := ih (partIdx + 1) (by simp at hx ⊢; omega)
      (fun r hr => hrows r (List.mem_cons_of_mem _ hr))
    have hrow : i < row.length := hrows row (List.mem_cons_self _ _)
    rw [List.drop_eq_getElem_cons hlt]
    simp only [splitBlockParts, List.getElem?_eq_getElem hlt, evaluate_cons, hrow, if_true, hih,
      List.zipWith_cons_cons]

end SplitLoop

section SplitLoop2

theorem zipWith_congr_mem {α β γ : Type} (f g : α → β → γ) (l : List α) (xs : List β)
    (h : ∀ a ∈ l, ∀ x, f a x = g a x) : List.zipWith f l xs = List.zipWith g l xs := by
  induction l generalizing xs with
  | nil => simp
  | cons a l ih =>
    cases xs with
    | nil => simp
    | cons x xs =>
      simp only [List.zipWith_cons_cons]
      rw [h a (List.mem_cons_self _ _) x, ih xs (fun a ha => h a (List.mem_cons_of_mem _ ha))]

theorem zipWith_left_id {α β : Type} (l : List α) (xs : List β) (h : l.length ≤ xs.length) :
    List.zipWith (fun a _ => a) l xs = l := by
  induction l generalizing xs with
  | nil => simp
  | cons a l ih =>
    cases xs with
    | nil => simp at h
    | cons x xs => simp [ih xs (by simpa using h)]

theorem set_take_succ {α : Type} (row : List α) (i : Nat) (v : α) (h : i < row.length) :
    (row.set i v).take (i + 1) = row.take i ++ [v] := by
  induction row generalizing i with
  | nil => simp at h
  | cons a row ih =>
    cases i with
    | zero => simp
    | succ i => simp [ih i (by simpa using h)]

theorem set_drop_succ {α : Type} (row : List α) (i n : Nat) (v : α) :
    (row.set i v).drop (i + 1 + n) = row.drop (i + 1 + n) := by
  induction row generalizing i with
  | nil => simp
  | cons a row ih =>
    cases i with
    | zero => simp [show 0 + 1 + n = n + 1 by omega]
    | succ i =>
      have : i + 1 + 1 + n = (i + 1 + n) + 1 := by omega
      simp [this, ih i]

theorem newPolynomial_eq (intercept degree : Byte) (tape : Tape) (hd : degree.val + 1 < 256) :
    newPolynomial intercept degree tape =
      if degree.val ≤ tape.length then
        some ((some ⟨intercept :: tape.take degree.val⟩, none), tape.drop degree.val)
      else some ((none, some .randFailure), tape) := by
  have hsz : (degree.val + 1) % 256 = degree.val + 1 := Nat.mod_eq_of_lt hd
  unfold newPolynomial randRead
  simp only [hsz, Nat.add_sub_cancel, Nat.succ_ne_zero, if_false]
  by_cases hl : degree.val ≤ tape.length <;> simp [hl]

theorem splitBlockLoop_spec (P : Nat) (xCoords : List Byte) (threshold : Byte)
    (polynomPerByte : Bool) (hd : (threshold - 1).val + 1 < 256)
    (block : List Byte) (i : Nat) (p : Option polynomial) (buf : List (List Byte)) (tape : Tape)
    (hp : polynomPerByte = false → ∃ c cs, p = some ⟨c :: cs⟩ ∧ cs.length = (threshold - 1).val)
    (hx : buf.length ≤ xCoords.length)
    (hrows : ∀ row ∈ buf, i + block.length ≤ row.length) :
    ∃ buf1 err tape1,
      splitBlockLoop P xCoords threshold polynomPerByte block i p buf tape =
        some ((buf1, err), tape1) ∧
      (err = none ∨ err = some .randFailure) ∧
      (err = none → ∃ coeffs : List (List Byte), coeffs.length = block.length ∧
        (∀ cs ∈ coeffs, cs.length = (threshold - 1).val) ∧
        (polynomPerByte = false → ∀ cs ∈ coeffs, ∃ c, p = some ⟨c :: cs⟩) ∧
        buf1 = blockRows P block coeffs i buf xCoords) := by
  induction block generalizing i p buf tape with
  | nil =>
    refine ⟨buf, none, tape, rfl, Or.inl rfl, fun _ => ⟨[], rfl, by simp, by simp, ?_⟩⟩
    simp only [blockRows, colVals, List.zipWith_nil_left, List.append_nil, List.length_nil,
      Nat.add_zero, List.take_append_drop]
    exact (zipWith_left_id buf xCoords hx).symm
  | cons b block ih =>
    -- the polynomial used for this byte
    have step : ∀ (c : Byte) (cs : List Byte) (tape2 : Tape), cs.length = (threshold - 1).val →
        (polynomPerByte = false → p = some ⟨c :: cs⟩) →
        ∃ buf1 err tape1,
          splitBlockLoop P xCoords threshold polynomPerByte block (i + 1) (some ⟨b :: cs⟩)
            (List.zipWith (fun row x => row.set i (evalCoefs P (b :: cs) x)) buf xCoords) tape2 =
            some ((buf1, err), tape1) ∧
          (err = none ∨ err = some .randFailure) ∧
          (err = none → ∃ coeffs : List (List Byte), coeffs.length = (b :: block).length ∧
            (∀ cs ∈ coeffs, cs.length = (threshold - 1).val) ∧
            (polynomPerByte = false → ∀ cs ∈ coeffs, ∃ c, p = some ⟨c :: cs⟩) ∧
            buf1 = blockRows P (b :: block) coeffs i buf xCoords) := by
      intro c cs tape2 hcs hpc
      have hrows1 : ∀ row ∈ List.zipWith (fun row x => row.set i (evalCoefs P (b :: cs) x))
          buf xCoords, i + 1 + block.length ≤ row.length := by
        apply forall_mem_zipWith
        intro a ha x
        have := hrows a ha
        simp only [List.length_cons] at this
        simp only [List.length_set]; omega
      obtain ⟨buf1, err, tape1, heq, herr, hok⟩ := ih (i + 1) (some ⟨b :: cs⟩)
        (List.zipWith (fun row x => row.set i (evalCoefs P (b :: cs) x)) buf xCoords) tape2
        (fun _ => ⟨b, cs, rfl, hcs⟩)
        (by simp only [List.length_zipWith]; omega) hrows1
      refine ⟨buf1, err, tape1, heq, herr, fun he => ?_⟩
      obtain ⟨coeffs, hlen, hall, hsame, hbuf⟩ := hok he
      refine ⟨cs :: coeffs, by simp [hlen], ?_, ?_, ?_⟩
      · intro cs' hcs'
        rcases List.mem_cons.mp hcs' with rfl | hmem
        · exact hcs
        · exact hall cs' hmem
      · intro hpb cs' hcs'
        rcases List.mem_cons.mp hcs' with rfl | hmem
        · exact ⟨c, hpc hpb⟩
        · obtain ⟨c', hc'⟩ := hsame hpb cs' hmem
          simp only [Option.some.injEq, polynomial.mk.injEq, List.cons.injEq] at hc'
          rw [← hc'.2]
          exact ⟨c, hpc hpb⟩
      · rw [hbuf]
        unfold blockRows
        rw [zipWith_zipWith_same]
        apply zipWith_congr_mem
        intro row hrow x
        have hi : i < row.length := by
          have := hrows row hrow
          simp only [List.length_cons] at this
          omega
        have e1 : i + 1 + block.length = i + (b :: block).length := by
          simp only [List.length_cons]; omega
        rw [set_take_succ row i _ hi, set_drop_succ, e1]
        simp [colVals]
    have hparts : ∀ (cs : List Byte),
        splitBlockParts P ⟨b :: cs⟩ xCoords i 0 buf =
          some (List.zipWith (fun row x => row.set i (evalCoefs P (b :: cs) x)) buf xCoords) := by
      intro cs
      have := splitBlockParts_eq P b cs xCoords i 0 buf (by simpa using hx)
        (fun row hrow => by
          have := hrows row hrow
          simp only [List.length_cons] at this
          omega)
      simpa using this
    cases hpb : polynomPerByte with
    | true =>
      subst hpb
      unfold splitBlockLoop
      simp only [if_true]
      rw [newPolynomial_eq 0 (threshold - 1) tape hd]
      by_cases hl : (threshold - 1).val ≤ tape.length
      · simp only [hl, if_true, hparts]
        exact step 0 (tape.take (threshold - 1).val) _ (by simp [hl]) (fun h => by simp at h)
      · simp only [hl, if_false]
        exact ⟨buf, some .randFailure, tape, rfl, Or.inr rfl, fun h => by simp at h⟩
    | false =>
      subst hpb
      obtain ⟨c, cs, rfl, hcs⟩ := hp rfl
      have e := step c cs tape hcs (fun _ => rfl)
      unfold splitBlockLoop
      simp only [Bool.false_eq_true, if_false, hparts]
      simpa using e

end SplitLoop2

section SplitSpec

theorem zipWith_replicate_left {α β γ : Type} (g : α → β → γ) (a : α) (xs : List β) :
    List.zipWith g (List.replicate xs.length a) xs = xs.map (g a) := by
  induction xs with
  | nil => simp
  | cons x xs ih => simp [List.replicate_succ, ih]

theorem zipWith_map_map_same {α β γ δ : Type} (F : β → γ → δ) (f : α → β) (g : α → γ)
    (xs : List α) :
    List.zipWith F (xs.map f) (xs.map g) = xs.map (fun x => F (f x) (g x)) := by
  induction xs with
  | nil => simp
  | cons x xs ih => simp [ih]

theorem splitHeaders_replicate (xCoords : List Byte) (k n : Nat) (y : Byte) (ys : List Byte)
    (h : k + n ≤ xCoords.length) :
    splitHeaders xCoords k (List.replicate n (y :: ys)) =
      some (((xCoords.drop k).take n).map (fun x => x :: ys), List.replicate n ys) := by
  induction n generalizing k with
  | zero => simp [splitHeaders]
  | succ n ih =>
    have hk : k < xCoords.length := by omega
    rw [List.replicate_succ, List.drop_eq_getElem_cons hk]
    simp only [splitHeaders, List.getElem?_eq_getElem hk, ih (k + 1) (by omega), List.take_succ_cons,
      List.map_cons, List.replicate_succ]

theorem validateSplitArgs_eq_none {partsCount threshold : Int}
    (h : validateSplitArgs partsCount threshold = none) :
    2 ≤ partsCount ∧ partsCount ≤ 255 ∧ 2 ≤ threshold ∧ threshold ≤ 255 ∧
      threshold ≤ partsCount := by
  unfold validateSplitArgs at h
  split at h
  · simp at h
  · split at h
    · simp at h
    · split at h
      · simp at h
      · omega

theorem toUint8_val {n : Int} (h0 : 0 ≤ n) (h1 : n ≤ 255) : (toUint8 n).val = n.toNat := by
  simp only [toUint8]
  omega

theorem toUint8_sub_one_val {n : Int} (h0 : 1 ≤ n) (h1 : n ≤ 255) :
    (toUint8 n - 1).val = n.toNat - 1 := by
  rw [Fin.sub_def]
  simp only [toUint8, Fin.val_one]
  omega

/-- What `Split` returns for valid arguments: it never panics, its only error is the
failure of the random source, and on success the shares are the x-coordinate followed by
the values at it of one polynomial per secret byte. -/
theorem Split_spec (P : Nat) (secret : List Byte) (partsCount threshold : Int) (tape : Tape)
    (hv : validateSplitArgs partsCount threshold = none) :
    ∃ shares err, Split P secret partsCount threshold tape = some (shares, err) ∧
      (err = none ∨ err = some .randFailure) ∧
      (err = none → ∃ (xCoords : List Byte) (coeffs : List (List Byte)),
        xCoords.length = partsCount.toNat ∧ xCoords.Nodup ∧ (∀ x ∈ xCoords, x ≠ 0) ∧
        coeffs.length = secret.length ∧ (∀ cs ∈ coeffs, cs.length = threshold.toNat - 1) ∧
        shares = xCoords.map (fun x => x :: colVals P secret coeffs x)) := by
  obtain ⟨hn2, hn255, ht2, ht255, htn⟩ := validateSplitArgs_eq_none hv
  unfold Split
  simp only [hv]
  unfold prepareSplit
  rcases hfill : fillXCoords (toUint8 partsCount) tape with ⟨⟨xs, ferr⟩, tape1⟩
  cases ferr with
  | some e =>
    have := fillXCoords_err (toUint8 partsCount) tape
    rw [hfill] at this
    simp only [reduceCtorEq, false_or] at this
    refine ⟨[], some e, rfl, Or.inr this, fun h => by simp at h⟩
  | none =>
    obtain ⟨hxlen, hxnd, hxnz⟩ := fillXCoords_spec _ _ _ _ hfill
    rw [toUint8_val (by omega) hn255] at hxlen
    simp only
    have hrep : List.replicate (secret.length + 1) (0 : Byte) =
        0 :: List.replicate secret.length 0 := List.replicate_succ _ _
    rw [toUint8_val (by omega) hn255, hrep, ← hxlen,
      splitHeaders_replicate xs 0 xs.length 0 _ (by simp)]
    simp only [List.drop_zero, List.take_length]
    unfold splitBlock
    simp only [if_true]
    have hd : (toUint8 threshold - 1).val + 1 < 256 := by
      rw [toUint8_sub_one_val (by omega) ht255]; omega
    obtain ⟨buf1, err, tape2, heq, herr, hok⟩ := splitBlockLoop_spec P xs (toUint8 threshold) true
      hd secret 0 none (List.replicate xs.length (List.replicate secret.length 0)) tape1
      (fun h => by simp at h) (by simp)
      (fun row hrow => by
        rw [List.eq_of_mem_replicate hrow]; simp)
    rw [heq]
    refine ⟨_, err, rfl, herr, fun he => ?_⟩
    obtain ⟨coeffs, hclen, hcall, _, hbuf⟩ := hok he
    refine ⟨xs, coeffs, rfl, hxnd, hxnz, hclen, ?_, ?_⟩
    · intro cs hcs
      rw [hcall cs hcs, toUint8_sub_one_val (by omega) ht255]
    · rw [hbuf]
      unfold blockRows
      rw [zipWith_replicate_left]
      have hcv : ∀ x, (colVals P secret coeffs x).length = secret.length := by
        intro x; simp [colVals, hclen]
      rw [zipWith_map_map_same]
      apply List.map_congr_left
      intro x _
      simp
end SplitSpec

/-! ## The combine loop -/

section CombineLoop
open galois

theorem combineHeaders_eq (parts : List (List Byte)) (h : ∀ p ∈ parts, p ≠ []) :
    combineHeaders parts = some (parts.map (fun p => p.headD 0), parts.map List.tail) := by
  induction parts with
  | nil => rfl
  | cons p parts ih =>
    cases p with
    | nil => exact absurd rfl (h [] (List.mem_cons_self _ _))
    | cons x ys =>
      simp [combineHeaders, ih (fun q hq => h q (List.mem_cons_of_mem _ hq))]

theorem combineHeaders_none (parts : List (List Byte)) (h : [] ∈ parts) :
    combineHeaders parts = none := by
  induction parts with
  | nil => simp at h
  | cons p parts ih =>
    cases p with
    | nil => rfl
    | cons x ys =>
      have : [] ∈ parts := by simpa using h
      simp [combineHeaders, ih this]

theorem gatherSamples_eq (i : Nat) (partIdx : Nat) (parts : List (List Byte))
    (ySamplesBuf : List Byte) (hp : ∀ p ∈ parts, i < p.length)
    (hy : partIdx + parts.length ≤ ySamplesBuf.length) :
    gatherSamples i partIdx parts ySamplesBuf =
      some (ySamplesBuf.take partIdx ++ parts.map (fun p => p.getD i 0) ++
        ySamplesBuf.drop (partIdx + parts.length)) := by
  induction parts generalizing partIdx ySamplesBuf with
  | nil => simp [gatherSamples]
  | cons p parts ih =>
    have hi : i < p.length := hp p (List.mem_cons_self _ _)
    have hk : partIdx < ySamplesBuf.length := by simp at hy; omega
    simp only [gatherSamples, List.getElem?_eq_getElem hi, hk, if_true]
    rw [ih (partIdx + 1) _ (fun q hq => hp q (List.mem_cons_of_mem _ hq))
      (by simp at hy ⊢; omega)]
    rw [set_take_succ _ _ _ hk, set_drop_succ]
    have e : partIdx + (p :: parts).length = partIdx + 1 + parts.length := by simp; omega
    rw [e]
    simp [List.getElem?_eq_getElem hi]

theorem interpolate_ok [Fact (irreducible8 P = true)] (xs ys : List Byte) (hnd : xs.Nodup)
    (hlen : ys.length = xs.length) :
    interpolate P xs ys 0 = some (interpAt0 P xs ys, none) := by
  have := interpolate_eq_lagrange (P := P) xs ys 0 hnd hlen
  unfold interpAt0
  rw [this]

theorem combineBlockLoop_eq [Fact (irreducible8 P = true)] (parts : List (List Byte))
    (xSamples : List Byte) (hnd : xSamples.Nodup) (hxl : xSamples.length = parts.length)
    (n i : Nat) (buf ySamplesBuf : List Byte) (hyl : ySamplesBuf.length = parts.length)
    (hp : ∀ p ∈ parts, i + n ≤ p.length) (hb : i + n ≤ buf.length) :
    ∃ ys1, ys1.length = parts.length ∧ combineBlockLoop P parts xSamples n i buf ySamplesBuf =
      some ((buf.take i ++ (List.range' i n).map (fun c =>
        interpAt0 P xSamples (parts.map (fun p => p.getD c 0))) ++ buf.drop (i + n), ys1),
        none) := by
  induction n generalizing i buf ySamplesBuf with
  | zero => exact ⟨ySamplesBuf, hyl, by simp [combineBlockLoop]⟩
  | succ n ih =>
    have hg := gatherSamples_eq i 0 parts ySamplesBuf (fun p hp' => by have := hp p hp'; omega)
      (by omega)
    have hdrop : ySamplesBuf.drop (0 + parts.length) = [] := by
      rw [List.drop_eq_nil_iff]; omega
    rw [hdrop] at hg
    simp only [List.take_zero, List.nil_append, List.append_nil] at hg
    have hint := interpolate_ok (P := P) xSamples (parts.map (fun p => p.getD i 0)) hnd
      (by simp [hxl])
    have hib : i < buf.length := by omega
    obtain ⟨ys1, hys1, hrec⟩ := ih (i + 1) (buf.set i (interpAt0 P xSamples
      (parts.map (fun p => p.getD i 0)))) (parts.map (fun p => p.getD i 0)) (by simp)
      (fun p hp' => by have := hp p hp'; omega) (by simp; omega)
    refine ⟨ys1, hys1, ?_⟩
    simp only [combineBlockLoop, hg, hint, hib, if_true, hrec]
    rw [set_take_succ _ _ _ hib, set_drop_succ]
    have e : i + 1 + n = i + (n + 1) := by omega
    simp [List.range'_succ, e]

theorem combineBlock_eq [Fact (irreducible8 P = true)] (part0 : List Byte)
    (parts : List (List Byte))
    (xSamples : List Byte) (hnd : xSamples.Nodup) (hxl : xSamples.length = (part0 :: parts).length)
    (ySamplesBuf : List Byte) (hyl : ySamplesBuf.length = (part0 :: parts).length)
    (hp : ∀ p ∈ part0 :: parts, p.length = part0.length) :
    ∃ ys1, combineBlock P (List.replicate part0.length 0) (part0 :: parts) xSamples ySamplesBuf =
      some (((List.range part0.length).map (fun c =>
        interpAt0 P xSamples ((part0 :: parts).map (fun p => p.getD c 0))), ys1), none) := by
  obtain ⟨ys1, _, h⟩ := combineBlockLoop_eq (P := P) (part0 :: parts) xSamples hnd hxl part0.length 0
    (List.replicate part0.length 0) ySamplesBuf hyl (fun p hp' => by rw [hp p hp']; omega)
    (by simp)
  refine ⟨ys1, ?_⟩
  simp only [combineBlock, h]
  simp [List.range_eq_range']

end CombineLoop

section CombineSpec
open galois

/-- What `Combine` returns for 2 to 254 shares of one common length `L + 1` with pairwise
distinct x-coordinates: byte `c` of the result is the interpolation at 0 of column `c`. -/
theorem Combine_eq [Fact (irreducible8 P = true)] (parts : List (List Byte))
    (hn : 2 ≤ parts.length) (hn1 : parts.length < 255) (L : Nat)
    (hlen : ∀ p ∈ parts, p.length = L + 1)
    (hnd : (parts.map (fun p => p.headD 0)).Nodup) :
    Combine P parts = some ((List.range L).map (fun c =>
      interpAt0 P (parts.map (fun p => p.headD 0))
        (parts.map (fun p => p.tail.getD c 0))), none) := by
  unfold Combine
  have hcond : ¬ (parts.length < 2 ∨ parts.length ≥ 255) := by omega
  simp only [hcond, if_false]
  cases parts with
  | nil => simp at hn
  | cons part0 rest =>
    simp only
    have h0 : part0.length = L + 1 := hlen part0 (List.mem_cons_self _ _)
    by_cases hL : L = 0
    · subst hL
      simp [h0]
    · have hpl : ¬ ((part0.length : Int) - 1 < 1) := by omega
      simp only [hpl, if_false]
      rw [combineHeaders_eq _ (fun p hp h => by have := hlen p hp; simp [h] at this)]
      simp only
      have htl : ((part0.length : Int) - 1).toNat = part0.tail.length := by
        simp [List.length_tail, h0]
      rw [htl]
      obtain ⟨ys1, hcb⟩ := combineBlock_eq (P := P) part0.tail (rest.map List.tail)
        ((part0 :: rest).map (fun p => p.headD 0)) hnd (by simp)
        (List.replicate (part0 :: rest).length 0) (by simp)
        (by
          intro p hp
          rw [← List.map_cons (f := List.tail), List.mem_map] at hp
          obtain ⟨q, hq, rfl⟩ := hp
          simp [List.length_tail, hlen q hq, h0])
      rw [← List.map_cons (f := List.tail)] at hcb
      rw [hcb]
      have hL1 : part0.tail.length = L := by simp [List.length_tail, h0]
      simp only [List.map_map, hL1]
      rfl

theorem colVals_getD (P : Nat) (secret : List Byte) (coeffs : List (List Byte)) (x : Byte)
    (c : Nat) (hc : c < secret.length) (hl : coeffs.length = secret.length) :
    (colVals P secret coeffs x).getD c 0 =
      evalCoefs P (secret.getD c 0 :: coeffs.getD c []) x := by
  have hc2 : c < coeffs.length := by omega
  have hc3 : c < (colVals P secret coeffs x).length := by simp [colVals]; omega
  rw [List.getD_eq_getElem _ _ hc3, List.getD_eq_getElem _ _ hc, List.getD_eq_getElem _ _ hc2]
  simp [colVals]

theorem interpAt0_evalCoefs [Fact (irreducible8 P = true)] (c : Byte) (cs : List Byte)
    (xs : List Byte) (hnd : xs.Nodup) (hlen : cs.length + 1 ≤ xs.length) :
    interpAt0 P xs (xs.map (evalCoefs P (c :: cs))) = c := by
  have h := interpolate_evaluate (P := P) c cs xs (xs.map (evalCoefs P (c :: cs))) 0 hnd
    (by simpa using hlen) (by simp)
    (fun i => by
      rw [evaluate_cons]
      congr 1
      rw [List.getD_eq_getElem _ _ (by simp)]
      simp)
  unfold interpAt0
  rw [h]
  simp [polynomial.evaluate]

end CombineSpec

/-! ## Claims -/

section Claims
open galois

theorem validateSplitArgs_of_valid {partsCount threshold : Int} (hN : 2 ≤ partsCount ∧ partsCount ≤ 255)
    (hT : 2 ≤ threshold ∧ threshold ≤ partsCount) : validateSplitArgs partsCount threshold = none := by
  unfold validateSplitArgs
  have h1 : ¬ (partsCount > 255 ∨ partsCount < 2) := by omega
  have h2 : ¬ (threshold > 255 ∨ threshold < 2) := by omega
  have h3 : ¬ (threshold > partsCount) := by omega
  simp only [h1, h2, h3, if_false]

/-- What a successful `Split` returns, for valid arguments. -/
theorem Split_success (P : Nat) (secret : List Byte) (partsCount threshold : Int) (tape : Tape)
    (hN : 2 ≤ partsCount ∧ partsCount ≤ 255) (hT : 2 ≤ threshold ∧ threshold ≤ partsCount)
    (shares : List (List Byte))
    (h : Split P secret partsCount threshold tape = some (shares, none)) :
    ∃ (xCoords : List Byte) (coeffs : List (List Byte)),
      xCoords.length = partsCount.toNat ∧ xCoords.Nodup ∧ (∀ x ∈ xCoords, x ≠ 0) ∧
      coeffs.length = secret.length ∧ (∀ cs ∈ coeffs, cs.length = threshold.toNat - 1) ∧
      shares = xCoords.map (fun x => x :: colVals P secret coeffs x) := by
  obtain ⟨shares1, err, heq, _, hok⟩ :=
    Split_spec P secret partsCount threshold tape (validateSplitArgs_of_valid hN hT)
  rw [h] at heq
  simp only [Option.some.injEq, Prod.mk.injEq] at heq
  obtain ⟨rfl, rfl⟩ := heq
  exact hok rfl

/-- Combining any `m` distinct shares of a split with threshold `m`-or-less coefficients
gives back the secret. -/
theorem Combine_shares [Fact (irreducible8 P = true)] (secret : List Byte)
    (coeffs : List (List Byte)) (d : Nat) (hcl : coeffs.length = secret.length)
    (hcs : ∀ cs ∈ coeffs, cs.length = d) (sel : List Byte) (hnd : sel.Nodup)
    (hd : d + 1 ≤ sel.length) (h2 : 2 ≤ sel.length) (h255 : sel.length < 255) :
    Combine P (sel.map (fun x => x :: colVals P secret coeffs x)) = some (secret, none) := by
  have hmap : (sel.map (fun x => x :: colVals P secret coeffs x)).map (fun p => p.headD 0) = sel := by
    rw [List.map_map]
    conv_rhs => rw [← List.map_id sel]
    apply List.map_congr_left
    intro x _; simp
  rw [Combine_eq (P := P) _ (by simpa using h2) (by simpa using h255) secret.length
    (by
      intro p hp
      obtain ⟨x, _, rfl⟩ := List.mem_map.mp hp
      simp [colVals, hcl])
    (by rw [hmap]; exact hnd)]
  rw [hmap]
  congr 2
  apply List.ext_getElem
  · simp
  · intro c h1 h2
    simp only [List.getElem_map, List.getElem_range, List.map_map]
    have hc : c < secret.length := by simpa using h1
    have hcol : (sel.map ((fun p : List Byte => p.tail.getD c 0) ∘
        (fun x => x :: colVals P secret coeffs x))) =
        sel.map (evalCoefs P (secret.getD c 0 :: coeffs.getD c [])) := by
      apply List.map_congr_left
      intro x _
      simp only [Function.comp, List.tail_cons]
      exact colVals_getD P secret coeffs x c hc hcl
    rw [hcol, interpAt0_evalCoefs (P := P) _ _ sel hnd
      (by
        have hc2 : c < coeffs.length := by omega
        rw [List.getD_eq_getElem _ _ hc2, hcs _ (List.getElem_mem _)]
        exact hd)]
    exact List.getD_eq_getElem _ _ hc

/-- C1 (amended): in-memory round trip. For every secret, every N in [2,255], every T in
[2,N] with T at most 254, every tape of the random source on which `Split` succeeds and
every selection of T of the returned shares (a duplicate-free list `sel` of T members of
`shares`, in any order), `Combine` returns exactly the secret and no error. -/
theorem C1_round_trip (P : Nat) (hP : irreducible8 P = true) (secret : List Byte)
    (partsCount threshold : Int) (tape : Tape)
    (hN : 2 ≤ partsCount ∧ partsCount ≤ 255) (hT : 2 ≤ threshold ∧ threshold ≤ partsCount)
    (hT254 : threshold ≤ 254) (shares : List (List Byte))
    (hsplit : Split P secret partsCount threshold tape = some (shares, none))
    (sel : List (List Byte)) (hnd : sel.Nodup) (hmem : ∀ s ∈ sel, s ∈ shares)
    (hlen : sel.length = threshold.toNat) :
    Combine P sel = some (secret, none) := by
  haveI : Fact (irreducible8 P = true) := ⟨hP⟩
  obtain ⟨xs, coeffs, _, _, _, hcl, hcs, rfl⟩ :=
    Split_success P secret partsCount threshold tape hN hT shares hsplit
  have hsel : sel = (sel.map (fun p => p.headD 0)).map (fun x => x :: colVals P secret coeffs x) := by
    rw [List.map_map]
    conv_lhs => rw [← List.map_id sel]
    apply List.map_congr_left
    intro s hs
    obtain ⟨x, _, rfl⟩ := List.mem_map.mp (hmem s hs)
    simp
  have hnd1 : (sel.map (fun p => p.headD 0)).Nodup := by
    have : (List.map (fun x => x :: colVals P secret coeffs x)
        (sel.map (fun p => p.headD 0))).Nodup := by rw [← hsel]; exact hnd
    exact List.Nodup.of_map _ this
  rw [hsel]
  exact Combine_shares (P := P) secret coeffs (threshold.toNat - 1) hcl hcs _ hnd1
    (by simp [hlen]; omega) (by simp [hlen]; omega) (by simp [hlen]; omega)

end Claims

section Secrecy
open galois Polynomial

theorem coeff_polyOfList [Fact (irreducible8 P = true)] (cs : List Byte) (k : Nat) :
    (polyOfList (P := P) cs).coeff k = ⟨cs.getD k 0⟩ := by
  induction cs generalizing k with
  | nil => simp [polyOfList]; rfl
  | cons c cs ih =>
    cases k with
    | zero => simp [polyOfList]
    | succ k => simp [polyOfList, ih k]

theorem polyOfList_inj [Fact (irreducible8 P = true)] (cs cs' : List Byte)
    (hlen : cs.length = cs'.length) (h : polyOfList (P := P) cs = polyOfList (P := P) cs') :
    cs = cs' := by
  apply List.ext_getElem hlen
  intro k h1 h2
  have := congrArg (fun q => (Polynomial.coeff q k).val) h
  simp only [coeff_polyOfList] at this
  rw [List.getD_eq_getElem _ _ h1, List.getD_eq_getElem _ _ h2] at this
  exact this

/-- For a fixed secret byte, the share values at `n` distinct nonzero points determine
the `n` random coefficients. -/
theorem evalCoefs_injective [Fact (irreducible8 P = true)] (s : Byte) (xs : List Byte)
    (hnd : xs.Nodup) (hnz : ∀ x ∈ xs, x ≠ 0) (cs cs' : List Byte) (hc : cs.length = xs.length)
    (hc' : cs'.length = xs.length)
    (h : xs.map (evalCoefs P (s :: cs)) = xs.map (evalCoefs P (s :: cs'))) : cs = cs' := by
  apply polyOfList_inj (P := P) cs cs' (by rw [hc, hc'])
  have hinj : Set.InjOn (fun i : Fin xs.length => (⟨xs.get i⟩ : GF P))
      (Finset.univ : Finset (Fin xs.length)) := by
    intro i _ j _ hij
    have : xs.get i = xs.get j := congrArg GF.val hij
    exact (List.Nodup.get_inj_iff hnd).mp this
  have hdeg : ∀ l : List Byte, l.length = xs.length → (polyOfList (P := P) l).degree <
      ((Finset.univ : Finset (Fin xs.length)).card : WithBot Nat) := by
    intro l hl
    have := degree_polyOfList_lt (P := P) l
    simpa [hl] using this
  refine Polynomial.eq_of_degrees_lt_of_eval_index_eq Finset.univ hinj (hdeg cs hc) (hdeg cs' hc')
    (fun i _ => ?_)
  have hx : xs.get i ∈ xs := List.get_mem _ _ _
  have hmem := (List.map_inj_left.mp h) (xs.get i) hx
  have e1 := evaluate_eq (P := P) s cs (xs.get i)
  have e2 := evaluate_eq (P := P) s cs' (xs.get i)
  rw [evaluate_cons] at e1 e2
  have e3 : (eval (⟨xs.get i⟩ : GF P) (polyOfList (s :: cs))) =
      (eval (⟨xs.get i⟩ : GF P) (polyOfList (s :: cs'))) := by
    apply GF.ext_val
    rw [← Option.some.inj e1, ← Option.some.inj e2, hmem]
  rw [eval_polyOfList_cons, eval_polyOfList_cons] at e3
  have hne : (⟨xs.get i⟩ : GF P) ≠ 0 := fun h0 => hnz _ hx (congrArg GF.val h0)
  exact mul_left_cancel₀ hne (add_left_cancel e3)

/-- For a fixed secret byte, every tuple of `n` share values at `n` distinct nonzero points
arises from exactly one tuple of `n` random coefficients. -/
theorem evalCoefs_existsUnique [Fact (irreducible8 P = true)] (s : Byte) (xs : List Byte)
    (hnd : xs.Nodup) (hnz : ∀ x ∈ xs, x ≠ 0) (ys : List Byte) (hy : ys.length = xs.length) :
    ∃! cs : List Byte, cs.length = xs.length ∧ xs.map (evalCoefs P (s :: cs)) = ys := by
  let f : Mathlib.Vector Byte xs.length → Mathlib.Vector Byte xs.length :=
    fun cs => ⟨xs.map (evalCoefs P (s :: cs.val)), by simp⟩
  have hinj : Function.Injective f := by
    intro a b hab
    have := congrArg Subtype.val hab
    exact Subtype.ext (evalCoefs_injective (P := P) s xs hnd hnz a.val b.val a.property b.property this)
  obtain ⟨cs, hcs⟩ := (Finite.injective_iff_surjective.mp hinj) ⟨ys, hy⟩
  refine ⟨cs.val, ⟨cs.property, congrArg Subtype.val hcs⟩, ?_⟩
  rintro cs' ⟨hl, he⟩
  have : f ⟨cs', hl⟩ = f cs := by
    rw [hcs]; exact Subtype.ext he
  exact congrArg Subtype.val (hinj this)

/-- The effect of `splitBlock` on a one-byte block when the tape holds exactly the
`threshold - 1` coefficients: one output byte per x-coordinate. -/
theorem splitBlock_single (P : Nat) (s : Byte) (xs : List Byte) (threshold : Byte)
    (hd : (threshold - 1).val + 1 < 256) (cs : List Byte) (hcs : cs.length = (threshold - 1).val) :
    splitBlock P [s] (List.replicate xs.length [0]) xs threshold true cs =
      some ((xs.map (fun x => [evalCoefs P (s :: cs) x]), none), []) := by
  unfold splitBlock
  simp only [if_true]
  unfold splitBlockLoop
  simp only [if_true]
  rw [newPolynomial_eq 0 (threshold - 1) cs hd]
  have hle : (threshold - 1).val ≤ cs.length := by omega
  have htake : cs.take (threshold - 1).val = cs := by rw [← hcs]; exact List.take_length _
  have hdrop : cs.drop (threshold - 1).val = [] := by rw [← hcs]; exact List.drop_length _
  simp only [hle, if_true, htake, hdrop]
  rw [splitBlockParts_eq P s cs xs 0 0 _ (by simp) (by
    intro row hrow
    rw [List.eq_of_mem_replicate hrow]
    simp)]
  simp only [List.drop_zero, splitBlockLoop]
  rw [zipWith_replicate_left]
  rfl

end Secrecy

section ClaimC2
open galois

/-- C2: fewer than T shares reveal nothing. A secret byte `s` is shared by `splitBlock` as
`Split` does it (per-byte policy: a fresh polynomial whose T-1 upper coefficients are the
next T-1 bytes `cs` of the random source). For every T in [2,255], every T-1 pairwise
distinct nonzero x-coordinates `xs`, every secret byte `s` and every tuple `ys` of T-1
share values there is exactly one tuple `cs` of T-1 random coefficients for which
`splitBlock` writes the values `ys`: the map from coefficients to share values is a
bijection, whatever `s` is. -/
theorem C2_fewer_shares_reveal_nothing (P : Nat) (hP : irreducible8 P = true) (threshold : Int)
    (hT : 2 ≤ threshold ∧ threshold ≤ 255) (xs : List Byte)
    (hlen : xs.length = threshold.toNat - 1) (hnd : xs.Nodup) (hnz : ∀ x ∈ xs, x ≠ 0)
    (s : Byte) (ys : List Byte) (hy : ys.length = threshold.toNat - 1) :
    ∃! cs : List Byte, cs.length = threshold.toNat - 1 ∧
      splitBlock P [s] (List.replicate xs.length [0]) xs (toUint8 threshold) true cs =
        some ((ys.map (fun y => [y]), none), []) := by
  haveI : Fact (irreducible8 P = true) := ⟨hP⟩
  have hval : (toUint8 threshold - 1).val = threshold.toNat - 1 :=
    toUint8_sub_one_val (by omega) hT.2
  have hd : (toUint8 threshold - 1).val + 1 < 256 := by rw [hval]; omega
  have key : ∀ cs : List Byte, cs.length = threshold.toNat - 1 →
      (splitBlock P [s] (List.replicate xs.length [0]) xs (toUint8 threshold) true cs =
        some ((ys.map (fun y => [y]), none), []) ↔ xs.map (evalCoefs P (s :: cs)) = ys) := by
    intro cs hcs
    rw [splitBlock_single P s xs (toUint8 threshold) hd cs (by rw [hval, hcs])]
    constructor
    · intro h
      simp only [Option.some.injEq, Prod.mk.injEq, and_true] at h
      have h2 := congrArg (List.map (fun r : List Byte => r.headD 0)) h
      rw [List.map_map, List.map_map] at h2
      have e1 : ((fun r : List Byte => r.headD 0) ∘ fun x => [evalCoefs P (s :: cs) x]) =
          evalCoefs P (s :: cs) := rfl
      have e2 : ((fun r : List Byte => r.headD 0) ∘ fun y : Byte => [y]) = id := rfl
      rw [e1, e2, List.map_id] at h2
      exact h2
    · intro h
      rw [← h, List.map_map]
      rfl
  obtain ⟨cs, ⟨hcl, hce⟩, huniq⟩ := evalCoefs_existsUnique (P := P) s xs hnd hnz ys (by rw [hy, hlen])
  refine ⟨cs, ⟨by rw [hcl, hlen], (key cs (by rw [hcl, hlen])).mpr hce⟩, ?_⟩
  rintro cs' ⟨hl', he'⟩
  exact huniq cs' ⟨by rw [hl', hlen], (key cs' hl').mp he'⟩

end ClaimC2

section ClaimsSplit
open galois

theorem Split_valid_of_success (P : Nat) (secret : List Byte) (partsCount threshold : Int)
    (tape : Tape) (shares : List (List Byte))
    (h : Split P secret partsCount threshold tape = some (shares, none)) :
    validateSplitArgs partsCount threshold = none := by
  cases hv : validateSplitArgs partsCount threshold with
  | none => rfl
  | some e => simp [Split, hv] at h

/-- C3: distinct coordinates. A successful `fillXCoords(N)` returns exactly N entries, all
nonzero and pairwise distinct; consequently the N shares of one successful `Split` call
start with pairwise distinct nonzero bytes. -/
theorem C3_distinct_coordinates (size : Byte) (tape : Tape) (xs : List Byte) (tape1 : Tape)
    (hfill : fillXCoords size tape = ((xs, none), tape1)) :
    (xs.length = size.val ∧ (∀ x ∈ xs, x ≠ 0) ∧ xs.Nodup) ∧
    (∀ (P : Nat) (secret : List Byte) (partsCount threshold : Int) (tape2 : Tape)
      (shares : List (List Byte)),
      Split P secret partsCount threshold tape2 = some (shares, none) →
        shares.length = partsCount.toNat ∧
        (∀ s ∈ shares, ∃ x ys, s = x :: ys ∧ x ≠ 0) ∧
        (shares.map (fun s => s.head?)).Nodup) := by
  obtain ⟨h1, h2, h3⟩ := fillXCoords_spec size tape xs tape1 hfill
  refine ⟨⟨h1, h3, h2⟩, ?_⟩
  intro P secret partsCount threshold tape2 shares hs
  have hv := Split_valid_of_success P secret partsCount threshold tape2 shares hs
  obtain ⟨hn2, hn255, ht2, _, htn⟩ := validateSplitArgs_eq_none hv
  obtain ⟨xc, coeffs, hxl, hxnd, hxnz, _, _, rfl⟩ :=
    Split_success P secret partsCount threshold tape2 ⟨hn2, hn255⟩ ⟨ht2, htn⟩ shares hs
  refine ⟨by simp [hxl], ?_, ?_⟩
  · intro s hs'
    obtain ⟨x, hx, rfl⟩ := List.mem_map.mp hs'
    exact ⟨x, _, rfl, hxnz x hx⟩
  · rw [List.map_map]
    have : ((fun s : List Byte => s.head?) ∘ fun x => x :: colVals P secret coeffs x) =
        fun x => some x := rfl
    rw [this]
    exact hxnd.map (fun a b h => Option.some.inj h)

/-- C4: shape and content of the result of `Split`. For valid (N,T) a successful
`Split(S,N,T)` returns exactly N shares of length `len(S)+1`; there is one polynomial per
secret byte, with exactly T coefficients and constant term `S[i]`, such that byte 0 of
share `k` is its x-coordinate and byte `1+i` of share `k` is the value of polynomial `i`
at that x-coordinate. -/
theorem C4_split_shape (P : Nat) (secret : List Byte) (partsCount threshold : Int) (tape : Tape)
    (hN : 2 ≤ partsCount ∧ partsCount ≤ 255) (hT : 2 ≤ threshold ∧ threshold ≤ partsCount)
    (shares : List (List Byte))
    (hsplit : Split P secret partsCount threshold tape = some (shares, none)) :
    shares.length = partsCount.toNat ∧
    (∀ s ∈ shares, s.length = secret.length + 1) ∧
    ∃ polys : List polynomial, polys.length = secret.length ∧
      (∀ i, i < secret.length → ∃ p, polys[i]? = some p ∧ p.coefs.length = threshold.toNat ∧
        p.coefs.head? = secret[i]?) ∧
      (∀ k i, k < partsCount.toNat → i < secret.length →
        ∃ share x y p, shares[k]? = some share ∧ share[0]? = some x ∧
          share[i + 1]? = some y ∧ polys[i]? = some p ∧ p.evaluate P x = some y) := by
  obtain ⟨xs, coeffs, hxl, _, _, hcl, hcs, rfl⟩ :=
    Split_success P secret partsCount threshold tape hN hT shares hsplit
  have hcv : ∀ x, (colVals P secret coeffs x).length = secret.length := by
    intro x; simp [colVals, hcl]
  refine ⟨by simp [hxl], ?_, List.zipWith (fun s cs => ⟨s :: cs⟩) secret coeffs,
    by simp [hcl], ?_, ?_⟩
  · intro s hs
    obtain ⟨x, _, rfl⟩ := List.mem_map.mp hs
    simp [hcv]
  · intro i hi
    have hi2 : i < coeffs.length := by omega
    refine ⟨⟨secret[i] :: coeffs[i]⟩, ?_, ?_, ?_⟩
    · simp [List.getElem?_zipWith, List.getElem?_eq_getElem hi, List.getElem?_eq_getElem hi2]
    · simp only [List.length_cons, hcs _ (List.getElem_mem _)]
      omega
    · simp [List.getElem?_eq_getElem hi]
  · intro k i hk hi
    have hk2 : k < xs.length := by omega
    have hi2 : i < coeffs.length := by omega
    have hi3 : i < (colVals P secret coeffs xs[k]).length := by rw [hcv]; exact hi
    refine ⟨xs[k] :: colVals P secret coeffs xs[k], xs[k], (colVals P secret coeffs xs[k])[i],
      ⟨secret[i] :: coeffs[i]⟩, ?_, by simp, ?_, ?_, ?_⟩
    · simp [List.getElem?_eq_getElem hk2]
    · simp [List.getElem?_eq_getElem hi3]
    · simp [List.getElem?_zipWith, List.getElem?_eq_getElem hi, List.getElem?_eq_getElem hi2]
    · rw [evaluate_cons]
      simp [colVals]

/-- C7: argument validation of `Split`. `validateSplitArgs(N,T)` returns nil exactly when
2 <= N <= 255, 2 <= T <= 255 and T <= N; for every other pair `Split` returns the
validation error and no shares; for a valid pair `Split` does not panic and its only error
is the failure of the random source. -/
theorem C7_split_validation (P : Nat) (secret : List Byte) (partsCount threshold : Int)
    (tape : Tape) :
    (validateSplitArgs partsCount threshold = none ↔
      (2 ≤ partsCount ∧ partsCount ≤ 255 ∧ 2 ≤ threshold ∧ threshold ≤ 255 ∧
        threshold ≤ partsCount)) ∧
    (¬ (2 ≤ partsCount ∧ partsCount ≤ 255 ∧ 2 ≤ threshold ∧ threshold ≤ 255 ∧
        threshold ≤ partsCount) →
      ∃ e, (e = .partsRange ∨ e = .thresholdRange ∨ e = .thresholdAboveParts) ∧
        validateSplitArgs partsCount threshold = some e ∧
        Split P secret partsCount threshold tape = some ([], some e)) ∧
    ((2 ≤ partsCount ∧ partsCount ≤ 255 ∧ 2 ≤ threshold ∧ threshold ≤ 255 ∧
        threshold ≤ partsCount) →
      ∃ shares err, Split P secret partsCount threshold tape = some (shares, err) ∧
        (err = none ∨ err = some .randFailure)) := by
  have hiff : validateSplitArgs partsCount threshold = none ↔
      (2 ≤ partsCount ∧ partsCount ≤ 255 ∧ 2 ≤ threshold ∧ threshold ≤ 255 ∧
        threshold ≤ partsCount) :=
    ⟨validateSplitArgs_eq_none, fun h => validateSplitArgs_of_valid ⟨h.1, h.2.1⟩ ⟨h.2.2.1, h.2.2.2.2⟩⟩
  refine ⟨hiff, ?_, ?_⟩
  · intro hbad
    have hne : validateSplitArgs partsCount threshold ≠ none := fun h => hbad (hiff.mp h)
    cases hv : validateSplitArgs partsCount threshold with
    | none => exact absurd hv hne
    | some e =>
      refine ⟨e, ?_, rfl, by simp [Split, hv]⟩
      unfold validateSplitArgs at hv
      split at hv
      · left; simpa using hv.symm
      · split at hv
        · right; left; simpa using hv.symm
        · split at hv
          · right; right; simpa using hv.symm
          · simp at hv
  · intro hok
    obtain ⟨shares, err, h, herr, _⟩ := Split_spec P secret partsCount threshold tape (hiff.mpr hok)
    exact ⟨shares, err, h, herr⟩

end ClaimsSplit

section ClaimsCombine
open galois

theorem Div_error (P : Nat) (a b : Byte) (e : GoError) (h : galois.Div P a b = .error e) :
    e = .divideByZero := by
  unfold galois.Div at h
  cases hi : galois.invert P b with
  | ok i => simp [hi] at h
  | error e' =>
    simp only [hi, Except.error.injEq] at h
    subst h
    unfold galois.invert at hi
    split at hi
    · simpa using hi.symm
    · split at hi
      · simp at hi
      · simpa using hi.symm

theorem interpolateBasis_error (P : Nat) (x : Byte) (i : Nat) (xi : Byte)
    (l : List (Nat × Byte)) (basis : Byte) (e : GoError)
    (h : interpolateBasis P x i xi l basis = .error e) : e = .divideByZero := by
  induction l generalizing basis with
  | nil => simp [interpolateBasis] at h
  | cons jx l ih =>
    obtain ⟨j, xj⟩ := jx
    unfold interpolateBasis at h
    split at h
    · exact ih _ h
    · simp only at h
      cases hd : galois.Div P (galois.Add x xj) (galois.Add xi xj) with
      | error e' =>
        simp only [hd, Except.error.injEq] at h
        subst h
        exact Div_error P _ _ _ hd
      | ok t =>
        simp only [hd] at h
        exact ih _ h

/-- The inner loop of `interpolate` fails as soon as another sample has the same
x-coordinate. -/
theorem interpolateBasis_dup (P : Nat) (x : Byte) (i : Nat) (xi : Byte)
    (l : List (Nat × Byte)) (basis : Byte) (j : Nat) (hj : (j, xi) ∈ l) (hij : i ≠ j) :
    interpolateBasis P x i xi l basis = .error .divideByZero := by
  induction l generalizing basis with
  | nil => simp at hj
  | cons kx l ih =>
    obtain ⟨k, xk⟩ := kx
    unfold interpolateBasis
    by_cases hik : i = k
    · simp only [hik, if_true]
      rcases List.mem_cons.mp hj with h | h
      · simp only [Prod.mk.injEq] at h
        exact absurd (hik.trans h.1.symm) hij
      · rw [← hik]; exact ih _ h
    · simp only [hik, if_false]
      cases hd : galois.Div P (galois.Add x xk) (galois.Add xi xk) with
      | error e => rw [Div_error P _ _ _ hd]
      | ok t =>
        simp only
        rcases List.mem_cons.mp hj with h | h
        · simp only [Prod.mk.injEq] at h
          rw [← h.2, Add_self, Div_zero] at hd
          simp at hd
        · exact ih _ h

theorem interpolateLoop_dup (P : Nat) (xs ys : List Byte) (x : Byte) (l : List (Nat × Byte))
    (ret : Byte) (hy : ∀ ix ∈ l, ix.1 < ys.length)
    (hdup : ∃ ix ∈ l, ∃ j, (j, ix.2) ∈ xs.enum ∧ ix.1 ≠ j) :
    interpolateLoop P xs ys x l ret = some (0, some .divideByZero) := by
  induction l generalizing ret with
  | nil => obtain ⟨ix, h, _⟩ := hdup; simp at h
  | cons ix l ih =>
    obtain ⟨i, xi⟩ := ix
    unfold interpolateLoop
    cases hb : interpolateBasis P x i xi xs.enum 1 with
    | error e => rw [interpolateBasis_error P _ _ _ _ _ _ hb]
    | ok b =>
      simp only
      have hi : i < ys.length := hy (i, xi) (List.mem_cons_self _ _)
      simp only [List.getElem?_eq_getElem hi]
      apply ih _ (fun ix hix => hy ix (List.mem_cons_of_mem _ hix))
      obtain ⟨kx, hk, j, hj, hne⟩ := hdup
      rcases List.mem_cons.mp hk with h | h
      · subst h
        rw [interpolateBasis_dup P x i xi xs.enum 1 j hj hne] at hb
        simp at hb
      · exact ⟨kx, h, j, hj, hne⟩

/-- With a repeated x-coordinate `interpolate` returns the division-by-zero error. -/
theorem interpolate_dup (P : Nat) (xs ys : List Byte) (x : Byte) (hlen : ys.length = xs.length)
    (hdup : ¬ xs.Nodup) : interpolate P xs ys x = some (0, some .divideByZero) := by
  unfold interpolate
  apply interpolateLoop_dup
  · intro ix hix
    obtain ⟨i, xi⟩ := ix
    have := List.mem_enum hix
    simp only at this ⊢
    rw [hlen]
    exact this.1
  · rw [← List.exists_duplicate_iff_not_nodup] at hdup
    obtain ⟨a, ha⟩ := hdup
    rw [List.duplicate_iff_exists_distinct_get] at ha
    obtain ⟨n, m, hnm, h1, h2⟩ := ha
    refine ⟨(n.val, a), ?_, m.val, ?_, ?_⟩
    · rw [List.mk_mem_enum_iff_getElem?]
      rw [h1]; simp
    · rw [List.mk_mem_enum_iff_getElem?]
      rw [h2]; simp
    · exact fun h => (ne_of_lt hnm) (Fin.ext h)

end ClaimsCombine

section ClaimsCombine2
open galois

theorem map_head?_eq (parts : List (List Byte)) (h : ∀ p ∈ parts, p ≠ []) :
    parts.map (fun p => p.head?) = (parts.map (fun p => p.headD 0)).map some := by
  rw [List.map_map]
  apply List.map_congr_left
  intro p hp
  cases p with
  | nil => exact absurd rfl (h [] hp)
  | cons x ys => rfl

theorem nodup_map_some {l : List Byte} : (l.map some).Nodup ↔ l.Nodup :=
  ⟨List.Nodup.of_map _, fun h => h.map (fun _ _ e => Option.some.inj e)⟩

/-- C5 (amended): duplicate coordinate rejection. For every list of 2 to 254 shares that
all carry at least one y-value (length at least 2) and in which two shares have the same
first byte, `Combine` returns the division-by-zero error of the field, together with a
buffer of zeros instead of a reconstructed secret. -/
theorem C5_duplicate_coordinates (P : Nat) (parts : List (List Byte))
    (hn : 2 ≤ parts.length ∧ parts.length ≤ 254) (hlen : ∀ p ∈ parts, 2 ≤ p.length)
    (hdup : ¬ (parts.map (fun p => p.head?)).Nodup) :
    Combine P parts =
      some (List.replicate ((parts.headD []).length - 1) 0, some .divideByZero) := by
  have hne : ∀ p ∈ parts, p ≠ [] := fun p hp h => by have := hlen p hp; simp [h] at this
  rw [map_head?_eq parts hne, nodup_map_some] at hdup
  unfold Combine
  have hcond : ¬ (parts.length < 2 ∨ parts.length ≥ 255) := by omega
  simp only [hcond, if_false]
  cases parts with
  | nil => simp at hn
  | cons part0 rest =>
    have h0 : 2 ≤ part0.length := hlen part0 (List.mem_cons_self _ _)
    have hpl : ¬ ((part0.length : Int) - 1 < 1) := by omega
    simp only [hpl, if_false, List.headD_cons]
    rw [combineHeaders_eq _ hne]
    simp only
    have htl : ((part0.length : Int) - 1).toNat = part0.length - 1 := by omega
    rw [htl]
    simp only [combineBlock, List.map_cons]
    have hn1 : part0.tail.length = (part0.length - 1 - 1) + 1 := by
      simp [List.length_tail]; omega
    rw [hn1]
    unfold combineBlockLoop
    have hg := gatherSamples_eq 0 0 (part0.tail :: rest.map List.tail)
      (List.replicate (part0 :: rest).length 0)
      (by
        intro p hp
        rw [← List.map_cons (f := List.tail), List.mem_map] at hp
        obtain ⟨q, hq, rfl⟩ := hp
        have := hlen q hq
        simp [List.length_tail]; omega)
      (by simp)
    rw [hg]
    simp only [List.take_zero, List.nil_append]
    have hdrop : List.drop (0 + (part0.tail :: rest.map List.tail).length)
        (List.replicate (part0 :: rest).length (0 : Byte)) = [] := by
      rw [List.drop_eq_nil_iff]; simp
    rw [hdrop, List.append_nil]
    rw [interpolate_dup P _ _ 0 (by simp) (by simpa using hdup)]
    have hb : 0 < (List.replicate (part0.length - 1) (0 : Byte)).length := by simp; omega
    simp only [hb, if_true]
    congr 2
    apply List.ext_getElem
    · simp
    · intro k h1 h2
      simp [List.getElem_set]

/-- C5, as stated, fails when the shares carry no y-value: the two shares have the same
x-coordinate 5, and `Combine` returns the empty secret and no error. -/
theorem C5_counterexample : Combine 283 [[5], [5]] = some ([], none) := by
  decide

/-- C8: share-count validation of `Combine`. Fewer than 2 or at least 255 shares give the
validation error; 2 to 254 shares of one common length with pairwise distinct
x-coordinates give a byte sequence of that length minus 1 and no error. -/
theorem C8_combine_count (P : Nat) (hP : irreducible8 P = true) (parts : List (List Byte)) :
    ((parts.length < 2 ∨ 255 ≤ parts.length) → Combine P parts = some ([], some .combineRange)) ∧
    ((2 ≤ parts.length ∧ parts.length < 255) →
      ∀ L : Nat, (∀ p ∈ parts, p.length = L) → (parts.map (fun p => p.head?)).Nodup →
        ∃ ret, Combine P parts = some (ret, none) ∧ ret.length = L - 1) := by
  haveI : Fact (irreducible8 P = true) := ⟨hP⟩
  constructor
  · intro h
    unfold Combine
    have : parts.length < 2 ∨ parts.length ≥ 255 := h
    simp only [this, if_true]
  · intro hn L hlen hnd
    have hL : L ≠ 0 := by
      intro h0
      subst h0
      match parts, hn, hlen, hnd with
      | [], hn, _, _ => simp at hn
      | [_], hn, _, _ => simp at hn
      | p :: q :: rest, _, hlen, hnd =>
        have hp : p = [] := List.length_eq_zero.mp (hlen p (by simp))
        have hq : q = [] := List.length_eq_zero.mp (hlen q (by simp))
        subst hp hq
        simp at hnd
    have hne : ∀ p ∈ parts, p ≠ [] := fun p hp h => by
      have := hlen p hp; simp [h] at this; exact hL this.symm
    rw [map_head?_eq parts hne, nodup_map_some] at hnd
    obtain ⟨L1, rfl⟩ : ∃ L1, L = L1 + 1 := ⟨L - 1, by omega⟩
    refine ⟨_, Combine_eq (P := P) parts hn.1 hn.2 L1 hlen hnd, by simp⟩

end ClaimsCombine2

/-! ## The streaming split -/

section SplitFileSpec
open galois

theorem File.remaining_eq (f : File) : f.remaining = f.content.length := by
  unfold File.remaining File.content
  induction f.pending with
  | nil => rfl
  | cons seg rest ih => simp [segBytes, ih]

theorem readPending_data (cap : Nat) (hcap : 0 < cap) (failure : Option GoError)
    (pending : List (List Byte)) (data : List Byte) (rest : List (List Byte))
    (h : readPending cap failure pending = ((data, none), rest)) :
    data ≠ [] ∧ data.length ≤ cap ∧ segBytes pending = data ++ segBytes rest := by
  induction pending with
  | nil => simp [readPending] at h
  | cons seg pending ih =>
    cases seg with
    | nil => simpa [readPending, segBytes] using ih (by simpa [readPending] using h)
    | cons b seg =>
      simp only [readPending, Prod.mk.injEq, and_true] at h
      obtain ⟨rfl, rfl⟩ := h
      refine ⟨?_, by simp [List.length_take], ?_⟩
      · cases cap with
        | zero => omega
        | succ c => simp
      · by_cases hd : List.drop cap (b :: seg) = []
        · simp only [hd, if_true, segBytes]
          conv_lhs => rw [← List.take_append_drop cap (b :: seg), hd]
          simp
        · simp only [hd, if_false, segBytes]
          rw [← List.append_assoc, List.take_append_drop]

theorem readPending_err (cap : Nat) (failure : Option GoError)
    (pending : List (List Byte)) (data : List Byte) (e : GoError) (rest : List (List Byte))
    (h : readPending cap failure pending = ((data, some e), rest)) :
    segBytes pending = [] ∧ e = failure.getD .eof := by
  induction pending with
  | nil =>
    simp only [readPending, Prod.mk.injEq, Option.some.injEq] at h
    exact ⟨rfl, h.1.2.symm⟩
  | cons seg pending ih =>
    cases seg with
    | nil => simpa [readPending, segBytes] using ih (by simpa [readPending] using h)
    | cons b seg => simp [readPending] at h

theorem File.read_data (cap : Nat) (hcap : 0 < cap) (f f1 : File) (data : List Byte)
    (h : f.read cap = ((data, none), f1)) :
    data ≠ [] ∧ data.length ≤ cap ∧ f.content = data ++ f1.content ∧ f1.failure = f.failure := by
  unfold File.read at h
  have hc : cap ≠ 0 := by omega
  simp only [hc, if_false, Prod.mk.injEq] at h
  obtain ⟨h1, rfl⟩ := h
  have := readPending_data cap hcap f.failure f.pending data
    (readPending cap f.failure f.pending).2 (by rw [← h1])
  exact ⟨this.1, this.2.1, this.2.2, rfl⟩

theorem File.read_err (cap : Nat) (hcap : 0 < cap) (f f1 : File) (data : List Byte) (e : GoError)
    (h : f.read cap = ((data, some e), f1)) :
    f.content = [] ∧ e = f.failure.getD .eof := by
  unfold File.read at h
  have hc : cap ≠ 0 := by omega
  simp only [hc, if_false, Prod.mk.injEq] at h
  exact readPending_err cap f.failure f.pending data e
    (readPending cap f.failure f.pending).2 (by rw [← h.1])

theorem World.write_eq (os : OS) (hw : ∀ p n, os.writeErr p n = none) (w : World) (h : Nat)
    (data : List Byte) (p : OsPath) (c : List Byte) (hh : w.created[h]? = some (p, c)) :
    w.write os h data = (none, { w with created := w.created.set h (p, c ++ data) }) := by
  simp [World.write, hh, hw]

theorem writeParts_eq (os : OS) (hw : ∀ p n, os.writeErr p n = none) (base bytesRead : Nat)
    (rows : List (List Byte)) (w : World) (pre done todo : List (OsPath × List Byte))
    (hbase : pre.length = base) (hc : w.created = pre ++ done ++ todo)
    (hlen : rows.length = todo.length) :
    ∃ w1, writeParts os base bytesRead done.length rows w = (none, w1) ∧
      w1.created = pre ++ done ++
        List.zipWith (fun pc row => (pc.1, pc.2 ++ row.take bytesRead)) todo rows ∧
      w1.opened = w.opened ∧ w1.stdout = w.stdout := by
  induction rows generalizing w done todo with
  | nil =>
    have : todo = [] := List.length_eq_zero.mp hlen.symm
    subst this
    exact ⟨w, rfl, by simpa using hc, rfl, rfl⟩
  | cons row rows ih =>
    cases todo with
    | nil => simp at hlen
    | cons pc todo =>
      obtain ⟨p, c⟩ := pc
      have hpl : (pre ++ done).length = base + done.length := by simp [hbase]
      have hidx : w.created[base + done.length]? = some (p, c) := by
        rw [hc, List.getElem?_append_right (by omega), hpl]
        simp
      unfold writeParts
      rw [World.write_eq os hw w _ _ p c hidx]
      simp only
      have hset : w.created.set (base + done.length) (p, c ++ row.take bytesRead) =
          pre ++ (done ++ [(p, c ++ row.take bytesRead)]) ++ todo := by
        rw [hc, List.set_append_right _ _ (by omega), hpl]
        simp
      let w2 : World :=
        { opened := w.opened, created := w.created.set (base + done.length)
            (p, c ++ row.take bytesRead), stdout := w.stdout }
      obtain ⟨w1, h1, h2, h3, h4⟩ := ih w2 (done ++ [(p, c ++ row.take bytesRead)]) todo hset
        (by simpa using hlen)
      refine ⟨w1, ?_, ?_, h3, h4⟩
      · rw [← h1]; simp
      · rw [h2]; simp

theorem createParts_eq (os : OS) (hw : ∀ p n, os.writeErr p n = none) (outDir filePattern : GoString)
    (xCoords : List Byte) (base n partIdx : Nat) (w w1 : World)
    (hb : w.created.length = base + partIdx)
    (h : createParts os outDir filePattern xCoords base n partIdx w = some (none, w1)) :
    w1.created = w.created ++ (List.range' partIdx n).map (fun k =>
        (OsPath.join outDir (partName filePattern k), [xCoords.getD k 0])) ∧
      w1.opened = w.opened ∧ w1.stdout = w.stdout ∧
      (∀ k, partIdx ≤ k → k < partIdx + n → k < xCoords.length ∧
        partFileName filePattern k = .ok (partName filePattern k)) := by
  induction n generalizing partIdx w with
  | zero =>
    simp only [createParts, Option.some.injEq, Prod.mk.injEq, true_and] at h
    subst h
    exact ⟨by simp, rfl, rfl, fun k h1 h2 => by omega⟩
  | succ n ih =>
    unfold createParts at h
    cases hname : partFileName filePattern partIdx with
    | error e => simp [hname] at h
    | ok filename =>
      simp only [hname] at h
      unfold World.create at h
      cases hce : os.createErr (OsPath.join outDir filename) with
      | some e => simp [hce] at h
      | none =>
        simp only [hce] at h
        cases hx : xCoords[partIdx]? with
        | none => simp [hx] at h
        | some x =>
          simp only [hx] at h
          have hidx : ({ w with created := w.created ++ [(OsPath.join outDir filename, [])] } :
              World).created[base + partIdx]? = some (OsPath.join outDir filename, []) := by
            simp [← hb]
          rw [World.write_eq os hw _ _ _ _ _ hidx] at h
          simp only at h
          obtain ⟨h1, h2, h3, h4⟩ := ih (partIdx + 1) _ (by simp [hb]; omega) h
          have hpn : partName filePattern partIdx = filename := by simp [partName, hname]
          have hxlt : partIdx < xCoords.length := by
            by_contra hge
            rw [List.getElem?_eq_none (by omega)] at hx
            simp at hx
          have hxd : xCoords.getD partIdx 0 = x := by
            rw [List.getD_eq_getElem?_getD, hx]; rfl
          refine ⟨?_, h2, h3, ?_⟩
          · rw [h1, List.range'_succ, List.map_cons, hpn, hxd]
            simp [← hb]
          · intro k hk1 hk2
            by_cases hk : k = partIdx
            · subst hk
              exact ⟨hxlt, by rw [hname, hpn]⟩
            · exact h4 k (by omega) (by omega)

end SplitFileSpec

section SplitFileSpec2
open galois

theorem splitBlock_spec (P : Nat) (xCoords : List Byte) (threshold : Byte)
    (polynomPerByte : Bool) (hd : (threshold - 1).val + 1 < 256)
    (block : List Byte) (buf : List (List Byte)) (tape : Tape)
    (hx : buf.length ≤ xCoords.length)
    (hrows : ∀ row ∈ buf, block.length ≤ row.length) :
    ∃ buf1 err tape1,
      splitBlock P block buf xCoords threshold polynomPerByte tape = some ((buf1, err), tape1) ∧
      (err = none ∨ err = some .randFailure) ∧
      (err = none → ∃ coeffs : List (List Byte), coeffs.length = block.length ∧
        (∀ cs ∈ coeffs, cs.length = (threshold - 1).val) ∧
        (polynomPerByte = false → ∃ cs0, ∀ cs ∈ coeffs, cs = cs0) ∧
        buf1 = blockRows P block coeffs 0 buf xCoords) := by
  have hrows0 : ∀ row ∈ buf, 0 + block.length ≤ row.length := by simpa using hrows
  unfold splitBlock
  cases hpb : polynomPerByte with
  | true =>
    simp only [if_true]
    obtain ⟨buf1, err, tape1, h1, h2, h3⟩ := splitBlockLoop_spec P xCoords threshold true hd
      block 0 none buf tape (fun h => by simp at h) hx hrows0
    refine ⟨buf1, err, tape1, h1, h2, fun he => ?_⟩
    obtain ⟨coeffs, c1, c2, _, c4⟩ := h3 he
    exact ⟨coeffs, c1, c2, fun h => by simp at h, c4⟩
  | false =>
    simp only [Bool.false_eq_true, if_false]
    rw [newPolynomial_eq 0 (threshold - 1) tape hd]
    by_cases hl : (threshold - 1).val ≤ tape.length
    · simp only [hl, if_true]
      obtain ⟨buf1, err, tape1, h1, h2, h3⟩ := splitBlockLoop_spec P xCoords threshold false hd
        block 0 (some ⟨0 :: tape.take (threshold - 1).val⟩) buf (tape.drop (threshold - 1).val)
        (fun _ => ⟨0, _, rfl, by simp [hl]⟩) hx hrows0
      refine ⟨buf1, err, tape1, h1, h2, fun he => ?_⟩
      obtain ⟨coeffs, c1, c2, c3, c4⟩ := h3 he
      refine ⟨coeffs, c1, c2, fun _ => ⟨tape.take (threshold - 1).val, fun cs hcs => ?_⟩, c4⟩
      obtain ⟨c, hc⟩ := c3 rfl cs hcs
      simp only [Option.some.injEq, polynomial.mk.injEq, List.cons.injEq] at hc
      exact hc.2.symm
    · simp only [hl, if_false]
      exact ⟨buf, some .randFailure, tape, rfl, Or.inr rfl, fun h => by simp at h⟩

theorem colVals_length (P : Nat) (block : List Byte) (coeffs : List (List Byte)) (x : Byte)
    (h : coeffs.length = block.length) : (colVals P block coeffs x).length = block.length := by
  simp [colVals, h]

theorem colVals_append (P : Nat) (b1 b2 : List Byte) (c1 c2 : List (List Byte)) (x : Byte)
    (h : c1.length = b1.length) :
    colVals P (b1 ++ b2) (c1 ++ c2) x = colVals P b1 c1 x ++ colVals P b2 c2 x := by
  unfold colVals
  exact List.zipWith_append _ _ _ _ _ h.symm

/-- What the writes of one round append: the first `n` bytes of the rows that
`splitBlock` has just filled. -/
theorem zipWith_blockRows_take (P : Nat) (data : List Byte) (coeffs : List (List Byte))
    (hcl : coeffs.length = data.length)
    (cur : List (OsPath × List Byte)) (partsBuf : List (List Byte)) (xCoords : List Byte)
    (h1 : cur.length = partsBuf.length) (h2 : partsBuf.length = xCoords.length) :
    List.zipWith (fun pc row => ((pc.1, pc.2 ++ row.take data.length) : OsPath × List Byte)) cur
        (blockRows P data coeffs 0 partsBuf xCoords) =
      List.zipWith (fun pc x => (pc.1, pc.2 ++ colVals P data coeffs x)) cur xCoords := by
  unfold blockRows
  induction cur generalizing partsBuf xCoords with
  | nil => simp
  | cons pc cur ih =>
    cases partsBuf with
    | nil => simp at h1
    | cons row partsBuf =>
      cases xCoords with
      | nil => simp at h2
      | cons x xCoords =>
        have ih1 := ih partsBuf xCoords (by simpa using h1) (by simpa using h2)
        simp only [List.zipWith_cons_cons, List.take_zero, List.nil_append, Nat.zero_add] at ih1 ⊢
        rw [ih1]
        congr 2
        have := colVals_length P data coeffs x hcl
        rw [List.take_append_of_le_length (by omega), ← this, List.take_length]

theorem splitFileLoop_spec (P : Nat) (os : OS) (hw : ∀ p n, os.writeErr p n = none)
    (xCoords : List Byte) (threshold : Byte) (polynomPerByte : Bool) (blockSize base : Nat)
    (hbs : 0 < blockSize) (hd : (threshold - 1).val + 1 < 256)
    (pre : List (OsPath × List Byte)) (hbase : pre.length = base)
    (fuel : Nat) (inputFile : File) (partsBuf : List (List Byte)) (tape : Tape) (w w1 : World)
    (cur : List (OsPath × List Byte)) (hc : w.created = pre ++ cur)
    (hcur : cur.length = partsBuf.length) (hxs : partsBuf.length = xCoords.length)
    (hrows : ∀ row ∈ partsBuf, row.length = blockSize)
    (h : splitFileLoop P os xCoords threshold polynomPerByte blockSize base fuel inputFile
      partsBuf tape w = some (none, w1)) :
    ∃ coeffs : List (List Byte), coeffs.length = inputFile.content.length ∧
      (∀ cs ∈ coeffs, cs.length = (threshold - 1).val) ∧
      w1.created = pre ++
        List.zipWith (fun pc x => (pc.1, pc.2 ++ colVals P inputFile.content coeffs x)) cur xCoords ∧
      w1.opened = w.opened ∧ w1.stdout = w.stdout := by
  induction fuel generalizing inputFile partsBuf tape w cur with
  | zero => simp [splitFileLoop] at h
  | succ fuel ih =>
    unfold splitFileLoop at h
    rcases hread : inputFile.read blockSize with ⟨⟨data, rerr⟩, inputFile1⟩
    rw [hread] at h
    cases rerr with
    | some e =>
      simp only at h
      by_cases he : e = .eof
      · simp only [he, if_true, Option.some.injEq, Prod.mk.injEq, true_and] at h
        subst h
        obtain ⟨hcont, _⟩ := File.read_err blockSize hbs _ _ _ _ hread
        refine ⟨[], by simp [hcont], by simp, ?_, rfl, rfl⟩
        rw [hc, hcont]
        congr 1
        have : (fun (pc : OsPath × List Byte) (x : Byte) =>
            ((pc.1, pc.2 ++ colVals P [] [] x) : OsPath × List Byte)) = fun pc _ => pc := by
          funext pc x; simp [colVals]
        rw [this, zipWith_left_id _ _ (by omega)]
      · simp [he] at h
    | none =>
      simp only at h
      obtain ⟨hne, hdl, hcont, _⟩ := File.read_data blockSize hbs _ _ _ hread
      obtain ⟨buf1, err, tape1, hsb, _, hok⟩ := splitBlock_spec P xCoords threshold polynomPerByte
        hd data partsBuf tape (by omega) (fun row hrow => by rw [hrows row hrow]; exact hdl)
      rw [hsb] at h
      cases err with
      | some e => simp at h
      | none =>
        simp only at h
        obtain ⟨coeffs1, hc1, hcs1, _, hbuf⟩ := hok rfl
        have hb1len : buf1.length = partsBuf.length := by
          rw [hbuf]; simp [blockRows, hxs]
        obtain ⟨w2, hwp, hw2c, hw2o, hw2s⟩ := writeParts_eq os hw base data.length buf1 w pre []
          cur hbase (by simpa using hc) (by rw [hb1len, hcur])
        simp only [List.length_nil] at hwp
        rw [hwp] at h
        simp only at h
        have hrows1 : ∀ row ∈ buf1, row.length = blockSize := by
          rw [hbuf]
          unfold blockRows
          apply forall_mem_zipWith
          intro row hrow x
          have := hrows row hrow
          simp [colVals_length P data coeffs1 x hc1, this]
          omega
        simp only [List.append_nil] at hw2c
        rw [hbuf, zipWith_blockRows_take P data coeffs1 hc1 cur partsBuf xCoords hcur hxs] at hw2c
        obtain ⟨coeffs2, hc2, hcs2, hfin, hfo, hfs⟩ := ih inputFile1 buf1 tape1 w2
          (List.zipWith (fun pc x => (pc.1, pc.2 ++ colVals P data coeffs1 x)) cur xCoords)
          hw2c (by simp [hb1len, hcur, hxs]) (by rw [hb1len, hxs]) hrows1 h
        refine ⟨coeffs1 ++ coeffs2, by simp [hcont, hc1, hc2], ?_, ?_, by rw [hfo, hw2o],
          by rw [hfs, hw2s]⟩
        · intro cs hcs
          rcases List.mem_append.mp hcs with h' | h'
          · exact hcs1 cs h'
          · exact hcs2 cs h'
        · rw [hfin, zipWith_zipWith_same, hcont]
          congr 1
          apply zipWith_congr_mem
          intro pc _ x
          rw [colVals_append P _ _ _ _ x hc1]
          simp

end SplitFileSpec2

section SplitFileSpec3
open galois

theorem zipWith_map_range {α β : Type} (g : α → Byte → β) (f : Nat → α) (xs : List Byte) :
    List.zipWith g ((List.range' 0 xs.length).map f) xs =
      (List.range xs.length).map (fun k => g (f k) (xs.getD k 0)) := by
  apply List.ext_getElem
  · simp
  · intro k h1 h2
    have hk : k < xs.length := by simpa using h2
    simp [List.getElem_zipWith, List.getElem?_eq_getElem hk]

/-- What a successful `SplitFile` has done, when no write fails: it has read the whole
input and created one file per part, holding the x-coordinate followed by one y-value per
input byte. -/
theorem SplitFile_success (P : Nat) (os : OS) (hw : ∀ p n, os.writeErr p n = none)
    (inputFilename outDir filePattern : GoString) (partsCount threshold : Int)
    (blockSize : Nat) (polynomPerByte : Bool) (tape : Tape) (w w1 : World)
    (h : SplitFile P os inputFilename outDir filePattern partsCount threshold blockSize
      polynomPerByte tape w = some (none, w1)) :
    ∃ (inputFile : File) (xCoords : List Byte) (coeffs : List (List Byte)),
      ((inputFilename = [] ∧ inputFile = os.stdin) ∨
        (inputFilename ≠ [] ∧ os.openRead (.named inputFilename) = .ok inputFile)) ∧
      validateSplitArgs partsCount threshold = none ∧
      xCoords.length = partsCount.toNat ∧ xCoords.Nodup ∧ (∀ x ∈ xCoords, x ≠ 0) ∧
      coeffs.length = inputFile.content.length ∧
      (∀ cs ∈ coeffs, cs.length = threshold.toNat - 1) ∧
      (∀ k, k < partsCount.toNat → partFileName filePattern k = .ok (partName filePattern k)) ∧
      w1.created = w.created ++ (List.range partsCount.toNat).map (fun k =>
        (OsPath.join outDir (partName filePattern k),
          xCoords.getD k 0 :: colVals P inputFile.content coeffs (xCoords.getD k 0))) ∧
      w1.stdout = w.stdout := by
  unfold SplitFile at h
  by_cases hneg : partsCount < 0 ∨ 8 * partsCount.toNat > maxAlloc
  · simp [hneg] at h
  by_cases hbig : (if blockSize = 0 then defaultBlockSize else blockSize) > maxAlloc
  · simp [hneg, hbig] at h
  simp only [hneg, hbig, if_false] at h
  cases hv : validateSplitArgs partsCount threshold with
  | some e => simp [hv] at h
  | none =>
    obtain ⟨hn2, hn255, ht2, ht255, htn⟩ := validateSplitArgs_eq_none hv
    simp only [hv] at h
    -- the input
    have hin : ∃ (inputFile : File) (w0 : World),
        (if inputFilename = [] then ((Except.ok os.stdin : Except GoError File), w)
          else (os.openRead (.named inputFilename),
            ({ w with opened := w.opened ++ [OsPath.named inputFilename] } : World))) =
          (.ok inputFile, w0) ∧ w0.created = w.created ∧ w0.stdout = w.stdout ∧
        ((inputFilename = [] ∧ inputFile = os.stdin) ∨
          (inputFilename ≠ [] ∧ os.openRead (.named inputFilename) = .ok inputFile)) := by
      by_cases hname : inputFilename = []
      · exact ⟨os.stdin, w, by simp [hname], rfl, rfl, Or.inl ⟨hname, rfl⟩⟩
      · cases hop : os.openRead (.named inputFilename) with
        | error e => simp [hname, hop] at h
        | ok f =>
          exact ⟨f, { w with opened := w.opened ++ [OsPath.named inputFilename] },
            by simp [hname], rfl, rfl, Or.inr ⟨hname, rfl⟩⟩
    obtain ⟨inputFile, w0, hopen, hw0c, hw0s, hsrc⟩ := hin
    rw [hopen] at h
    simp only at h
    -- the coordinates
    unfold prepareSplit at h
    rcases hfill : fillXCoords (toUint8 partsCount) tape with ⟨⟨xs, ferr⟩, tape1⟩
    rw [hfill] at h
    cases ferr with
    | some e => simp at h
    | none =>
      simp only at h
      obtain ⟨hxlen, hxnd, hxnz⟩ := fillXCoords_spec _ _ _ _ hfill
      rw [toUint8_val (by omega) hn255] at hxlen
      rw [toUint8_val (by omega) hn255] at h
      -- the part files
      cases hcp : createParts os outDir filePattern xs w0.created.length partsCount.toNat 0 w0 with
      | none => simp [hcp] at h
      | some r =>
        obtain ⟨cerr, w2⟩ := r
        rw [hcp] at h
        cases cerr with
        | some e => simp at h
        | none =>
          simp only at h
          obtain ⟨hc2, _, hs2, hnames⟩ := createParts_eq os hw outDir filePattern xs
            w0.created.length partsCount.toNat 0 w0 w2 (by simp) hcp
          have hbs : 0 < (if blockSize = 0 then defaultBlockSize else blockSize) := by
            split
            · decide
            · omega
          have hd : (toUint8 threshold - 1).val + 1 < 256 := by
            rw [toUint8_sub_one_val (by omega) ht255]; omega
          obtain ⟨coeffs, hcl, hcs, hfin, _, hfs⟩ := splitFileLoop_spec P os hw xs
            (toUint8 threshold) polynomPerByte _ w0.created.length hbs hd w0.created rfl _
            inputFile _ tape1 w2 w1 _ hc2 (by simp) (by simp [hxlen])
            (fun row hrow => by rw [List.eq_of_mem_replicate hrow]; simp) h
          refine ⟨inputFile, xs, coeffs, hsrc, rfl, hxlen, hxnd, hxnz, hcl, ?_, ?_, ?_, ?_⟩
          · intro cs hcs'
            rw [hcs cs hcs', toUint8_sub_one_val (by omega) ht255]
          · intro k hk
            exact (hnames k (by omega) (by omega)).2
          · rw [hfin, hw0c, ← hxlen, zipWith_map_range]
            simp
          · rw [hfs, hs2, hw0s]

end SplitFileSpec3

/-! ## The streaming combine -/

section CombineFilesSpec
open galois

theorem File.regular_holds (content : List Byte) : (File.regular content).holds content :=
  ⟨rfl, Or.inl rfl⟩

theorem File.holds_read_nil (cap : Nat) (hcap : 0 < cap) (f : File) (h : f.holds []) :
    (f.read cap).1 = ([], some .eof) := by
  obtain ⟨hf, hp | ⟨hp, _⟩⟩ := h <;>
    simp [File.read, Nat.pos_iff_ne_zero.mp hcap, hp, hf, readPending]

theorem File.holds_read_cons (cap : Nat) (hcap : 0 < cap) (f : File) (b : Byte) (r : List Byte)
    (h : f.holds (b :: r)) :
    (f.read cap).1 = ((b :: r).take cap, none) ∧ (f.read cap).2.holds ((b :: r).drop cap) := by
  obtain ⟨hf, hp | ⟨_, hr⟩⟩ := h
  · have hc : cap ≠ 0 := Nat.pos_iff_ne_zero.mp hcap
    have e : f.read cap = (((b :: r).take cap, none),
        { f with pending := if (b :: r).drop cap = [] then [] else [(b :: r).drop cap] }) := by
      simp [File.read, hc, hp, readPending]
    rw [e]
    refine ⟨rfl, hf, ?_⟩
    by_cases hd : List.drop cap (b :: r) = []
    · right; simp [hd]
    · left; simp [hd]
  · simp at hr

theorem readXSamples_eq (fs : List File) (cs : List (List Byte))
    (h : List.Forall₂ File.holds fs cs) (hne : ∀ c ∈ cs, c ≠ []) :
    ∃ fs1, readXSamples fs = .ok (cs.map (fun c => c.headD 0), fs1) ∧
      List.Forall₂ File.holds fs1 (cs.map List.tail) := by
  induction h with
  | nil => exact ⟨[], rfl, List.Forall₂.nil⟩
  | @cons f c fs cs hfc _ ih =>
    obtain ⟨fs1, h1, h2⟩ := ih (fun c hc => hne c (List.mem_cons_of_mem _ hc))
    cases c with
    | nil => exact absurd rfl (hne [] (List.mem_cons_self _ _))
    | cons b r =>
      obtain ⟨hr1, hr2⟩ := File.holds_read_cons 1 (by decide) f b r hfc
      refine ⟨(f.read 1).2 :: fs1, ?_, ?_⟩
      · unfold readXSamples
        rcases hrd : f.read 1 with ⟨⟨data, err⟩, f1⟩
        rw [hrd] at hr1
        simp only [Prod.mk.injEq] at hr1
        obtain ⟨rfl, rfl⟩ := hr1
        simp [h1]
      · refine List.Forall₂.cons ?_ h2
        simpa using hr2

theorem readRound_finished (blockSize : Nat) (hbs : 0 < blockSize) (f : File) (fs : List File)
    (h : f.holds []) : readRound blockSize 0 (-1) (f :: fs) = .finished := by
  unfold readRound
  have := File.holds_read_nil blockSize hbs f h
  rcases hrd : f.read blockSize with ⟨⟨data, err⟩, f1⟩
  rw [hrd] at this
  simp only [Prod.mk.injEq] at this
  obtain ⟨rfl, rfl⟩ := this
  simp

theorem readRound_chunks (blockSize : Nat) (hbs : 0 < blockSize) (n : Nat) (hn : 0 < n)
    (fs : List File) (rs : List (List Byte)) (h : List.Forall₂ File.holds fs rs)
    (hlen : ∀ r ∈ rs, r.length = n) (partIdx : Nat) (cr : Int)
    (hcr : cr = -1 ∨ cr = (min blockSize n : Nat)) :
    ∃ fs1, readRound blockSize partIdx cr fs =
        .chunks (rs.map (List.take blockSize))
          (if fs.length = 0 then cr else (min blockSize n : Nat)) fs1 ∧
      List.Forall₂ File.holds fs1 (rs.map (List.drop blockSize)) := by
  induction h generalizing partIdx cr with
  | nil => exact ⟨[], by simp [readRound], List.Forall₂.nil⟩
  | @cons f r fs rs hfr hrest ih =>
    have hrl : r.length = n := hlen r (List.mem_cons_self _ _)
    cases r with
    | nil => simp at hrl; omega
    | cons b r =>
      obtain ⟨hr1, hr2⟩ := File.holds_read_cons blockSize hbs f b r hfr
      have hdl : ((b :: r).take blockSize).length = min blockSize n := by
        rw [List.length_take, hrl]
      obtain ⟨fs1, h1, h2⟩ := ih (fun r' hr' => hlen r' (List.mem_cons_of_mem _ hr'))
        (partIdx + 1) (min blockSize n : Nat) (Or.inr rfl)
      refine ⟨(f.read blockSize).2 :: fs1, ?_, List.Forall₂.cons (by simpa using hr2) h2⟩
      unfold readRound
      rcases hrd : f.read blockSize with ⟨⟨data, err⟩, f1⟩
      rw [hrd] at hr1
      simp only [Prod.mk.injEq] at hr1
      obtain ⟨rfl, rfl⟩ := hr1
      simp only
      have hcond : ¬ (cr ≥ 0 ∧ cr ≠ (((b :: r).take blockSize).length : Int)) := by
        rw [hdl]
        rcases hcr with h | h <;> omega
      have hnext : (if cr < 0 then (((b :: r).take blockSize).length : Int) else cr) =
          (min blockSize n : Nat) := by
        rw [hdl]
        rcases hcr with h | h
        · simp [h]
        · have : ¬ cr < 0 := by omega
          simp [this, h]
      rw [if_neg hcond, hnext, h1]
      simp only [List.map_cons, reduceCtorEq, if_false]
      by_cases hfs : fs.length = 0
      · simp [hfs]
      · simp [hfs]

end CombineFilesSpec

section CombineRounds
open galois

theorem interp_columns [Fact (irreducible8 P = true)] (blk : List Byte)
    (cfs : List (List Byte)) (hcl : cfs.length = blk.length) (d : Nat)
    (hcs : ∀ cs ∈ cfs, cs.length = d) (sel : List Byte) (hnd : sel.Nodup)
    (hd : d + 1 ≤ sel.length) :
    (List.range' 0 blk.length).map (fun c =>
      interpAt0 P sel ((sel.map (colVals P blk cfs)).map (fun p => p.getD c 0))) = blk := by
  apply List.ext_getElem
  · simp
  · intro c h1 h2
    have hc : c < blk.length := by simpa using h1
    simp only [List.getElem_map, List.getElem_range', List.map_map, Nat.zero_add, Nat.one_mul]
    have hcol : (sel.map ((fun p : List Byte => p.getD c 0) ∘ colVals P blk cfs)) =
        sel.map (evalCoefs P (blk.getD c 0 :: cfs.getD c [])) := by
      apply List.map_congr_left
      intro x _
      exact colVals_getD P blk cfs x c hc hcl
    rw [hcol, interpAt0_evalCoefs (P := P) _ _ sel hnd
      (by
        have hc2 : c < cfs.length := by omega
        rw [List.getD_eq_getElem _ _ hc2, hcs _ (List.getElem_mem _)]
        exact hd)]
    exact List.getD_eq_getElem _ _ hc

/-- One call of `combineBlock` on chunks of part files reconstructs the block. -/
theorem combineBlock_shares [Fact (irreducible8 P = true)] (blk : List Byte)
    (cfs : List (List Byte)) (hcl : cfs.length = blk.length) (d : Nat)
    (hcs : ∀ cs ∈ cfs, cs.length = d) (sel : List Byte) (hnd : sel.Nodup)
    (hd : d + 1 ≤ sel.length) (buf : List Byte) (hb : blk.length ≤ buf.length)
    (ySamplesBuf : List Byte) (hy : ySamplesBuf.length = sel.length) :
    ∃ ys1, ys1.length = sel.length ∧
      combineBlock P buf (sel.map (colVals P blk cfs)) sel ySamplesBuf =
        some ((blk ++ buf.drop blk.length, ys1), none) := by
  cases sel with
  | nil => simp at hd
  | cons x sel =>
    obtain ⟨ys1, hys1, h⟩ := combineBlockLoop_eq (P := P) ((x :: sel).map (colVals P blk cfs))
      (x :: sel) hnd (by simp) blk.length 0 buf ySamplesBuf (by simpa using hy)
      (by
        intro p hp
        obtain ⟨y, _, rfl⟩ := List.mem_map.mp hp
        simp [colVals_length P blk cfs y hcl])
      (by simpa using hb)
    refine ⟨ys1, by simpa using hys1, ?_⟩
    rw [interp_columns (P := P) blk cfs hcl d hcs (x :: sel) hnd hd] at h
    simp only [combineBlock, List.map_cons, colVals_length P blk cfs x hcl]
    simp only [List.map_cons] at h
    rw [h]
    simp

theorem colVals_take (P : Nat) (blk : List Byte) (cfs : List (List Byte)) (x : Byte) (k : Nat) :
    (colVals P blk cfs x).take k = colVals P (blk.take k) (cfs.take k) x := by
  unfold colVals; exact List.take_zipWith

theorem colVals_drop (P : Nat) (blk : List Byte) (cfs : List (List Byte)) (x : Byte) (k : Nat) :
    (colVals P blk cfs x).drop k = colVals P (blk.drop k) (cfs.drop k) x := by
  unfold colVals; exact List.drop_zipWith

theorem outputGrown_nil (outFile : Option Nat) (w : World)
    (hout : ∀ h, outFile = some h → ∃ p c, w.created[h]? = some (p, c)) :
    outputGrown outFile w w [] := by
  refine ⟨rfl, ?_⟩
  cases outFile with
  | none => simp
  | some h =>
    obtain ⟨p, c, hpc⟩ := hout h rfl
    refine ⟨rfl, p, c, hpc, ?_⟩
    simp only [List.append_nil]
    apply List.ext_getElem?
    intro k
    by_cases hk : k = h
    · subst hk
      rw [List.getElem?_set_self', hpc]; rfl
    · rw [List.getElem?_set_ne (Ne.symm hk)]

theorem writeOutput_eq (os : OS) (hw : ∀ p n, os.writeErr p n = none) (outFile : Option Nat)
    (w : World) (data : List Byte)
    (hout : ∀ h, outFile = some h → ∃ p c, w.created[h]? = some (p, c)) :
    ∃ w1, writeOutput os outFile data w = (none, w1) ∧ outputGrown outFile w w1 data ∧
      (∀ h, outFile = some h → ∃ p c, w1.created[h]? = some (p, c)) := by
  cases outFile with
  | none =>
    refine ⟨{ w with stdout := w.stdout ++ data }, ?_, ⟨rfl, rfl, rfl⟩, fun h hh => by simp at hh⟩
    simp [writeOutput, World.writeStdout, hw]
  | some h =>
    obtain ⟨p, c, hpc⟩ := hout h rfl
    refine ⟨{ w with created := w.created.set h (p, c ++ data) }, ?_, ⟨rfl, rfl, p, c, hpc, rfl⟩, ?_⟩
    · simp only [writeOutput]
      exact World.write_eq os hw w h data p c hpc
    · intro h' hh'
      simp only [Option.some.injEq] at hh'
      subst hh'
      refine ⟨p, c ++ data, ?_⟩
      have hlt : h < w.created.length := by
        by_contra hge
        rw [List.getElem?_eq_none (by omega)] at hpc
        simp at hpc
      simp [List.getElem?_set_self hlt]

theorem outputGrown_trans (outFile : Option Nat) (w w1 w2 : World) (d1 d2 : List Byte)
    (h1 : outputGrown outFile w w1 d1) (h2 : outputGrown outFile w1 w2 d2) :
    outputGrown outFile w w2 (d1 ++ d2) := by
  obtain ⟨ho1, h1⟩ := h1
  obtain ⟨ho2, h2⟩ := h2
  refine ⟨ho2.trans ho1, ?_⟩
  cases outFile with
  | none =>
    simp only at h1 h2 ⊢
    exact ⟨by rw [h2.1, h1.1, List.append_assoc], h2.2.trans h1.2⟩
  | some h =>
    simp only at h1 h2 ⊢
    obtain ⟨hs1, p, c, hpc, hc1⟩ := h1
    obtain ⟨hs2, p2, c2, hpc2, hc2⟩ := h2
    refine ⟨hs2.trans hs1, p, c, hpc, ?_⟩
    have hlt : h < w.created.length := by
      by_contra hge
      rw [List.getElem?_eq_none (by omega)] at hpc
      simp at hpc
    rw [hc1, List.getElem?_set_self hlt] at hpc2
    simp only [Option.some.injEq, Prod.mk.injEq] at hpc2
    obtain ⟨rfl, rfl⟩ := hpc2
    rw [hc2, hc1, List.set_set, List.append_assoc]

end CombineRounds

section CombineRounds2
open galois

theorem combineRounds_eq [Fact (irreducible8 P = true)] (os : OS)
    (hw : ∀ p n, os.writeErr p n = none) (blockSize : Nat) (hbs : 0 < blockSize)
    (outFile : Option Nat) (sel : List Byte) (hnd : sel.Nodup) (d : Nat)
    (hd : d + 1 ≤ sel.length) (partsCount : Int)
    (fuel : Nat) (inp : List Byte) (cfs : List (List Byte)) (hcl : cfs.length = inp.length)
    (hcs : ∀ cs ∈ cfs, cs.length = d) (fs : List File)
    (hfs : List.Forall₂ File.holds fs (sel.map (colVals P inp cfs)))
    (hfuel : inp.length < fuel) (buf : List Byte) (hbuf : buf.length = blockSize)
    (ySamplesBuf : List Byte) (hy : ySamplesBuf.length = sel.length) (w : World)
    (hout : ∀ h, outFile = some h → ∃ p c, w.created[h]? = some (p, c)) :
    ∃ w1, combineRounds P os blockSize outFile sel partsCount fuel fs buf ySamplesBuf w =
        some ((partsCount, none), w1) ∧ outputGrown outFile w w1 inp := by
  induction fuel generalizing inp cfs fs buf ySamplesBuf w with
  | zero => omega
  | succ fuel ih =>
    have hlens : ∀ r ∈ sel.map (colVals P inp cfs), r.length = inp.length := by
      intro r hr
      obtain ⟨x, _, rfl⟩ := List.mem_map.mp hr
      exact colVals_length P inp cfs x hcl
    unfold combineRounds
    by_cases hin : inp.length = 0
    · -- the first part file is at its end
      have hinp : inp = [] := List.length_eq_zero.mp hin
      cases sel with
      | nil => simp at hd
      | cons x sel =>
        cases hfs with
        | cons hf _ =>
          have hx : colVals P inp cfs x = [] := by
            apply List.length_eq_zero.mp
            rw [colVals_length P inp cfs x hcl, hin]
          rw [hx] at hf
          rw [readRound_finished blockSize hbs _ _ hf]
          refine ⟨w, rfl, ?_⟩
          rw [hinp]
          exact outputGrown_nil outFile w hout
    · have hn : 0 < inp.length := Nat.pos_of_ne_zero hin
      obtain ⟨fs1, hrr, hfs1⟩ := readRound_chunks blockSize hbs inp.length hn fs _ hfs hlens 0 (-1)
        (Or.inl rfl)
      have hfsne : ¬ fs.length = 0 := by
        have := hfs.length_eq
        simp at this
        omega
      rw [hrr]
      simp only [hfsne, if_false]
      have htake : (sel.map (colVals P inp cfs)).map (List.take blockSize) =
          sel.map (colVals P (inp.take blockSize) (cfs.take blockSize)) := by
        rw [List.map_map]
        apply List.map_congr_left
        intro x _
        exact colVals_take P inp cfs x blockSize
      have hdrop : (sel.map (colVals P inp cfs)).map (List.drop blockSize) =
          sel.map (colVals P (inp.drop blockSize) (cfs.drop blockSize)) := by
        rw [List.map_map]
        apply List.map_congr_left
        intro x _
        exact colVals_drop P inp cfs x blockSize
      rw [htake]
      rw [hdrop] at hfs1
      have hblk : (inp.take blockSize).length = min blockSize inp.length := List.length_take _ _
      obtain ⟨ys1, hys1, hcb⟩ := combineBlock_shares (P := P) (inp.take blockSize)
        (cfs.take blockSize) (by simp [hcl]) d
        (fun cs hcs' => hcs cs (List.mem_of_mem_take hcs')) sel hnd hd buf
        (by rw [hblk, hbuf]; exact Nat.min_le_left _ _) ySamplesBuf hy
      rw [hcb]
      simp only
      have hb1 : (inp.take blockSize ++ buf.drop (inp.take blockSize).length).length =
          blockSize := by
        rw [List.length_append, List.length_drop, hblk, hbuf]; omega
      have hcond : ¬ (((min blockSize inp.length : Nat) : Int) < 0 ∨
          ((min blockSize inp.length : Nat) : Int) >
            ((inp.take blockSize ++ buf.drop (inp.take blockSize).length).length : Int)) := by
        rw [hb1]; omega
      rw [if_neg hcond]
      have htk : (inp.take blockSize ++ buf.drop (inp.take blockSize).length).take
          ((min blockSize inp.length : Nat) : Int).toNat = inp.take blockSize := by
        rw [Int.toNat_ofNat, ← hblk, List.take_left']
        rfl
      rw [htk]
      obtain ⟨w1, hwo, hg1, hout1⟩ := writeOutput_eq os hw outFile w (inp.take blockSize) hout
      rw [hwo]
      simp only
      obtain ⟨w2, hrec, hg2⟩ := ih (inp.drop blockSize) (cfs.drop blockSize) (by simp [hcl])
        (fun cs hcs' => hcs cs (List.mem_of_mem_drop hcs')) fs1 hfs1
        (by rw [List.length_drop]; omega) _ hb1 ys1 hys1 w1 hout1
      refine ⟨w2, hrec, ?_⟩
      have := outputGrown_trans outFile w w1 w2 _ _ hg1 hg2
      rwa [List.take_append_drop] at this

end CombineRounds2

section CombineFilesSpec2
open galois

theorem discoverParts_eq (os : OS) (searchDir filePattern : GoString) (size : Nat)
    (files : List (GoString × Bool))
    (hsel : ∀ e ∈ selectedEntries filePattern files, ∃ content : List Byte,
      content.length = size ∧ os.openRead (.join searchDir e.1) = .ok (File.regular content))
    (d : Discovery) (hd : d.partLen = none ∨ d.partLen = some size) (w : World) :
    ∃ d1 w1, discoverParts os searchDir filePattern files d w = (.inr d1, w1) ∧
      d1.partFiles = d.partFiles ++
        (selectedEntries filePattern files).map (fun e => openedFile os searchDir e.1) ∧
      w1.created = w.created ∧ w1.stdout = w.stdout := by
  induction files generalizing d w with
  | nil => exact ⟨d, w, rfl, by simp [selectedEntries], rfl, rfl⟩
  | cons e files ih =>
    obtain ⟨name, isDir⟩ := e
    unfold discoverParts
    cases isDir with
    | true =>
      rw [if_pos rfl]
      have hs : selectedEntries filePattern ((name, true) :: files) =
          selectedEntries filePattern files := by
        simp [selectedEntries]
      rw [hs] at hsel ⊢
      exact ih hsel d hd w
    | false =>
      simp only [Bool.false_eq_true, if_false]
      by_cases hm : replaceDigitRuns name ≠ filePattern
      · rw [if_pos hm]
        have hs : selectedEntries filePattern ((name, false) :: files) =
            selectedEntries filePattern files := by
          simp [selectedEntries, hm]
        rw [hs] at hsel ⊢
        exact ih hsel d hd w
      · have hm1 : replaceDigitRuns name = filePattern := by simpa using hm
        have hs : selectedEntries filePattern ((name, false) :: files) =
            (name, false) :: selectedEntries filePattern files := by
          simp [selectedEntries, hm1]
        rw [hs] at hsel ⊢
        obtain ⟨content, hcl, hopen⟩ := hsel (name, false) (List.mem_cons_self _ _)
        simp only at hopen
        have hof : openedFile os searchDir name = File.regular content := by
          simp [openedFile, hopen]
        have hsel1 : ∀ e ∈ selectedEntries filePattern files, ∃ content : List Byte,
            content.length = size ∧
            os.openRead (.join searchDir e.1) = .ok (File.regular content) :=
          fun e he => hsel e (List.mem_cons_of_mem _ he)
        have hst : (File.regular content).statSize = .ok content.length := rfl
        simp only [hm, if_false, hopen, hst]
        rcases hd with hnone | hsome
        · simp only [hnone]
          obtain ⟨d1, w1, h1, h2, h3, h4⟩ := ih hsel1
            { partFiles := d.partFiles ++ [File.regular content], partLen := some content.length }
            (Or.inr (by rw [hcl])) { w with opened := w.opened ++ [.join searchDir name] }
          refine ⟨d1, w1, h1, ?_, h3, h4⟩
          rw [h2]; simp [hof]
        · simp only [hsome, hcl, ne_eq, not_true_eq_false, if_false]
          simp only [← hcl]
          obtain ⟨d1, w1, h1, h2, h3, h4⟩ := ih hsel1
            { partFiles := d.partFiles ++ [File.regular content], partLen := some content.length }
            (Or.inr (by rw [hcl])) { w with opened := w.opened ++ [.join searchDir name] }
          refine ⟨d1, w1, h1, ?_, h3, h4⟩
          rw [h2]; simp [hof]

/-- The discovery loop calls `os.Open` on selected entries only. -/
theorem discoverParts_opened (os : OS) (searchDir filePattern : GoString)
    (files : List (GoString × Bool)) (d : Discovery) (w : World) :
    ∃ l : List OsPath,
      (discoverParts os searchDir filePattern files d w).2.opened = w.opened ++ l ∧
      ∀ p ∈ l, ∃ e ∈ selectedEntries filePattern files, p = OsPath.join searchDir e.1 := by
  induction files generalizing d w with
  | nil => exact ⟨[], by simp [discoverParts], by simp⟩
  | cons e files ih =>
    obtain ⟨name, isDir⟩ := e
    have hskip : ∀ l : List OsPath, (∀ p ∈ l, ∃ e ∈ selectedEntries filePattern files,
        p = OsPath.join searchDir e.1) →
        ∀ p ∈ l, ∃ e ∈ selectedEntries filePattern ((name, isDir) :: files),
          p = OsPath.join searchDir e.1 := by
      intro l hl p hp
      obtain ⟨e, he, hpe⟩ := hl p hp
      refine ⟨e, ?_, hpe⟩
      unfold selectedEntries at he ⊢
      rw [List.filter_cons]
      split
      · exact List.mem_cons_of_mem _ he
      · exact he
    rw [discoverParts]
    by_cases hdir : isDir = true
    · rw [if_pos hdir]
      obtain ⟨l, h1, h2⟩ := ih d w
      exact ⟨l, h1, hskip l h2⟩
    · rw [if_neg hdir]
      by_cases hm : replaceDigitRuns name ≠ filePattern
      · rw [if_pos hm]
        obtain ⟨l, h1, h2⟩ := ih d w
        exact ⟨l, h1, hskip l h2⟩
      · rw [if_neg hm]
        have hsel : (name, isDir) ∈ selectedEntries filePattern ((name, isDir) :: files) := by
          unfold selectedEntries
          rw [List.filter_cons]
          have hm1 : replaceDigitRuns name = filePattern := not_not.mp hm
          have hd1 : isDir = false := by simpa using hdir
          simp [hm1, hd1]
        have hone : ∀ l : List OsPath, (∀ p ∈ l, ∃ e ∈ selectedEntries filePattern files,
            p = OsPath.join searchDir e.1) →
            ∀ p ∈ OsPath.join searchDir name :: l,
              ∃ e ∈ selectedEntries filePattern ((name, isDir) :: files),
                p = OsPath.join searchDir e.1 := by
          intro l hl p hp
          rcases List.mem_cons.mp hp with rfl | hp
          · exact ⟨(name, isDir), hsel, rfl⟩
          · exact hskip l hl p hp
        cases hopen : os.openRead (.join searchDir name) with
        | error e => exact ⟨[.join searchDir name], rfl, hone [] (by simp)⟩
        | ok partFile =>
          dsimp only
          cases hstat : partFile.statSize with
          | error e => exact ⟨[.join searchDir name], rfl, hone [] (by simp)⟩
          | ok size =>
            dsimp only
            cases hpl : d.partLen with
            | none =>
              dsimp only
              obtain ⟨l, h1, h2⟩ := ih
                { partFiles := d.partFiles ++ [partFile], partLen := some size }
                { w with opened := w.opened ++ [.join searchDir name] }
              exact ⟨.join searchDir name :: l, by rw [h1]; simp, hone l h2⟩
            | some partLen =>
              dsimp only
              by_cases hne : partLen ≠ size
              · rw [if_pos hne]
                exact ⟨[.join searchDir name], rfl, hone [] (by simp)⟩
              · rw [if_neg hne]
                obtain ⟨l, h1, h2⟩ := ih
                  { partFiles := d.partFiles ++ [partFile], partLen := some partLen }
                  { w with opened := w.opened ++ [.join searchDir name] }
                exact ⟨.join searchDir name :: l, by rw [h1]; simp, hone l h2⟩

theorem truncateAliased_eq_self (os : OS) (path : OsPath) (paths : List OsPath)
    (files : List File) (h : ∀ p ∈ paths, os.sameFile path p = false) :
    truncateAliased os path paths files = files := by
  induction paths generalizing files with
  | nil => cases files <;> rfl
  | cons p paths ih =>
    cases files with
    | nil => rfl
    | cons f files =>
      rw [truncateAliased, h p (List.mem_cons_self _ _),
        ih files (fun q hq => h q (List.mem_cons_of_mem _ hq))]
      simp

/-- The opening of an output that is none of the selected part files leaves the part files
as they are. -/
theorem truncateAliased_discovered (os : OS) (searchDir filePattern : GoString)
    (files : List (GoString × Bool)) (d d1 : Discovery) (w w1 : World) (path : OsPath)
    (hdisc : discoverParts os searchDir filePattern files d w = (.inr d1, w1))
    (h : ∀ e ∈ selectedEntries filePattern files,
      os.sameFile path (.join searchDir e.1) = false) :
    truncateAliased os path (w1.opened.drop w.opened.length) d1.partFiles = d1.partFiles := by
  obtain ⟨l, h1, h2⟩ := discoverParts_opened os searchDir filePattern files d w
  rw [hdisc] at h1
  simp only at h1
  rw [h1, List.drop_left]
  apply truncateAliased_eq_self
  intro p hp
  obtain ⟨e, he, rfl⟩ := h2 p hp
  exact h e he

theorem File.holds_content (f : File) (r : List Byte) (h : f.holds r) : f.content = r := by
  obtain ⟨_, hp | ⟨hp, hr⟩⟩ := h
  · simp [File.content, hp, segBytes]
  · simp [File.content, hp, hr, segBytes]

/-- The streaming combine over part files that hold shares of `inp`: with at least
`d + 1` part files with pairwise distinct x-coordinates `sel`, and no failing write,
`CombineFiles` returns the number of part files and no error, and has appended `inp` to
the output. -/
theorem CombineFiles_shares [Fact (irreducible8 P = true)] (os : OS)
    (hw : ∀ p n, os.writeErr p n = none)
    (searchDir filePattern outputFilename : GoString) (blockSize : Nat) (w : World)
    (hsize : blockSize ≤ maxAlloc)
    (hout : outputFilename ≠ [] → os.createErr (.named outputFilename) = none)
    (hpat : ¬ (filePattern.length > 0 ∧ replaceAllToken [] filePattern = filePattern))
    (files : List (GoString × Bool)) (hrd : os.readDir searchDir = .ok files)
    (halias : outputFilename ≠ [] →
      ∀ e ∈ selectedEntries (if filePattern = [] then ['%', 'i'] else filePattern) files,
        os.sameFile (.named outputFilename) (.join searchDir e.1) = false)
    (inp : List Byte) (cfs : List (List Byte)) (hcl : cfs.length = inp.length) (d : Nat)
    (hcs : ∀ cs ∈ cfs, cs.length = d) (sel : List Byte) (hnd : sel.Nodup)
    (hd : d + 1 ≤ sel.length)
    (hsel : (selectedEntries (if filePattern = [] then ['%', 'i'] else filePattern) files).map
        (fun e => os.openRead (.join searchDir e.1)) =
      sel.map (fun x => .ok (File.regular (x :: colVals P inp cfs x)))) :
    ∃ w1, CombineFiles P os searchDir filePattern outputFilename blockSize w =
        some (((sel.length : Int), none), w1) ∧
      (if outputFilename = [] then w1.stdout = w.stdout ++ inp ∧ w1.created = w.created
       else w1.stdout = w.stdout ∧ w1.created = w.created ++ [(.named outputFilename, inp)]) := by
  have hbs : 0 < (if blockSize = 0 then defaultBlockSize else blockSize) := by
    split
    · decide
    · omega
  have hselx : ∀ e ∈ selectedEntries (if filePattern = [] then ['%', 'i'] else filePattern) files,
      ∃ content : List Byte, content.length = inp.length + 1 ∧
        os.openRead (.join searchDir e.1) = .ok (File.regular content) := by
    intro e he
    have hm : os.openRead (.join searchDir e.1) ∈
        sel.map (fun x => (Except.ok (File.regular (x :: colVals P inp cfs x)) :
          Except GoError File)) := by
      rw [← hsel]
      exact List.mem_map.mpr ⟨e, he, rfl⟩
    obtain ⟨x, _, hx⟩ := List.mem_map.mp hm
    exact ⟨x :: colVals P inp cfs x, by simp [colVals_length P inp cfs x hcl], hx.symm⟩
  obtain ⟨d1, w0, hdisc, hpf, hw0c, hw0s⟩ := discoverParts_eq os searchDir
    (if filePattern = [] then ['%', 'i'] else filePattern) (inp.length + 1) files hselx
    { partFiles := [], partLen := none } (Or.inl rfl) w
  have hfiles : d1.partFiles = sel.map (fun x => File.regular (x :: colVals P inp cfs x)) := by
    rw [hpf]
    simp only [List.nil_append]
    have : (fun e : GoString × Bool => openedFile os searchDir e.1) =
        (fun r : Except GoError File => match r with
          | .ok f => f
          | .error _ => File.regular []) ∘ (fun e => os.openRead (.join searchDir e.1)) := by
      funext e
      simp only [openedFile, Function.comp]
    rw [this, ← List.map_map, hsel, List.map_map]
    rfl
  have hholds : List.Forall₂ File.holds d1.partFiles
      (sel.map (fun x => x :: colVals P inp cfs x)) := by
    rw [hfiles, List.forall₂_map_left_iff, List.forall₂_map_right_iff, List.forall₂_same]
    intro x _
    exact File.regular_holds _
  obtain ⟨fs1, hrx, hfs1⟩ := readXSamples_eq d1.partFiles _ hholds (by
    intro c hc
    obtain ⟨x, _, rfl⟩ := List.mem_map.mp hc
    simp)
  have hxs : (sel.map (fun x => x :: colVals P inp cfs x)).map (fun c => c.headD 0) = sel := by
    rw [List.map_map]
    conv_rhs => rw [← List.map_id sel]
    apply List.map_congr_left
    intro x _; simp
  have htl : (sel.map (fun x => x :: colVals P inp cfs x)).map List.tail =
      sel.map (colVals P inp cfs) := by
    rw [List.map_map]
    apply List.map_congr_left
    intro x _; simp
  rw [hxs] at hrx
  rw [htl] at hfs1
  have hplen : d1.partFiles.length = sel.length := by rw [hfiles]; simp
  have hfuel : inp.length < (fs1.headD (File.regular [])).remaining + 1 := by
    cases sel with
    | nil => simp at hd
    | cons x sel =>
      cases hfs1 with
      | cons hf _ =>
        simp only [List.headD_cons, File.remaining_eq, File.holds_content _ _ hf,
          colVals_length P inp cfs x hcl]
        omega
  have hbig : ¬ (if blockSize = 0 then defaultBlockSize else blockSize) > maxAlloc := by
    split
    · decide
    · omega
  unfold CombineFiles
  simp only [hbig, hpat, if_false, hrd, hdisc, hplen]
  by_cases hof : outputFilename = []
  · simp only [hof, if_true, hrx]
    obtain ⟨w1, hcr, hgo, hg⟩ := combineRounds_eq (P := P) os hw
      (if blockSize = 0 then defaultBlockSize else blockSize) hbs none sel hnd d hd
      (sel.length : Int) _ inp cfs hcl hcs fs1 hfs1 hfuel
      (List.replicate (if blockSize = 0 then defaultBlockSize else blockSize) 0) (by simp)
      (List.replicate sel.length 0) (by simp) w0 (fun h hh => by simp at hh)
    refine ⟨w1, hcr, ?_⟩
    simp only at hg
    rw [hg.1, hg.2, hw0c, hw0s]
    exact ⟨rfl, rfl⟩
  · have htr := truncateAliased_discovered os searchDir
      (if filePattern = [] then ['%', 'i'] else filePattern) files _ d1 w w0
      (.named outputFilename) hdisc (halias hof)
    simp only [hof, if_false, World.create, hout hof, htr, hrx]
    obtain ⟨w1, hcr, hgo, hg⟩ := combineRounds_eq (P := P) os hw
      (if blockSize = 0 then defaultBlockSize else blockSize) hbs (some w0.created.length)
      sel hnd d hd (sel.length : Int) _ inp cfs hcl hcs fs1 hfs1 hfuel
      (List.replicate (if blockSize = 0 then defaultBlockSize else blockSize) 0)
      (by simp) (List.replicate sel.length 0) (by simp)
      { w0 with created := w0.created ++ [(.named outputFilename, [])] }
      (fun h hh => by
        simp only [Option.some.injEq] at hh
        subst hh
        exact ⟨.named outputFilename, [], by simp⟩)
    refine ⟨w1, hcr, ?_⟩
    simp only at hg
    obtain ⟨hs, p, c, hpc, hc⟩ := hg
    simp only [List.getElem?_concat_length, Option.some.injEq, Prod.mk.injEq] at hpc
    obtain ⟨rfl, rfl⟩ := hpc
    rw [hs, hc, hw0s, hw0c]
    simp

end CombineFilesSpec2

section ClaimsFiles
open galois

/-- The wire format of the part files when no write fails. However the input is delivered
(the segments of the input file are arbitrary, so reads of fewer than `blockSize` bytes are
included), when `SplitFile` returns nil it has created exactly N files, and part file `k`
consists of the single byte `x_k`, which is not 0, followed by exactly one y-value per
input byte in input order: the value at `x_k` of a polynomial whose constant term is that
input byte. Its length is `1 + len(input)`. -/
theorem SplitFile_wire_format (P : Nat) (os : OS) (hw : ∀ p n, os.writeErr p n = none)
    (inputFilename outDir filePattern : GoString) (partsCount threshold : Int)
    (blockSize : Nat) (polynomPerByte : Bool) (tape : Tape) (w w1 : World)
    (h : SplitFile P os inputFilename outDir filePattern partsCount threshold blockSize
      polynomPerByte tape w = some (none, w1)) :
    ∃ (inputFile : File) (coeffs : List (List Byte)),
      ((inputFilename = [] ∧ inputFile = os.stdin) ∨
        (inputFilename ≠ [] ∧ os.openRead (.named inputFilename) = .ok inputFile)) ∧
      coeffs.length = inputFile.content.length ∧
      w1.created.length = w.created.length + partsCount.toNat ∧
      ∀ k, k < partsCount.toNat → ∃ x : Byte, x ≠ 0 ∧
        w1.created[w.created.length + k]? =
          some (OsPath.join outDir (partName filePattern k),
            x :: colVals P inputFile.content coeffs x) ∧
        (x :: colVals P inputFile.content coeffs x).length = 1 + inputFile.content.length := by
  obtain ⟨inputFile, xs, coeffs, hsrc, _, hxl, _, hxnz, hcl, _, _, hcr, _⟩ :=
    SplitFile_success P os hw inputFilename outDir filePattern partsCount threshold blockSize
      polynomPerByte tape w w1 h
  refine ⟨inputFile, coeffs, hsrc, hcl, by rw [hcr]; simp, ?_⟩
  intro k hk
  have hkx : k < xs.length := by omega
  refine ⟨xs.getD k 0, ?_, ?_, ?_⟩
  · rw [List.getD_eq_getElem _ _ hkx]
    exact hxnz _ (List.getElem_mem _)
  · rw [hcr, List.getElem?_append_right (by omega)]
    simp [hk]
  · simp [colVals_length P _ coeffs _ hcl]; omega

/-- C9, amended: file round trip. Files are byte sequences and no write fails. If
`SplitFile` succeeds on an input, and `CombineFiles` is run with a block size that can be
allocated (at most `maxAlloc`), with an output that is none of the part files, on a
directory whose selected entries are at least T of the part files just created (regular
files with the same names and contents, pairwise distinct, in any order of discovery), then
`CombineFiles` returns no error and writes exactly the input bytes to its output. This
holds for every input (whatever its length is relative to the block sizes) and both
coefficient policies. -/
theorem C9_file_round_trip (P : Nat) (hP : irreducible8 P = true)
    (os1 : OS) (hw1 : ∀ p n, os1.writeErr p n = none)
    (inputFilename outDir pattern1 : GoString) (partsCount threshold : Int)
    (blockSize1 : Nat) (polynomPerByte : Bool) (tape : Tape) (w0 w1 : World)
    (hsplit : SplitFile P os1 inputFilename outDir pattern1 partsCount threshold blockSize1
      polynomPerByte tape w0 = some (none, w1))
    (inputFile : File)
    (hin : (inputFilename = [] ∧ inputFile = os1.stdin) ∨
      (inputFilename ≠ [] ∧ os1.openRead (.named inputFilename) = .ok inputFile))
    (os2 : OS) (hw2 : ∀ p n, os2.writeErr p n = none)
    (searchDir pattern2 outputFilename : GoString) (blockSize2 : Nat) (w2 : World)
    (hblock : blockSize2 ≤ maxAlloc)
    (hout : outputFilename ≠ [] → os2.createErr (.named outputFilename) = none)
    (hpat : ¬ (pattern2.length > 0 ∧ replaceAllToken [] pattern2 = pattern2))
    (files : List (GoString × Bool)) (hrd : os2.readDir searchDir = .ok files)
    (halias : outputFilename ≠ [] →
      ∀ e ∈ selectedEntries (if pattern2 = [] then ['%', 'i'] else pattern2) files,
        os2.sameFile (.named outputFilename) (.join searchDir e.1) = false)
    (hsel : ∀ e ∈ selectedEntries (if pattern2 = [] then ['%', 'i'] else pattern2) files,
      ∃ content, (OsPath.join outDir e.1, content) ∈ w1.created.drop w0.created.length ∧
        os2.openRead (.join searchDir e.1) = .ok (File.regular content))
    (hnd : ((selectedEntries (if pattern2 = [] then ['%', 'i'] else pattern2) files).map
      Prod.fst).Nodup)
    (hT : threshold.toNat ≤
      (selectedEntries (if pattern2 = [] then ['%', 'i'] else pattern2) files).length) :
    ∃ w3, CombineFiles P os2 searchDir pattern2 outputFilename blockSize2 w2 =
        some ((((selectedEntries (if pattern2 = [] then ['%', 'i'] else pattern2)
          files).length : Int), none), w3) ∧
      (if outputFilename = [] then
        w3.stdout = w2.stdout ++ inputFile.content ∧ w3.created = w2.created
       else w3.stdout = w2.stdout ∧
        w3.created = w2.created ++ [(.named outputFilename, inputFile.content)]) := by
  haveI : Fact (irreducible8 P = true) := ⟨hP⟩
  obtain ⟨inputFile1, xs, coeffs, hsrc, hv, hxl, hxnd, _, hcl, hcs, _, hcr, _⟩ :=
    SplitFile_success P os1 hw1 inputFilename outDir pattern1 partsCount threshold blockSize1
      polynomPerByte tape w0 w1 hsplit
  obtain ⟨_, _, ht2, _, _⟩ := validateSplitArgs_eq_none hv
  have hfile : inputFile1 = inputFile := by
    rcases hsrc with ⟨h1, h2⟩ | ⟨h1, h2⟩ <;> rcases hin with ⟨h3, h4⟩ | ⟨h3, h4⟩
    · rw [h2, h4]
    · exact absurd h1 h3
    · exact absurd h3 h1
    · rw [h2] at h4
      exact Except.ok.inj h4
  subst hfile
  have hdrop : w1.created.drop w0.created.length = (List.range partsCount.toNat).map (fun k =>
      (OsPath.join outDir (partName pattern1 k),
        xs.getD k 0 :: colVals P inputFile1.content coeffs (xs.getD k 0))) := by
    rw [hcr, List.drop_left]
  rw [hdrop] at hsel
  -- every selected entry is part file `k` for some `k`
  have hk : ∀ e ∈ selectedEntries (if pattern2 = [] then ['%', 'i'] else pattern2) files,
      ∃ k, k < xs.length ∧ e.1 = partName pattern1 k ∧ e.2 = false ∧
        os2.openRead (.join searchDir e.1) =
          .ok (File.regular (xs.getD k 0 :: colVals P inputFile1.content coeffs (xs.getD k 0))) := by
    intro e he
    obtain ⟨content, hmem, hopen⟩ := hsel e he
    obtain ⟨k, hkr, hkeq⟩ := List.mem_map.mp hmem
    simp only [Prod.mk.injEq, OsPath.join.injEq, true_and] at hkeq
    refine ⟨k, by rw [hxl]; simpa using hkr, hkeq.1.symm, ?_, by rw [hopen, hkeq.2]⟩
    have := (List.mem_filter.mp he).2
    simp only [Bool.and_eq_true, Bool.not_eq_true', decide_eq_true_eq] at this
    exact this.1
  let xOf : GoString × Bool → Byte := fun e => (openedFile os2 searchDir e.1).content.headD 0
  have hxOf : ∀ e ∈ selectedEntries (if pattern2 = [] then ['%', 'i'] else pattern2) files,
      ∀ k, os2.openRead (.join searchDir e.1) =
        .ok (File.regular (xs.getD k 0 :: colVals P inputFile1.content coeffs (xs.getD k 0))) →
      xOf e = xs.getD k 0 := by
    intro e _ k hopen
    simp [xOf, openedFile, hopen, File.content, File.regular, segBytes]
  have hmapsel : (selectedEntries (if pattern2 = [] then ['%', 'i'] else pattern2) files).map
      (fun e => os2.openRead (.join searchDir e.1)) =
      ((selectedEntries (if pattern2 = [] then ['%', 'i'] else pattern2) files).map xOf).map
        (fun x => .ok (File.regular (x :: colVals P inputFile1.content coeffs x))) := by
    rw [List.map_map]
    apply List.map_congr_left
    intro e he
    obtain ⟨k, _, _, _, hopen⟩ := hk e he
    simp only [Function.comp, hxOf e he k hopen, hopen]
  have hndx : ((selectedEntries (if pattern2 = [] then ['%', 'i'] else pattern2) files).map
      xOf).Nodup := by
    apply List.Nodup.map_on _ (List.Nodup.of_map _ hnd)
    intro e he e' he' hxe
    obtain ⟨k, hkl, hn, hdir, hopen⟩ := hk e he
    obtain ⟨k', hkl', hn', hdir', hopen'⟩ := hk e' he'
    rw [hxOf e he k hopen, hxOf e' he' k' hopen', List.getD_eq_getElem _ _ hkl,
      List.getD_eq_getElem _ _ hkl'] at hxe
    have hkk : k = k' := (List.Nodup.getElem_inj_iff hxnd).mp hxe
    subst hkk
    exact Prod.ext (hn.trans hn'.symm) (hdir.trans hdir'.symm)
  have := CombineFiles_shares (P := P) os2 hw2 searchDir pattern2 outputFilename blockSize2 w2
    hblock hout hpat files hrd halias inputFile1.content coeffs hcl (threshold.toNat - 1) hcs _
    hndx
    (by simp only [List.length_map]; omega) hmapsel
  simpa using this

end ClaimsFiles

/-! ## Reconstruction and the per-block policy -/

section PerBlock

theorem splitBlockParts_some (P : Nat) (p : polynomial) (xCoords : List Byte) (i : Nat)
    (partIdx : Nat) (rows rows1 : List (List Byte))
    (h : splitBlockParts P p xCoords i partIdx rows = some rows1) :
    ∀ k row1, rows1[k]? = some row1 → ∃ row x y, rows[k]? = some row ∧
      xCoords[partIdx + k]? = some x ∧ p.evaluate P x = some y ∧ i < row.length ∧
      row1 = row.set i y := by
  induction rows generalizing partIdx rows1 with
  | nil =>
    simp only [splitBlockParts, Option.some.injEq] at h
    subst h
    intro k row1 hk
    simp at hk
  | cons row rows ih =>
    unfold splitBlockParts at h
    cases hx : xCoords[partIdx]? with
    | none => simp [hx] at h
    | some x =>
      cases hy : p.evaluate P x with
      | none => simp [hx, hy] at h
      | some y =>
        by_cases hi : i < row.length
        · cases hrec : splitBlockParts P p xCoords i (partIdx + 1) rows with
          | none => simp [hx, hy, hi, hrec] at h
          | some rows2 =>
            simp only [hx, hy, hi, hrec, if_true, Option.some.injEq] at h
            subst h
            intro k row1 hk
            cases k with
            | zero =>
              simp only [List.getElem?_cons_zero, Option.some.injEq] at hk
              exact ⟨row, x, y, by simp, by simpa using hx, hy, hi, hk.symm⟩
            | succ k =>
              simp only [List.getElem?_cons_succ] at hk
              obtain ⟨r, x1, y1, h1, h2, h3, h4, h5⟩ := ih (partIdx + 1) rows2 hrec k row1 hk
              refine ⟨r, x1, y1, by simpa using h1, ?_, h3, h4, h5⟩
              rw [← h2]; congr 1; omega
        · simp [hx, hy, hi] at h

theorem splitBlockLoop_shared (P : Nat) (xCoords : List Byte) (threshold : Byte)
    (block : List Byte) (i : Nat) (c : Byte) (cs : List Byte) (buf : List (List Byte))
    (tape : Tape) (buf1 : List (List Byte)) (err : Option GoError) (tape1 : Tape)
    (h : splitBlockLoop P xCoords threshold false block i (some ⟨c :: cs⟩) buf tape =
      some ((buf1, err), tape1)) :
    ∀ (k : Nat) (row1 : List Byte), buf1[k]? = some row1 → ∃ row : List Byte, buf[k]? = some row ∧
      (∀ j : Nat, j < i → row1[j]? = row[j]?) ∧
      ∀ (n : Nat) (hn : n < block.length), ∃ x : Byte, xCoords[k]? = some x ∧
        row1[i + n]? = some (evalCoefs P (block[n] :: cs) x) := by
  induction block generalizing i c buf tape with
  | nil =>
    simp only [splitBlockLoop, Option.some.injEq, Prod.mk.injEq] at h
    obtain ⟨⟨rfl, _⟩, _⟩ := h
    intro k row1 hk
    exact ⟨row1, hk, fun _ _ => rfl, fun n hn => absurd hn (by simp)⟩
  | cons b block ih =>
    unfold splitBlockLoop at h
    simp only [Bool.false_eq_true, if_false] at h
    cases hparts : splitBlockParts P ⟨b :: cs⟩ xCoords i 0 buf with
    | none => simp [hparts] at h
    | some buf2 =>
      simp only [hparts] at h
      have hrec := ih (i + 1) b buf2 tape h
      intro k row1 hk
      obtain ⟨row2, hk2, hframe, hcols⟩ := hrec k row1 hk
      obtain ⟨row, x, y, hk0, hx, hy, hi, hset⟩ :=
        splitBlockParts_some P _ xCoords i 0 buf buf2 hparts k row2 hk2
      rw [Nat.zero_add] at hx
      rw [evaluate_cons] at hy
      have hy' := Option.some.inj hy
      refine ⟨row, hk0, ?_, ?_⟩
      · intro j hj
        rw [hframe j (by omega), hset, List.getElem?_set_ne (by omega)]
      · intro n hn
        cases n with
        | zero =>
          refine ⟨x, hx, ?_⟩
          rw [Nat.add_zero, hframe i (by omega), hset, List.getElem?_set_eq_of_lt _ hi, ← hy']
          rfl
        | succ n =>
          obtain ⟨x1, hx1, hv⟩ := hcols n (by simpa using hn)
          refine ⟨x1, hx1, ?_⟩
          have : i + (n + 1) = i + 1 + n := by omega
          rw [this, hv]
          simp

theorem evalCoefs_intercept (P : Nat) (b : Byte) (cs : List Byte) (x : Byte) :
    evalCoefs P (b :: cs) x = galois.Add (evalCoefs P (0 :: cs) x) b := by
  unfold evalCoefs polynomial.evaluate
  by_cases hx : x = 0
  · simp [hx, zero_Add]
  · simp only [hx, if_false, List.reverse_cons]
    cases hrev : cs.reverse with
    | nil => simp [zero_Add]
    | cons top lower =>
      simp [List.foldl_append, Add_zero]

theorem Add_Add_cancel (m a b : Byte) :
    galois.Add (galois.Add m a) (galois.Add m b) = galois.Add a b := by
  rw [Add_comm m a, Add_assoc, ← Add_assoc m m b, Add_self, zero_Add]

end PerBlock

section ClaimsAlgebra

/-- C16: Lagrange reconstruction is exact. For a polynomial `p` with at least one and at
most `m` coefficients, `m` pairwise distinct bytes `xs` (0 may be among them) and the list
`ys` of the values `p.evaluate(x)` for `x` in `xs`, `interpolate(xs, ys, x0)` returns the
value `p.evaluate(x0)` and no error, for every `x0`; at `x0 = 0` this value is `coefs[0]`. -/
theorem C16_lagrange_exact (P : Nat) (hP : irreducible8 P = true) (p : polynomial)
    (hT : 1 ≤ p.coefs.length) (xs ys : List Byte) (hm : p.coefs.length ≤ xs.length)
    (hnd : xs.Nodup) (hys : xs.map (fun x => p.evaluate P x) = ys.map some) (x0 : Byte) :
    (∃ v, p.evaluate P x0 = some v ∧ interpolate P xs ys x0 = some (v, none)) ∧
      ∃ c, p.coefs.head? = some c ∧ interpolate P xs ys 0 = some (c, none) := by
  haveI : Fact (irreducible8 P = true) := ⟨hP⟩
  obtain ⟨coefs⟩ := p
  cases coefs with
  | nil => simp at hT
  | cons c cs =>
    have hlen : ys.length = xs.length := by
      have := congrArg List.length hys
      simpa using this.symm
    have hget : ∀ i : Fin xs.length,
        polynomial.evaluate P ⟨c :: cs⟩ (xs.get i) = some (ys.getD i 0) := by
      intro i
      have h1 : (xs.map (fun x => polynomial.evaluate P ⟨c :: cs⟩ x))[i.val]? =
          (ys.map some)[i.val]? := by rw [hys]
      have hi : i.val < ys.length := by rw [hlen]; exact i.isLt
      simp only [List.getElem?_map, List.getElem?_eq_getElem i.isLt,
        List.getElem?_eq_getElem hi, Option.map_some', Option.some.injEq] at h1
      rw [List.get_eq_getElem, h1, List.getD_eq_getElem _ _ hi]
    have key := fun x => interpolate_evaluate (P := P) c cs xs ys x hnd hm hlen hget
    refine ⟨⟨evalCoefs P (c :: cs) x0, evaluate_cons P c cs x0, ?_⟩, c, rfl, ?_⟩
    · rw [key x0, evaluate_cons]; rfl
    · rw [key 0]; simp [polynomial.evaluate]

/-- C17: under the per-block policy a single share discloses the XOR of any two secret
bytes of a block. Whenever `splitBlock(block, buf, xCoords, threshold, false)` returns
without error (whatever the threshold, the coordinates and the random bytes are), every
row `k` of the output and every two positions `i`, `j` of the block satisfy
`buf[k][i] XOR buf[k][j] = block[i] XOR block[j]`. -/
theorem C17_per_block_xor (P : Nat) (block : List Byte) (buf : List (List Byte))
    (xCoords : List Byte) (threshold : Byte) (tape : Tape) (buf1 : List (List Byte))
    (tape1 : Tape)
    (h : splitBlock P block buf xCoords threshold false tape = some ((buf1, none), tape1))
    (k i j : Nat) (row : List Byte) (hk : buf1[k]? = some row)
    (hi : i < block.length) (hj : j < block.length) :
    ∃ yi yj, row[i]? = some yi ∧ row[j]? = some yj ∧
      galois.Add yi yj = galois.Add block[i] block[j] := by
  unfold splitBlock at h
  simp only [Bool.false_eq_true, if_false] at h
  cases hnew : newPolynomial 0 (threshold - 1) tape with
  | none => simp [hnew] at h
  | some r =>
    obtain ⟨⟨p, e⟩, tape2⟩ := r
    cases e with
    | some e => simp [hnew] at h
    | none =>
      simp only [hnew] at h
      have hp : ∃ c cs, p = some ⟨c :: cs⟩ := by
        cases block with
        | nil => simp at hi
        | cons b block =>
          cases p with
          | none => simp [splitBlockLoop] at h
          | some q =>
            obtain ⟨coefs⟩ := q
            cases coefs with
            | nil => simp [splitBlockLoop] at h
            | cons c cs => exact ⟨c, cs, rfl⟩
      obtain ⟨c, cs, rfl⟩ := hp
      obtain ⟨_, _, _, hcols⟩ :=
        splitBlockLoop_shared P xCoords threshold block 0 c cs buf tape2 buf1 none tape1 h k row hk
      obtain ⟨x, hx, hvi⟩ := hcols i hi
      obtain ⟨x1, hx1, hvj⟩ := hcols j hj
      rw [hx] at hx1
      have hxx := Option.some.inj hx1
      subst hxx
      rw [Nat.zero_add] at hvi hvj
      refine ⟨_, _, hvi, hvj, ?_⟩
      rw [evalCoefs_intercept P block[i], evalCoefs_intercept P block[j], Add_Add_cancel]

end ClaimsAlgebra

/-! ## Argument validation and the number of parts in the file functions -/

section SplitFileValidation

/-- When the two allocations of its `var` block succeed (`partsCount` is not negative
and the slices stay within `maxAlloc`), `SplitFile` returns the error of
`validateSplitArgs` before it touches the outside world. -/
theorem SplitFile_rejects_nonneg (P : Nat) (os : OS) (inputFilename outDir filePattern : GoString)
    (partsCount threshold : Int) (blockSize : Nat) (polynomPerByte : Bool) (tape : Tape)
    (w : World) (hN : 0 ≤ partsCount) (hcount : 8 * partsCount.toNat ≤ maxAlloc)
    (hblock : blockSize ≤ maxAlloc)
    (hbad : ¬ (2 ≤ threshold ∧ threshold ≤ partsCount ∧ partsCount ≤ 255)) :
    ∃ e, validateSplitArgs partsCount threshold = some e ∧
      SplitFile P os inputFilename outDir filePattern partsCount threshold blockSize
        polynomPerByte tape w = some (some e, w) := by
  cases hv : validateSplitArgs partsCount threshold with
  | none =>
    obtain ⟨h1, h2, h3, h4, h5⟩ := validateSplitArgs_eq_none hv
    exact absurd ⟨by omega, by omega, by omega⟩ hbad
  | some e =>
    refine ⟨e, rfl, ?_⟩
    have h1 : ¬ (partsCount < 0 ∨ 8 * partsCount.toNat > maxAlloc) := by omega
    have h2 : ¬ (if blockSize = 0 then defaultBlockSize else blockSize) > maxAlloc := by
      split
      · decide
      · omega
    unfold SplitFile
    simp only [h1, h2, if_false, hv]

/-- C14: `SplitFile` allocates `outFiles = make([]*os.File, partsCount)` before it calls
`validateSplitArgs`, so a negative `partsCount` makes it panic instead of returning the
validation error. -/
theorem C14_failing_input (P : Nat) (os : OS) (inputFilename outDir filePattern : GoString)
    (threshold : Int) (blockSize : Nat) (polynomPerByte : Bool) (tape : Tape) (w : World) :
    validateSplitArgs (-1) threshold = some .partsRange ∧
      SplitFile P os inputFilename outDir filePattern (-1) threshold blockSize polynomPerByte
        tape w = none := by
  constructor
  · simp [validateSplitArgs]
  · simp [SplitFile]

/-- C15: `CombineFiles` never checks how many part files it has found. With no part file
the first round calls `combineBlock` with an empty `parts` and panics at `parts[0]`; with a
single part file (here `3`, holding x = 200 and the y-values 189, 226, 110) it returns
`(1, nil)` and writes the y-values of that share as the output. -/
theorem C15_failing_input :
    CombineFiles 283 (exampleCombineOS []) ['d'] [] [] 4 World.initial = none ∧
    CombineFiles 283 (exampleCombineOS [(['3'], [200, 189, 226, 110])]) ['d'] [] [] 4
      World.initial =
      some ((1, none), World.mk [.join ['d'] ['3']] [] [189, 226, 110]) := by
  decide!

end SplitFileValidation

/-! ## The discovery loop -/

section Discovery

theorem selectedEntries_cons (filePattern : GoString) (name : GoString) (isDir : Bool)
    (files : List (GoString × Bool)) :
    selectedEntries filePattern ((name, isDir) :: files) =
      if isDir = false ∧ replaceDigitRuns name = filePattern then
        (name, isDir) :: selectedEntries filePattern files
      else selectedEntries filePattern files := by
  unfold selectedEntries
  rw [List.filter_cons]
  cases isDir <;> by_cases h : replaceDigitRuns name = filePattern <;> simp [h]

/-- The discovery loop touches neither a created file nor the standard output. -/
theorem discoverParts_frame (os : OS) (searchDir filePattern : GoString)
    (files : List (GoString × Bool)) (d : Discovery) (w : World) :
    (discoverParts os searchDir filePattern files d w).2.created = w.created ∧
      (discoverParts os searchDir filePattern files d w).2.stdout = w.stdout := by
  induction files generalizing d w with
  | nil => exact ⟨rfl, rfl⟩
  | cons e files ih =>
    obtain ⟨name, isDir⟩ := e
    unfold discoverParts
    by_cases hdir : isDir = true
    · simp only [hdir, if_true]; exact ih d w
    · simp only [hdir, if_false]
      by_cases hm : replaceDigitRuns name ≠ filePattern
      · rw [if_pos hm]; exact ih d w
      · rw [if_neg hm]
        cases hopen : os.openRead (.join searchDir name) with
        | error e => exact ⟨rfl, rfl⟩
        | ok partFile =>
          cases hstat : partFile.statSize with
          | error e => simp only [hstat]; exact ⟨rfl, rfl⟩
          | ok size =>
            simp only [hstat]
            cases hpl : d.partLen with
            | none =>
              simp only
              exact ih _ _
            | some partLen =>
              simp only
              by_cases hne : partLen ≠ size
              · rw [if_pos hne]; exact ⟨rfl, rfl⟩
              · rw [if_neg hne]; exact ih _ _

/-- When every selected entry can be opened and examined, and one of them has a size other
than the common size so far, or two of them differ in size, the discovery loop returns the
size-mismatch error. -/
theorem discoverParts_mismatch (os : OS) (searchDir filePattern : GoString)
    (files : List (GoString × Bool)) (d : Discovery) (w : World)
    (hopen : ∀ e ∈ selectedEntries filePattern files, (partSize os searchDir e.1).isSome = true)
    (hmis : (∃ e ∈ selectedEntries filePattern files, ∃ s, d.partLen = some s ∧
        partSize os searchDir e.1 ≠ some s) ∨
      ∃ e1 ∈ selectedEntries filePattern files, ∃ e2 ∈ selectedEntries filePattern files,
        partSize os searchDir e1.1 ≠ partSize os searchDir e2.1) :
    (discoverParts os searchDir filePattern files d w).1 = .inl (0, .differentSize) := by
  induction files generalizing d w with
  | nil =>
    rcases hmis with ⟨e, he, _⟩ | ⟨e, he, _⟩ <;> simp [selectedEntries] at he
  | cons e files ih =>
    obtain ⟨name, isDir⟩ := e
    rw [selectedEntries_cons] at hopen hmis
    unfold discoverParts
    by_cases hdir : isDir = true
    · have hc : ¬ (isDir = false ∧ replaceDigitRuns name = filePattern) := by simp [hdir]
      rw [if_neg hc] at hopen hmis
      simp only [hdir, if_true]
      exact ih d w hopen hmis
    · simp only [hdir, if_false]
      by_cases hm : replaceDigitRuns name ≠ filePattern
      · have hc : ¬ (isDir = false ∧ replaceDigitRuns name = filePattern) := fun h => hm h.2
        rw [if_neg hc] at hopen hmis
        rw [if_pos hm]
        exact ih d w hopen hmis
      · have hc : isDir = false ∧ replaceDigitRuns name = filePattern :=
          ⟨by simpa using hdir, not_not.mp hm⟩
        rw [if_pos hc] at hopen hmis
        rw [if_neg hm]
        have hhead := hopen (name, isDir) (List.mem_cons_self _ _)
        have htail : ∀ e ∈ selectedEntries filePattern files,
            (partSize os searchDir e.1).isSome = true :=
          fun e he => hopen e (List.mem_cons_of_mem _ he)
        cases hopf : os.openRead (.join searchDir name) with
        | error e => simp [partSize, hopf] at hhead
        | ok partFile =>
          cases hstat : partFile.statSize with
          | error e => simp [partSize, hopf, hstat] at hhead
          | ok size =>
            have hsz : partSize os searchDir name = some size := by simp [partSize, hopf, hstat]
            simp only [hstat]
            -- a mismatch against `size` in the rest of the listing
            have hrest : ∀ s, (s = size) →
                ((∃ e ∈ (name, isDir) :: selectedEntries filePattern files, ∃ s1,
                    some s = some s1 ∧ partSize os searchDir e.1 ≠ some s1) ∨
                  ∃ e1 ∈ (name, isDir) :: selectedEntries filePattern files,
                    ∃ e2 ∈ (name, isDir) :: selectedEntries filePattern files,
                    partSize os searchDir e1.1 ≠ partSize os searchDir e2.1) →
                ∃ e ∈ selectedEntries filePattern files,
                  partSize os searchDir e.1 ≠ some size := by
              intro s hs hx
              subst hs
              rcases hx with ⟨e, he, s1, hs1, hne⟩ | ⟨e1, he1, e2, he2, hne⟩
              · have := Option.some.inj hs1
                subst this
                rcases List.mem_cons.mp he with rfl | he
                · exact absurd hsz hne
                · exact ⟨e, he, hne⟩
              · rcases List.mem_cons.mp he1 with rfl | he1
                · rcases List.mem_cons.mp he2 with rfl | he2
                  · exact absurd rfl hne
                  · refine ⟨e2, he2, ?_⟩
                    intro h2; apply hne; simp only [hsz, h2]
                · by_cases h1 : partSize os searchDir e1.1 = some s
                  · rcases List.mem_cons.mp he2 with rfl | he2
                    · exact absurd (h1.trans hsz.symm) hne
                    · exact ⟨e2, he2, fun h2 => hne (h1.trans h2.symm)⟩
                  · exact ⟨e1, he1, h1⟩
            cases hpl : d.partLen with
            | none =>
              simp only
              apply ih _ _ htail
              left
              have hx : (∃ e ∈ (name, isDir) :: selectedEntries filePattern files, ∃ s1,
                    some size = some s1 ∧ partSize os searchDir e.1 ≠ some s1) ∨
                  ∃ e1 ∈ (name, isDir) :: selectedEntries filePattern files,
                    ∃ e2 ∈ (name, isDir) :: selectedEntries filePattern files,
                    partSize os searchDir e1.1 ≠ partSize os searchDir e2.1 := by
                rcases hmis with ⟨e, he, s1, hs1, hne⟩ | h2
                · rw [hpl] at hs1; cases hs1
                · exact Or.inr h2
              obtain ⟨e, he, hne⟩ := hrest size rfl hx
              exact ⟨e, he, size, rfl, hne⟩
            | some partLen =>
              simp only
              by_cases hne : partLen ≠ size
              · rw [if_pos hne]; simp
              · rw [if_neg hne]
                have hps : partLen = size := not_not.mp hne
                apply ih _ _ htail
                left
                rw [hpl] at hmis
                obtain ⟨e, he, hne⟩ := hrest partLen hps hmis
                exact ⟨e, he, partLen, rfl, by rw [hps]; exact hne⟩

/-- An early return of the discovery loop on a front part of the listing is the result
for the whole listing. -/
theorem discoverParts_append_inl (os : OS) (searchDir filePattern : GoString)
    (pre post : List (GoString × Bool)) (d : Discovery) (w : World) (r : Int × GoError)
    (h : (discoverParts os searchDir filePattern pre d w).1 = .inl r) :
    discoverParts os searchDir filePattern (pre ++ post) d w =
      discoverParts os searchDir filePattern pre d w := by
  induction pre generalizing d w with
  | nil => simp [discoverParts] at h
  | cons e pre ih =>
    obtain ⟨name, isDir⟩ := e
    rw [List.cons_append, discoverParts, discoverParts]
    rw [discoverParts] at h
    by_cases hdir : isDir = true
    · simp only [if_pos hdir] at h ⊢
      exact ih d w h
    · simp only [if_neg hdir] at h ⊢
      by_cases hm : replaceDigitRuns name ≠ filePattern
      · simp only [if_pos hm] at h ⊢
        exact ih d w h
      · simp only [if_neg hm] at h ⊢
        cases hopen : os.openRead (.join searchDir name) with
        | error e => rfl
        | ok partFile =>
          simp only [hopen] at h
          dsimp only
          cases hstat : partFile.statSize with
          | error e => rfl
          | ok size =>
            simp only [hstat] at h ⊢
            cases hpl : d.partLen with
            | none =>
              simp only [hpl] at h ⊢
              exact ih _ _ h
            | some partLen =>
              simp only [hpl] at h ⊢
              by_cases hne : partLen ≠ size
              · simp only [if_pos hne]
              · simp only [if_neg hne] at h ⊢
                exact ih _ _ h

end Discovery

section ClaimC11

/-- C11, amended: size mismatch. When the block size can be allocated (it is at most
`maxAlloc`; the buffer is allocated before anything else), the pattern is accepted, the directory can
be listed, the listing has a front part `front` whose selected entries can all be opened
and examined (so that they are selected part files) and two of them differ in size,
`CombineFiles` returns 0 and the size-mismatch error, whatever follows in the listing; it
has not created (truncated) any file and has written nothing, neither to a file nor to the
standard output. -/
theorem C11_size_mismatch (P : Nat) (os : OS) (searchDir filePattern outputFilename : GoString)
    (blockSize : Nat) (w : World) (hblock : blockSize ≤ maxAlloc)
    (hpat : ¬ (filePattern.length > 0 ∧ replaceAllToken [] filePattern = filePattern))
    (front rest : List (GoString × Bool)) (hrd : os.readDir searchDir = .ok (front ++ rest))
    (hopen : ∀ e ∈ selectedEntries (if filePattern = [] then ['%', 'i'] else filePattern) front,
      (partSize os searchDir e.1).isSome = true)
    (hsize : ∃ e1 ∈ selectedEntries (if filePattern = [] then ['%', 'i'] else filePattern) front,
      ∃ e2 ∈ selectedEntries (if filePattern = [] then ['%', 'i'] else filePattern) front,
        partSize os searchDir e1.1 ≠ partSize os searchDir e2.1) :
    ∃ w1, CombineFiles P os searchDir filePattern outputFilename blockSize w =
        some ((0, some .differentSize), w1) ∧
      w1.created = w.created ∧ w1.stdout = w.stdout := by
  have hmis := discoverParts_mismatch os searchDir
    (if filePattern = [] then ['%', 'i'] else filePattern) front
    { partFiles := [], partLen := none } w hopen (Or.inr hsize)
  have happ := discoverParts_append_inl os searchDir
    (if filePattern = [] then ['%', 'i'] else filePattern) front rest
    { partFiles := [], partLen := none } w _ hmis
  have hframe := discoverParts_frame os searchDir
    (if filePattern = [] then ['%', 'i'] else filePattern) (front ++ rest)
    { partFiles := [], partLen := none } w
  rw [← happ] at hmis
  have hbig : ¬ (if blockSize = 0 then defaultBlockSize else blockSize) > maxAlloc := by
    split
    · decide
    · omega
  unfold CombineFiles
  simp only [if_neg hbig, if_neg hpat, hrd]
  cases hd : discoverParts os searchDir (if filePattern = [] then ['%', 'i'] else filePattern)
      (front ++ rest) { partFiles := [], partLen := none } w with
  | mk r w1 =>
    rw [hd] at hmis hframe
    simp only at hmis
    subst hmis
    exact ⟨w1, rfl, hframe⟩

end ClaimC11

/-! ## The lock-step rounds -/

section LockStep

theorem readRound_append (blockSize m : Nat) (pre : List File)
    (hpre : ∀ g ∈ pre, (g.read blockSize).1.2 = none ∧ (g.read blockSize).1.1.length = m)
    (rest : List File) (partIdx : Nat) (currentRead : Int)
    (hcr : currentRead < 0 ∨ currentRead = (m : Int)) :
    readRound blockSize partIdx currentRead (pre ++ rest) =
      match readRound blockSize (partIdx + pre.length)
          (if pre.length = 0 then currentRead else (m : Int)) rest with
      | .chunks bufs cr fs =>
        .chunks (pre.map (fun g => (g.read blockSize).1.1) ++ bufs) cr
          (pre.map (fun g => (g.read blockSize).2) ++ fs)
      | .finished => .finished
      | .failed e => .failed e := by
  induction pre generalizing partIdx currentRead with
  | nil =>
    simp only [List.nil_append, List.length_nil, Nat.add_zero, if_true, List.map_nil]
    cases readRound blockSize partIdx currentRead rest <;> rfl
  | cons g pre ih =>
    obtain ⟨hg1, hg2⟩ := hpre g (List.mem_cons_self _ _)
    have hpre1 : ∀ g ∈ pre, (g.read blockSize).1.2 = none ∧ (g.read blockSize).1.1.length = m :=
      fun g hg => hpre g (List.mem_cons_of_mem _ hg)
    rw [List.cons_append, readRound]
    cases hr : g.read blockSize with
    | mk r g1 =>
      obtain ⟨data, e⟩ := r
      rw [hr] at hg1 hg2
      simp only at hg1 hg2
      subst hg1
      simp only
      have hc : ¬ (currentRead ≥ 0 ∧ currentRead ≠ (data.length : Int)) := by
        rw [hg2]; omega
      rw [if_neg hc]
      have hcr1 : (if currentRead < 0 then (data.length : Int) else currentRead) = (m : Int) := by
        rw [hg2]; split <;> omega
      rw [hcr1, ih hpre1 (partIdx + 1) m (Or.inr rfl)]
      have hidx : partIdx + 1 + pre.length = partIdx + (g :: pre).length := by
        simp only [List.length_cons]; omega
      have hcr2 : (if pre.length = 0 then (m : Int) else (m : Int)) = (m : Int) := by simp
      have hcr3 : (if (g :: pre).length = 0 then currentRead else (m : Int)) = (m : Int) := by simp
      rw [hidx, hcr2, hcr3]
      cases readRound blockSize (partIdx + (g :: pre).length) m rest <;> simp [hr]

theorem readRound_not_finished (blockSize : Nat) (files : List File) (partIdx : Nat)
    (currentRead : Int) (h : partIdx ≠ 0) :
    readRound blockSize partIdx currentRead files ≠ .finished := by
  induction files generalizing partIdx currentRead with
  | nil => simp [readRound]
  | cons f files ih =>
    rw [readRound]
    cases hr : f.read blockSize with
    | mk r f1 =>
      obtain ⟨data, e⟩ := r
      cases e with
      | some e =>
        simp only
        by_cases he : e = .eof
        · simp [he, h]
        · simp [he]
      | none =>
        simp only
        split
        · simp
        · have := ih (partIdx + 1)
            (if currentRead < 0 then (data.length : Int) else currentRead) (by omega)
          cases hrec : readRound blockSize (partIdx + 1)
            (if currentRead < 0 then (data.length : Int) else currentRead) files with
          | chunks a b c => simp
          | finished => exact absurd hrec this
          | failed e => simp

/-- A round is finished exactly when the part at index 0 reports end-of-stream. -/
theorem readRound_finished_iff (blockSize : Nat) (files : List File) (currentRead : Int) :
    readRound blockSize 0 currentRead files = .finished ↔
      ∃ f post, files = f :: post ∧ (f.read blockSize).1.2 = some .eof := by
  cases files with
  | nil => simp [readRound]
  | cons f files =>
    rw [readRound]
    cases hr : f.read blockSize with
    | mk r f1 =>
      obtain ⟨data, e⟩ := r
      cases e with
      | some e =>
        by_cases he : e = .eof
        · subst he
          simp [hr]
        · simp [he, hr]
      | none =>
        simp only
        constructor
        · intro h
          exfalso
          split at h
          · simp at h
          · have := readRound_not_finished blockSize files (0 + 1)
              (if currentRead < 0 then (data.length : Int) else currentRead) (by omega)
            cases hrec : readRound blockSize (0 + 1)
              (if currentRead < 0 then (data.length : Int) else currentRead) files with
            | chunks a b c => rw [hrec] at h; simp at h
            | finished => exact this hrec
            | failed e => rw [hrec] at h; simp at h
        · rintro ⟨f2, post, heq, heof⟩
          simp only [List.cons.injEq] at heq
          obtain ⟨rfl, _⟩ := heq
          rw [hr] at heof
          simp at heof

theorem readRound_uneven (blockSize m : Nat) (pre : List File) (f : File) (post : List File)
    (hne : pre ≠ [])
    (hpre : ∀ g ∈ pre, (g.read blockSize).1.2 = none ∧ (g.read blockSize).1.1.length = m)
    (hf : (f.read blockSize).1.2 = none) (hlen : (f.read blockSize).1.1.length ≠ m) :
    readRound blockSize 0 (-1) (pre ++ f :: post) = .failed .unevenRead := by
  rw [readRound_append blockSize m pre hpre (f :: post) 0 (-1) (Or.inl (by omega))]
  have hl : pre.length ≠ 0 := fun h => hne (List.length_eq_zero.mp h)
  rw [if_neg hl, readRound]
  cases hr : f.read blockSize with
  | mk r f1 =>
    obtain ⟨data, e⟩ := r
    rw [hr] at hf hlen
    simp only at hf hlen
    subst hf
    simp only
    have hc : (m : Int) ≥ 0 ∧ (m : Int) ≠ (data.length : Int) := by
      constructor
      · omega
      · intro h; apply hlen; omega
    rw [if_pos hc]

theorem readRound_eof (blockSize m : Nat) (pre : List File) (f : File) (post : List File)
    (hne : pre ≠ [])
    (hpre : ∀ g ∈ pre, (g.read blockSize).1.2 = none ∧ (g.read blockSize).1.1.length = m)
    (hf : (f.read blockSize).1.2 = some .eof) :
    readRound blockSize 0 (-1) (pre ++ f :: post) = .failed .unexpectedEOF := by
  rw [readRound_append blockSize m pre hpre (f :: post) 0 (-1) (Or.inl (by omega))]
  have hl : pre.length ≠ 0 := fun h => hne (List.length_eq_zero.mp h)
  rw [if_neg hl, readRound]
  cases hr : f.read blockSize with
  | mk r f1 =>
    obtain ⟨data, e⟩ := r
    rw [hr] at hf
    simp only at hf
    subst hf
    simp [hl]

theorem combineRounds_failed (P : Nat) (os : OS) (blockSize : Nat) (outFile : Option Nat)
    (xSamples : List Byte) (partsCount : Int) (fuel : Nat) (partFiles : List File)
    (buf ySamplesBuf : List Byte) (w : World) (e : GoError)
    (h : readRound blockSize 0 (-1) partFiles = .failed e) :
    combineRounds P os blockSize outFile xSamples partsCount (fuel + 1) partFiles buf
      ySamplesBuf w = some ((partsCount, some e), w) := by
  rw [combineRounds, h]

theorem combineRounds_finished (P : Nat) (os : OS) (blockSize : Nat) (outFile : Option Nat)
    (xSamples : List Byte) (partsCount : Int) (fuel : Nat) (partFiles : List File)
    (buf ySamplesBuf : List Byte) (w : World)
    (h : readRound blockSize 0 (-1) partFiles = .finished) :
    combineRounds P os blockSize outFile xSamples partsCount (fuel + 1) partFiles buf
      ySamplesBuf w = some ((partsCount, none), w) := by
  rw [combineRounds, h]

/-- A run of the round loop that returns no error consists of rounds that ran to their
end, followed by a round that the part at index 0 finishes. -/
theorem combineRounds_success (P : Nat) (os : OS) (blockSize : Nat) (outFile : Option Nat)
    (xSamples : List Byte) (partsCount : Int) (fuel : Nat) (s : RoundState) (n : Int)
    (w1 : World)
    (h : combineRounds P os blockSize outFile xSamples partsCount fuel s.partFiles s.buf
      s.ySamplesBuf s.world = some ((n, none), w1)) :
    ∃ k s1, combineRoundsN P os blockSize outFile xSamples k s = some s1 ∧ s1.world = w1 ∧
      readRound blockSize 0 (-1) s1.partFiles = .finished := by
  induction fuel generalizing s with
  | zero => simp [combineRounds] at h
  | succ fuel ih =>
    rw [combineRounds] at h
    cases hr : readRound blockSize 0 (-1) s.partFiles with
    | failed e => simp [hr] at h
    | finished =>
      simp only [hr, Option.some.injEq, Prod.mk.injEq, and_true, true_and] at h
      exact ⟨0, s, rfl, h.2, hr⟩
    | chunks pcb cr files1 =>
      simp only [hr] at h
      cases hcb : combineBlock P s.buf pcb xSamples s.ySamplesBuf with
      | none => simp [hcb] at h
      | some r =>
        obtain ⟨⟨buf1, ys1⟩, e⟩ := r
        cases e with
        | some e => simp [hcb] at h
        | none =>
          simp only [hcb] at h
          by_cases hc : cr < 0 ∨ cr > (buf1.length : Int)
          · simp [hc] at h
          · rw [if_neg hc] at h
            cases hw : writeOutput os outFile (buf1.take cr.toNat) s.world with
            | mk e w2 =>
              cases e with
              | some e => simp [hw] at h
              | none =>
                simp only [hw] at h
                obtain ⟨k, s1, hk, hw1, hfin⟩ := ih ⟨files1, buf1, ys1, w2⟩ h
                refine ⟨k + 1, s1, ?_, hw1, hfin⟩
                simp only [combineRoundsN, combineRound, hr, hcb, if_neg hc, hw]
                exact hk

end LockStep

section ClaimC12

/-- C12: the lock-step read protocol of `CombineFiles`, for a round that starts in state
`s`. (1) When the parts before some part all deliver chunks of one length `m` and that
part delivers a chunk of another length, the operation returns the uneven-read error.
(2) When the parts before a part at index at least 1 all deliver chunks of one length and
that part reports end-of-stream, the operation returns the unexpected-EOF error. (3) When
the part at index 0 reports end-of-stream, the operation returns no error. In all three
cases the round writes nothing. (4) Whenever the operation returns no error, it has run
some number `k` of complete rounds and then a round in which the part at index 0 reports
end-of-stream, and the final world is the world at the start of that round. -/
theorem C12_lock_step (P : Nat) (os : OS) (blockSize : Nat) (outFile : Option Nat)
    (xSamples : List Byte) (partsCount : Int) (fuel : Nat) (s : RoundState) :
    (∀ (pre : List File) (f : File) (post : List File) (m : Nat),
      s.partFiles = pre ++ f :: post → pre ≠ [] →
      (∀ g ∈ pre, (g.read blockSize).1.2 = none ∧ (g.read blockSize).1.1.length = m) →
      (f.read blockSize).1.2 = none → (f.read blockSize).1.1.length ≠ m →
      combineRounds P os blockSize outFile xSamples partsCount (fuel + 1) s.partFiles s.buf
        s.ySamplesBuf s.world = some ((partsCount, some .unevenRead), s.world)) ∧
    (∀ (pre : List File) (f : File) (post : List File) (m : Nat),
      s.partFiles = pre ++ f :: post → pre ≠ [] →
      (∀ g ∈ pre, (g.read blockSize).1.2 = none ∧ (g.read blockSize).1.1.length = m) →
      (f.read blockSize).1.2 = some .eof →
      combineRounds P os blockSize outFile xSamples partsCount (fuel + 1) s.partFiles s.buf
        s.ySamplesBuf s.world = some ((partsCount, some .unexpectedEOF), s.world)) ∧
    (∀ (f : File) (post : List File), s.partFiles = f :: post →
      (f.read blockSize).1.2 = some .eof →
      combineRounds P os blockSize outFile xSamples partsCount (fuel + 1) s.partFiles s.buf
        s.ySamplesBuf s.world = some ((partsCount, none), s.world)) ∧
    (∀ (n : Int) (w1 : World),
      combineRounds P os blockSize outFile xSamples partsCount fuel s.partFiles s.buf
        s.ySamplesBuf s.world = some ((n, none), w1) →
      ∃ k s1, combineRoundsN P os blockSize outFile xSamples k s = some s1 ∧ s1.world = w1 ∧
        ∃ f post, s1.partFiles = f :: post ∧ (f.read blockSize).1.2 = some .eof) := by
  refine ⟨?_, ?_, ?_, ?_⟩
  · intro pre f post m hs hne hpre hf hlen
    apply combineRounds_failed
    rw [hs]
    exact readRound_uneven blockSize m pre f post hne hpre hf hlen
  · intro pre f post m hs hne hpre hf
    apply combineRounds_failed
    rw [hs]
    exact readRound_eof blockSize m pre f post hne hpre hf
  · intro f post hs hf
    apply combineRounds_finished
    exact (readRound_finished_iff blockSize s.partFiles (-1)).mpr ⟨f, post, hs, hf⟩
  · intro n w1 h
    obtain ⟨k, s1, hk, hw, hfin⟩ :=
      combineRounds_success P os blockSize outFile xSamples partsCount fuel s n w1 h
    exact ⟨k, s1, hk, hw, (readRound_finished_iff blockSize s1.partFiles (-1)).mp hfin⟩

end ClaimC12

/-! ## File names and patterns -/

section Strings

theorem digitChar_isDigit (m : Nat) (h : m < 10) : (Nat.digitChar m).isDigit = true := by
  interval_cases m <;> rfl

theorem toDigitsCore_isDigit (fuel n : Nat) (ds : List Char)
    (hds : ∀ c ∈ ds, c.isDigit = true) :
    ∀ c ∈ Nat.toDigitsCore 10 fuel n ds, c.isDigit = true := by
  induction fuel generalizing n ds with
  | zero => simpa [Nat.toDigitsCore] using hds
  | succ fuel ih =>
    have hd : ∀ c ∈ Nat.digitChar (n % 10) :: ds, c.isDigit = true := by
      intro c hc
      rcases List.mem_cons.mp hc with rfl | hc
      · exact digitChar_isDigit _ (Nat.mod_lt _ (by decide))
      · exact hds c hc
    simp only [Nat.toDigitsCore]
    split
    · exact hd
    · exact ih _ _ hd

theorem toDigitsCore_ne_nil (fuel n : Nat) (ds : List Char) (hds : ds ≠ []) :
    Nat.toDigitsCore 10 fuel n ds ≠ [] := by
  induction fuel generalizing n ds with
  | zero => simpa [Nat.toDigitsCore] using hds
  | succ fuel ih =>
    simp only [Nat.toDigitsCore]
    split
    · simp
    · exact ih _ _ (by simp)

/-- The decimal representation consists of ASCII digits. -/
theorem fmtSprint_isDigit (n : Nat) : ∀ c ∈ fmtSprint n, c.isDigit = true :=
  toDigitsCore_isDigit (n + 1) n [] (by simp)

/-- The decimal representation is not empty. -/
theorem fmtSprint_ne_nil (n : Nat) : fmtSprint n ≠ [] := by
  unfold fmtSprint Nat.toDigits
  simp only [Nat.toDigitsCore]
  split
  · simp
  · exact toDigitsCore_ne_nil _ _ _ (by simp)

theorem replaceAllToken_token (new rest : GoString) :
    replaceAllToken new ('%' :: 'i' :: rest) = new ++ replaceAllToken new rest := by
  rw [replaceAllToken]

theorem replaceAllToken_cons (new : GoString) (c : Char) (rest : GoString)
    (h : ∀ r, c = '%' → rest = 'i' :: r → False) :
    replaceAllToken new (c :: rest) = c :: replaceAllToken new rest := by
  rw [replaceAllToken]
  intro r hc hr
  exact h r hc hr

theorem token_infix_cons (c : Char) (rest : GoString)
    (h : ∀ r, c = '%' → rest = 'i' :: r → False) :
    ['%', 'i'] <:+: c :: rest ↔ ['%', 'i'] <:+: rest := by
  rw [List.infix_cons_iff]
  constructor
  · rintro (hp | hi)
    · exfalso
      rw [List.cons_prefix_cons] at hp
      obtain ⟨hc, t, ht⟩ := hp
      exact h t hc.symm (by simpa using ht.symm)
    · exact hi
  · exact Or.inr

theorem token_infix_token (rest : GoString) : ['%', 'i'] <:+: '%' :: 'i' :: rest :=
  (List.prefix_append ['%', 'i'] rest).isInfix

/-- The test `strings.ReplaceAll(s, "%i", new) == s` holds exactly when `s` does not
contain `%i`, for every replacement with which a replaced string differs from the
original. -/
theorem replaceAllToken_eq_self_iff (new : GoString)
    (hnew : ∀ rest, new ++ replaceAllToken new rest ≠ '%' :: 'i' :: rest) (s : GoString) :
    replaceAllToken new s = s ↔ ¬ ['%', 'i'] <:+: s := by
  induction s using replaceAllToken.induct new with
  | case1 => simp [replaceAllToken]
  | case2 rest _ =>
    rw [replaceAllToken_token]
    constructor
    · intro h; exact absurd h (hnew rest)
    · intro h; exact absurd (token_infix_token rest) h
  | case3 c rest h ih =>
    rw [replaceAllToken_cons new c rest h, token_infix_cons c rest h, ← ih]
    simp

theorem replaceAllToken_nil_length (s : GoString) :
    (replaceAllToken [] s).length ≤ s.length := by
  induction s using replaceAllToken.induct [] with
  | case1 => simp [replaceAllToken]
  | case2 rest ih =>
    rw [replaceAllToken_token]
    simp only [List.nil_append, List.length_cons]
    omega
  | case3 c rest h ih =>
    rw [replaceAllToken_cons [] c rest h]
    simp only [List.length_cons]
    omega

/-- The pattern test of `CombineFiles`. -/
theorem replaceAllToken_nil_eq_self_iff (s : GoString) :
    replaceAllToken [] s = s ↔ ¬ ['%', 'i'] <:+: s := by
  apply replaceAllToken_eq_self_iff
  intro rest h
  have h1 := replaceAllToken_nil_length rest
  have h2 := congrArg List.length h
  simp only [List.nil_append, List.length_cons] at h2
  omega

/-- The pattern test of `SplitFile`. -/
theorem replaceAllToken_fmtSprint_eq_self_iff (n : Nat) (s : GoString) :
    replaceAllToken (fmtSprint n) s = s ↔ ¬ ['%', 'i'] <:+: s := by
  apply replaceAllToken_eq_self_iff
  intro rest h
  cases hd : fmtSprint n with
  | nil => exact fmtSprint_ne_nil n hd
  | cons d ds =>
    have hdig := fmtSprint_isDigit n d (by rw [hd]; exact List.mem_cons_self _ _)
    rw [hd] at h
    simp only [List.cons_append, List.cons.injEq] at h
    rw [h.1] at hdig
    exact absurd hdig (by decide)

theorem partFileName_eq (filePattern : GoString) (k : Nat) :
    partFileName filePattern k =
      if filePattern = [] then .ok (fmtSprint (k + 1))
      else if ['%', 'i'] <:+: filePattern then
        .ok (replaceAllToken (fmtSprint (k + 1)) filePattern)
      else .error .missingToken := by
  unfold partFileName
  by_cases h0 : filePattern = []
  · subst h0; simp
  · have hl : filePattern.length > 0 := List.length_pos.mpr h0
    simp only [hl, if_true, h0, if_false, replaceAllToken_fmtSprint_eq_self_iff]
    by_cases ht : ['%', 'i'] <:+: filePattern <;> simp [ht]

end Strings

section SplitFileErrors

theorem newPolynomial_err (intercept degree : Byte) (tape : Tape) (p : Option polynomial)
    (e : GoError) (tape1 : Tape)
    (h : newPolynomial intercept degree tape = some ((p, some e), tape1)) : e = .randFailure := by
  unfold newPolynomial at h
  simp only at h
  split at h
  · simp at h
  · split at h
    · simp only [Option.some.injEq, Prod.mk.injEq] at h
      exact h.1.2.symm
    · simp at h

theorem splitBlockLoop_err (P : Nat) (xCoords : List Byte) (threshold : Byte)
    (polynomPerByte : Bool) (block : List Byte) (i : Nat) (p : Option polynomial)
    (buf : List (List Byte)) (tape : Tape) (buf1 : List (List Byte)) (e : GoError) (tape1 : Tape)
    (h : splitBlockLoop P xCoords threshold polynomPerByte block i p buf tape =
      some ((buf1, some e), tape1)) : e = .randFailure := by
  induction block generalizing i p buf tape with
  | nil => simp [splitBlockLoop] at h
  | cons b block ih =>
    unfold splitBlockLoop at h
    simp only at h
    split at h
    · simp at h
    · rename_i err tape2 hfresh
      simp only [Option.some.injEq, Prod.mk.injEq] at h
      obtain ⟨⟨_, rfl⟩, _⟩ := h
      cases polynomPerByte with
      | true =>
        simp only [if_true] at hfresh
        exact newPolynomial_err _ _ _ _ _ _ hfresh
      | false => simp at hfresh
    · simp at h
    · split at h
      · simp at h
      · split at h
        · simp at h
        · exact ih _ _ _ _ h

/-- The only error of `splitBlock` is the failure of the random source. -/
theorem splitBlock_err (P : Nat) (block : List Byte) (buf : List (List Byte))
    (xCoords : List Byte) (threshold : Byte) (polynomPerByte : Bool) (tape : Tape)
    (buf1 : List (List Byte)) (e : GoError) (tape1 : Tape)
    (h : splitBlock P block buf xCoords threshold polynomPerByte tape =
      some ((buf1, some e), tape1)) : e = .randFailure := by
  unfold splitBlock at h
  split at h
  · exact splitBlockLoop_err _ _ _ _ _ _ _ _ _ _ _ _ h
  · split at h
    · simp at h
    · rename_i hnew
      simp only [Option.some.injEq, Prod.mk.injEq] at h
      obtain ⟨⟨_, rfl⟩, _⟩ := h
      exact newPolynomial_err _ _ _ _ _ _ hnew
    · exact splitBlockLoop_err _ _ _ _ _ _ _ _ _ _ _ _ h

theorem World.write_err (os : OS) (h : Nat) (data : List Byte) (w w1 : World) (e : GoError)
    (hw : w.write os h data = (some e, w1)) : e = .os 0 ∨ ∃ p n, os.writeErr p n = some e := by
  unfold World.write at hw
  cases hc : w.created[h]? with
  | none =>
    simp only [hc, Prod.mk.injEq, Option.some.injEq] at hw
    exact Or.inl hw.1.symm
  | some pc =>
    obtain ⟨path, content⟩ := pc
    simp only [hc] at hw
    cases he : os.writeErr (some path) content.length with
    | none => simp [he] at hw
    | some e1 =>
      simp only [he, Prod.mk.injEq, Option.some.injEq] at hw
      exact Or.inr ⟨some path, content.length, by rw [he, hw.1]⟩

theorem writeParts_err (os : OS) (base bytesRead : Nat) (partIdx : Nat)
    (rows : List (List Byte)) (w w1 : World) (e : GoError)
    (h : writeParts os base bytesRead partIdx rows w = (some e, w1)) :
    e = .os 0 ∨ ∃ p n, os.writeErr p n = some e := by
  induction rows generalizing partIdx w with
  | nil => simp [writeParts] at h
  | cons row rows ih =>
    unfold writeParts at h
    cases hw : w.write os (base + partIdx) (row.take bytesRead) with
    | mk e1 w2 =>
      cases e1 with
      | some e1 =>
        simp only [hw, Prod.mk.injEq, Option.some.injEq] at h
        obtain ⟨rfl, _⟩ := h
        exact World.write_err os _ _ _ _ _ hw
      | none =>
        simp only [hw] at h
        exact ih _ _ h

theorem File.read_failure (cap : Nat) (f : File) : (f.read cap).2.failure = f.failure := by
  unfold File.read
  split <;> rfl

theorem File.read_err_failure (cap : Nat) (f f1 : File) (data : List Byte) (e : GoError)
    (h : f.read cap = ((data, some e), f1)) : e = f.failure.getD .eof := by
  unfold File.read at h
  split at h
  · simp at h
  · simp only [Prod.mk.injEq] at h
    exact (readPending_err cap f.failure f.pending data e
      (readPending cap f.failure f.pending).2 (by rw [← h.1])).2

/-- The errors that the read loop of `SplitFile` can return. -/
theorem splitFileLoop_err (P : Nat) (os : OS) (xCoords : List Byte) (threshold : Byte)
    (polynomPerByte : Bool) (blockSize base : Nat) (fuel : Nat) (inputFile : File)
    (partsBuf : List (List Byte)) (tape : Tape) (w w1 : World) (e : GoError)
    (h : splitFileLoop P os xCoords threshold polynomPerByte blockSize base fuel inputFile
      partsBuf tape w = some (some e, w1)) :
    inputFile.failure = some e ∨ e = .randFailure ∨ e = .os 0 ∨
      ∃ p n, os.writeErr p n = some e := by
  induction fuel generalizing inputFile partsBuf tape w with
  | zero => simp [splitFileLoop] at h
  | succ fuel ih =>
    unfold splitFileLoop at h
    cases hr : inputFile.read blockSize with
    | mk r inputFile1 =>
      obtain ⟨data, e1⟩ := r
      cases e1 with
      | some e1 =>
        simp only [hr] at h
        have he1 := File.read_err_failure _ _ _ _ _ hr
        by_cases heof : e1 = .eof
        · simp [heof] at h
        · simp only [heof, if_false, Option.some.injEq, Prod.mk.injEq] at h
          obtain ⟨rfl, _⟩ := h
          left
          cases hf : inputFile.failure with
          | none => rw [hf] at he1; exact absurd he1 heof
          | some e2 => rw [hf] at he1; simp only [Option.getD_some] at he1; rw [he1]
      | none =>
        simp only [hr] at h
        have hfail : inputFile1.failure = inputFile.failure := by
          have := File.read_failure blockSize inputFile
          rw [hr] at this; exact this
        cases hsb : splitBlock P data partsBuf xCoords threshold polynomPerByte tape with
        | none => simp [hsb] at h
        | some r =>
          obtain ⟨⟨partsBuf1, e2⟩, tape1⟩ := r
          cases e2 with
          | some e2 =>
            simp only [hsb, Option.some.injEq, Prod.mk.injEq] at h
            obtain ⟨rfl, _⟩ := h
            exact Or.inr (Or.inl (splitBlock_err _ _ _ _ _ _ _ _ _ _ hsb))
          | none =>
            simp only [hsb] at h
            cases hwp : writeParts os base data.length 0 partsBuf1 w with
            | mk e3 w2 =>
              cases e3 with
              | some e3 =>
                simp only [hwp, Option.some.injEq, Prod.mk.injEq] at h
                obtain ⟨rfl, _⟩ := h
                exact Or.inr (Or.inr (writeParts_err _ _ _ _ _ _ _ _ hwp))
              | none =>
                simp only [hwp] at h
                have := ih _ _ _ _ h
                rw [hfail] at this
                exact this

/-- The errors that the first loop of `SplitFile` can return, and what it has created when
it returns the error of the pattern test. -/
theorem createParts_err (os : OS) (outDir filePattern : GoString) (xCoords : List Byte)
    (base n partIdx : Nat) (w w1 : World) (e : GoError)
    (h : createParts os outDir filePattern xCoords base n partIdx w = some (some e, w1)) :
    (∃ k, partFileName filePattern k = .error e) ∨ ∃ p, os.createErr p = some e := by
  induction n generalizing partIdx w with
  | zero => simp [createParts] at h
  | succ n ih =>
    unfold createParts at h
    cases hname : partFileName filePattern partIdx with
    | error e1 =>
      simp only [hname, Option.some.injEq, Prod.mk.injEq] at h
      obtain ⟨rfl, _⟩ := h
      exact Or.inl ⟨partIdx, hname⟩
    | ok filename =>
      simp only [hname] at h
      cases hc : w.create os (.join outDir filename) with
      | mk e2 w2 =>
        cases e2 with
        | some e2 =>
          simp only [hc, Option.some.injEq, Prod.mk.injEq] at h
          obtain ⟨rfl, _⟩ := h
          right
          unfold World.create at hc
          split at hc
          · rename_i e3 he3
            simp only [Prod.mk.injEq, Option.some.injEq] at hc
            exact ⟨_, by rw [he3, hc.1]⟩
          · simp at hc
        | none =>
          simp only [hc] at h
          cases hx : xCoords[partIdx]? with
          | none => simp [hx] at h
          | some x =>
            simp only [hx] at h
            exact ih _ _ h

theorem createParts_missing (os : OS) (outDir filePattern : GoString) (xCoords : List Byte)
    (base n : Nat) (w : World) (e : GoError) (hname : partFileName filePattern 0 = .error e) :
    createParts os outDir filePattern xCoords base (n + 1) 0 w = some (some e, w) := by
  rw [createParts, hname]

end SplitFileErrors

section ClaimC13

/-- C13, amended: pattern validation in `SplitFile`. The file name of part `k + 1` is the
decimal representation of `k + 1` for the empty pattern, the pattern with every `%i`
replaced by that representation when the pattern contains `%i`, and the name test fails
otherwise; the test `filename == filePattern` holds exactly when the pattern does not
contain `%i`. For valid (N, T), when the block size can be allocated, the input can be
opened and the random source delivers the N coordinates (the steps that `SplitFile` takes
before it names the first part file), and the operating system does not itself answer with
the error value of the pattern test, `SplitFile` returns the missing-token error if and
only if the pattern is non-empty and does not contain `%i`; in that case it has created no
file. -/
theorem C13_pattern_validation (P : Nat) (os : OS) (inputFilename outDir filePattern : GoString)
    (partsCount threshold : Int) (blockSize : Nat) (polynomPerByte : Bool) (tape : Tape)
    (w : World) (hv : 2 ≤ threshold ∧ threshold ≤ partsCount ∧ partsCount ≤ 255)
    (hblock : blockSize ≤ maxAlloc) (inputFile : File)
    (hin : (inputFilename = [] ∧ inputFile = os.stdin) ∨
      (inputFilename ≠ [] ∧ os.openRead (.named inputFilename) = .ok inputFile))
    (hrand : (fillXCoords (toUint8 partsCount) tape).1.2 = none)
    (hcreate : ∀ p, os.createErr p ≠ some .missingToken)
    (hwrite : ∀ p n, os.writeErr p n ≠ some .missingToken)
    (hread : inputFile.failure ≠ some .missingToken) :
    (∀ k, partFileName filePattern k =
      if filePattern = [] then .ok (fmtSprint (k + 1))
      else if ['%', 'i'] <:+: filePattern then
        .ok (replaceAllToken (fmtSprint (k + 1)) filePattern)
      else .error .missingToken) ∧
    (∀ k, replaceAllToken (fmtSprint (k + 1)) filePattern = filePattern ↔
      ¬ ['%', 'i'] <:+: filePattern) ∧
    ((∃ w1, SplitFile P os inputFilename outDir filePattern partsCount threshold blockSize
        polynomPerByte tape w = some (some .missingToken, w1)) ↔
      (filePattern ≠ [] ∧ ¬ ['%', 'i'] <:+: filePattern)) ∧
    (∀ w1, SplitFile P os inputFilename outDir filePattern partsCount threshold blockSize
        polynomPerByte tape w = some (some .missingToken, w1) → w1.created = w.created) := by
  have hname := partFileName_eq filePattern
  have hval : validateSplitArgs partsCount threshold = none :=
    validateSplitArgs_of_valid ⟨by omega, by omega⟩ ⟨by omega, by omega⟩
  have hN : ¬ (partsCount < 0 ∨ 8 * partsCount.toNat > maxAlloc) := by
    have hma : maxAlloc = 281474976710656 := rfl
    omega
  have hbig : ¬ (if blockSize = 0 then defaultBlockSize else blockSize) > maxAlloc := by
    split
    · decide
    · omega
  obtain ⟨m, hm⟩ : ∃ m, partsCount.toNat = m + 1 := ⟨partsCount.toNat - 1, by omega⟩
  -- the run up to the first loop
  have hrun : ∃ w0 xCoords partsBuf tape1, w0.created = w.created ∧
      SplitFile P os inputFilename outDir filePattern partsCount threshold blockSize
        polynomPerByte tape w =
      match createParts os outDir filePattern xCoords w0.created.length (m + 1) 0 w0 with
      | none => none
      | some (some e, w2) => some (some e, w2)
      | some (none, w2) =>
        splitFileLoop P os xCoords (toUint8 threshold) polynomPerByte
          (if blockSize = 0 then defaultBlockSize else blockSize)
          w0.created.length (inputFile.remaining + 1) inputFile partsBuf tape1 w2 := by
    cases hfill : fillXCoords (toUint8 partsCount) tape with
    | mk r tape1 =>
      obtain ⟨xCoords, e⟩ := r
      rw [hfill] at hrand
      simp only at hrand
      subst hrand
      rcases hin with ⟨h1, h2⟩ | ⟨h1, h2⟩
      · refine ⟨w, xCoords, List.replicate (toUint8 partsCount).val (List.replicate
          (if blockSize = 0 then defaultBlockSize else blockSize) 0), tape1, rfl, ?_⟩
        unfold SplitFile prepareSplit
        simp only [hN, hbig, if_false]
        simp only [hval, h1, if_true, hfill, hm, h2]
      · refine ⟨World.mk (w.opened ++ [.named inputFilename]) w.created w.stdout, xCoords,
          List.replicate (toUint8 partsCount).val (List.replicate
            (if blockSize = 0 then defaultBlockSize else blockSize) 0), tape1, rfl, ?_⟩
        unfold SplitFile prepareSplit
        simp only [hN, hbig, if_false]
        simp only [hval, h1, if_false, hfill, hm, h2]
  obtain ⟨w0, xCoords, partsBuf, tape1, hw0, hrun⟩ := hrun
  have hback : ∀ w1, SplitFile P os inputFilename outDir filePattern partsCount threshold
      blockSize polynomPerByte tape w = some (some .missingToken, w1) →
      (filePattern ≠ [] ∧ ¬ ['%', 'i'] <:+: filePattern) := by
    intro w1 h
    rw [hrun] at h
    cases hcp : createParts os outDir filePattern xCoords w0.created.length (m + 1) 0 w0 with
    | none => simp [hcp] at h
    | some r =>
      obtain ⟨e, w2⟩ := r
      cases e with
      | some e =>
        simp only [hcp, Option.some.injEq, Prod.mk.injEq] at h
        obtain ⟨rfl, _⟩ := h
        rcases createParts_err _ _ _ _ _ _ _ _ _ _ hcp with ⟨k, hk⟩ | ⟨p, hp⟩
        · rw [hname k] at hk
          by_cases h0 : filePattern = []
          · simp [h0] at hk
          · by_cases ht : ['%', 'i'] <:+: filePattern
            · simp [h0, ht] at hk
            · exact ⟨h0, ht⟩
        · exact absurd hp (hcreate p)
      | none =>
        simp only [hcp] at h
        rcases splitFileLoop_err _ _ _ _ _ _ _ _ _ _ _ _ _ _ h with h1 | h1 | h1 | ⟨p, n, h1⟩
        · exact absurd h1 hread
        · cases h1
        · cases h1
        · exact absurd h1 (hwrite p n)
  have hforth : (filePattern ≠ [] ∧ ¬ ['%', 'i'] <:+: filePattern) →
      SplitFile P os inputFilename outDir filePattern partsCount threshold
        blockSize polynomPerByte tape w = some (some .missingToken, w0) := by
    rintro ⟨h0, ht⟩
    have h0name : partFileName filePattern 0 = .error .missingToken := by
      rw [hname 0]; simp [h0, ht]
    rw [hrun, createParts_missing os outDir filePattern xCoords _ m w0 _ h0name]
  refine ⟨hname, fun k => replaceAllToken_fmtSprint_eq_self_iff (k + 1) filePattern,
    ⟨fun ⟨w1, h⟩ => hback w1 h, fun h => ⟨w0, hforth h⟩⟩, ?_⟩
  intro w1 h
  have h2 := hforth (hback w1 h)
  rw [h] at h2
  simp only [Option.some.injEq, Prod.mk.injEq, true_and] at h2
  rw [h2, hw0]

end ClaimC13

/-! ## Rejection sampling -/

section Sampling

theorem streamFrom_zero (s : Nat → Byte) (pos : Nat) : streamFrom s pos 0 = [] := rfl

theorem streamFrom_succ (s : Nat → Byte) (pos len : Nat) :
    streamFrom s pos (len + 1) = s pos :: streamFrom s (pos + 1) len := by
  unfold streamFrom
  rw [List.range_succ_eq_map]
  simp only [List.map_cons, List.map_map, Nat.add_zero, List.cons.injEq, true_and]
  apply List.map_congr_left
  intro i _
  simp only [Function.comp, Nat.succ_eq_add_one]
  congr 1; omega

theorem streamFrom_add (s : Nat → Byte) (pos a b : Nat) :
    streamFrom s pos (a + b) = streamFrom s pos a ++ streamFrom s (pos + a) b := by
  induction a generalizing pos with
  | zero => simp [streamFrom_zero]
  | succ a ih =>
    rw [show a + 1 + b = (a + b) + 1 by omega, streamFrom_succ, streamFrom_succ, ih]
    simp only [List.cons_append, List.cons.injEq, true_and]
    congr 2; omega

theorem mem_streamFrom (s : Nat → Byte) (pos len m : Nat) (h1 : pos ≤ m) (h2 : m < pos + len) :
    s m ∈ streamFrom s pos len := by
  unfold streamFrom
  rw [List.mem_map]
  exact ⟨m - pos, List.mem_range.mpr (by omega), by congr 1; omega⟩

/-- While fewer than 255 values have been chosen, an acceptable byte exists. -/
theorem exists_acceptable (seenX : List Byte) (h : seenX.length < 255) :
    ∃ b : Byte, b ≠ 0 ∧ b ∉ seenX := by
  by_contra hne
  push_neg at hne
  have huniv : (0 :: seenX).toFinset = Finset.univ := by
    rw [Finset.eq_univ_iff_forall]
    intro b
    rw [List.mem_toFinset]
    by_cases hb : b = 0
    · subst hb; exact List.mem_cons_self _ _
    · exact List.mem_cons_of_mem _ (hne b hb)
  have hcard := List.toFinset_card_le (0 :: seenX)
  rw [huniv, Finset.card_univ, Fintype.card_fin] at hcard
  simp only [List.length_cons] at hcard
  omega

theorem drawXCoord_append (seenX : List Byte) (t1 t2 : Tape) :
    drawXCoord seenX (t1 ++ t2) =
      match drawXCoord seenX t1 with
      | some (b, r) => some (b, r ++ t2)
      | none => drawXCoord seenX t2 := by
  induction t1 with
  | nil => simp [drawXCoord]
  | cons a t1 ih =>
    rw [List.cons_append, drawXCoord, drawXCoord]
    split
    · exact ih
    · rfl

/-- A tape that holds an acceptable byte yields a coordinate, and the draw uses up a
front segment of the tape. -/
theorem drawXCoord_of_mem (seenX : List Byte) (t : Tape) (b : Byte) (hb : b ∈ t)
    (h0 : b ≠ 0) (hs : b ∉ seenX) :
    ∃ b1 j, j ≤ t.length ∧ drawXCoord seenX (t.take j) = some (b1, []) := by
  induction t with
  | nil => simp at hb
  | cons a t ih =>
    by_cases ha : a = 0 ∨ a ∈ seenX
    · have hbt : b ∈ t := by
        rcases List.mem_cons.mp hb with rfl | hbt
        · rcases ha with ha | ha
          · exact absurd ha h0
          · exact absurd ha hs
        · exact hbt
      obtain ⟨b1, j, hj, hd⟩ := ih hbt
      refine ⟨b1, j + 1, by simpa using hj, ?_⟩
      rw [List.take_succ_cons, drawXCoord, if_pos ha]
      exact hd
    · refine ⟨a, 1, by simp, ?_⟩
      simp [drawXCoord, ha]

theorem drawXCoord_replicate_zero (seenX : List Byte) (n : Nat) :
    drawXCoord seenX (List.replicate n 0) = none := by
  induction n with
  | zero => rfl
  | succ n ih => rw [List.replicate_succ, drawXCoord, if_pos (Or.inl rfl), ih]

theorem streamFrom_const (b : Byte) (pos len : Nat) :
    streamFrom (fun _ => b) pos len = List.replicate len b := by
  unfold streamFrom
  induction len with
  | zero => rfl
  | succ n ih => rw [List.range_succ, List.map_append, ih]; simp [List.replicate_succ']

/-- On a stream in which every nonzero byte keeps occurring, the loop of `fillXCoords`
returns after finitely many draws. -/
theorem fillXCoordsLoop_returns (s : Nat → Byte)
    (hfair : ∀ b : Byte, b ≠ 0 → ∀ n, ∃ m, n ≤ m ∧ s m = b)
    (k : Nat) (xCoords seenX : List Byte) (pos : Nat) (h : seenX.length + k ≤ 255) :
    ∃ len xs, fillXCoordsLoop k xCoords seenX (streamFrom s pos len) = ((xs, none), []) := by
  induction k generalizing xCoords seenX pos with
  | zero => exact ⟨0, xCoords, rfl⟩
  | succ k ih =>
    obtain ⟨b, hb0, hbs⟩ := exists_acceptable seenX (by omega)
    obtain ⟨m, hm, hsm⟩ := hfair b hb0 pos
    have hmem : b ∈ streamFrom s pos (m - pos + 1) := by
      rw [← hsm]; exact mem_streamFrom s pos _ m hm (by omega)
    obtain ⟨b1, j, hj, hd⟩ := drawXCoord_of_mem seenX _ b hmem hb0 hbs
    have hlen : (streamFrom s pos (m - pos + 1)).length = m - pos + 1 := by
      simp [streamFrom]
    rw [hlen] at hj
    have htake : (streamFrom s pos (m - pos + 1)).take j = streamFrom s pos j := by
      have : m - pos + 1 = j + (m - pos + 1 - j) := by omega
      rw [this, streamFrom_add, List.take_left']
      simp [streamFrom]
    rw [htake] at hd
    obtain ⟨len2, xs, hrec⟩ := ih (xCoords ++ [b1]) (b1 :: seenX) (pos + j)
      (by simp only [List.length_cons]; omega)
    refine ⟨j + len2, xs, ?_⟩
    rw [fillXCoordsLoop, streamFrom_add, drawXCoord_append, hd]
    simpa using hrec

end Sampling

section ClaimC18

/-- On a random source that delivers only zero bytes, `fillXCoords(1)` has not returned a
coordinate after any number `n` of draws (in the model it runs off the end of the bytes). -/
theorem fillXCoords_zero_stream (n : Nat) :
    (fillXCoords 1 (streamFrom (fun _ => 0) 0 n)).1.2 = some .randFailure := by
  rw [streamFrom_const]
  have h1 : ((1 : Byte).val) = 0 + 1 := rfl
  unfold fillXCoords
  rw [h1, fillXCoordsLoop, drawXCoord_replicate_zero]

/-- C18, as stated, fails: the loop of `fillXCoords` has no bound, and on the random
source that delivers only zero bytes there is no number `n` of draws after which
`fillXCoords(1)` returns its coordinate. -/
theorem C18_counterexample :
    ¬ ∃ n xs tape1, fillXCoords 1 (streamFrom (fun _ => 0) 0 n) = ((xs, none), tape1) := by
  rintro ⟨n, xs, tape1, h⟩
  have h0 := fillXCoords_zero_stream n
  rw [h] at h0
  simp at h0

/-- C18, amended: rejection sampling in `fillXCoords(size)` returns after finitely many
draws on every random stream in which every nonzero byte value keeps occurring. The reason
is the one the claim gives: while fewer than 255 values have been chosen, a byte exists
that is nonzero and not yet chosen; `size` is at most 255 because it is a `uint8`. The run
uses exactly the first `n` bytes of the stream. -/
theorem C18_sampling_returns (size : Byte) (s : Nat → Byte)
    (hfair : ∀ b : Byte, b ≠ 0 → ∀ n, ∃ m, n ≤ m ∧ s m = b) :
    (∀ seenX : List Byte, seenX.length < 255 → ∃ b : Byte, b ≠ 0 ∧ b ∉ seenX) ∧
      ∃ n xs, fillXCoords size (streamFrom s 0 n) = ((xs, none), []) :=
  ⟨exists_acceptable,
    fillXCoordsLoop_returns s hfair size.val [] [] 0 (by simp; omega)⟩

end ClaimC18

/-! ## Digit runs -/

section DigitRuns

theorem replaceDigitRuns_cons_nondigit (c : Char) (rest : GoString) (hc : c.isDigit = false) :
    replaceDigitRuns (c :: rest) = c :: replaceDigitRuns rest := by
  conv_lhs => rw [replaceDigitRuns.eq_def]
  simp [hc]

/-- A maximal run of digits at the front becomes one `%i`. -/
theorem replaceDigitRuns_digits (ds : GoString) (hne : ds ≠ [])
    (hds : ∀ c ∈ ds, c.isDigit = true) (r : GoString)
    (hr : ∀ c r1, r = c :: r1 → c.isDigit = false) :
    replaceDigitRuns (ds ++ r) = '%' :: 'i' :: replaceDigitRuns r := by
  induction ds with
  | nil => exact absurd rfl hne
  | cons d ds ih =>
    have hd : d.isDigit = true := hds d (List.mem_cons_self _ _)
    cases ds with
    | nil =>
      cases r with
      | nil => simp [replaceDigitRuns, hd]
      | cons c r1 =>
        have hc := hr c r1 rfl
        rw [List.singleton_append, replaceDigitRuns]
        simp [hd, hc]
    | cons d1 ds =>
      have hd1 : d1.isDigit = true := hds d1 (List.mem_cons_of_mem _ (List.mem_cons_self _ _))
      have := ih (by simp) (fun c hc => hds c (List.mem_cons_of_mem _ hc))
      rw [← this, List.cons_append, List.cons_append, replaceDigitRuns]
      simp [hd, hd1]

theorem replaceDigitRuns_eq_nil (s : GoString) (h : replaceDigitRuns s = []) : s = [] := by
  induction s using replaceDigitRuns.induct with
  | case1 => rfl
  | case2 c hc => simp [replaceDigitRuns, hc] at h
  | case3 c hc d tail hd ih =>
    rw [replaceDigitRuns] at h
    simp only [hc, hd, if_true] at h
    exact absurd (ih h) (by simp)
  | case4 c hc d tail hd _ =>
    rw [replaceDigitRuns] at h
    simp [hc, hd] at h
  | case5 c rest hc _ =>
    rw [replaceDigitRuns_cons_nondigit c rest (by simpa using hc)] at h
    simp at h

theorem replaceDigitRuns_eq_i (s : GoString) (h : replaceDigitRuns s = ['i']) : s = ['i'] := by
  induction s using replaceDigitRuns.induct with
  | case1 => simp [replaceDigitRuns] at h
  | case2 c hc => simp [replaceDigitRuns, hc] at h
  | case3 c hc d tail hd ih =>
    rw [replaceDigitRuns] at h
    simp only [hc, hd, if_true] at h
    have := ih h
    simp only [List.cons.injEq] at this
    rw [this.1] at hd
    exact absurd hd (by decide)
  | case4 c hc d tail hd _ =>
    rw [replaceDigitRuns] at h
    simp [hc, hd] at h
  | case5 c rest hc _ =>
    rw [replaceDigitRuns_cons_nondigit c rest (by simpa using hc)] at h
    simp only [List.cons.injEq] at h
    rw [h.1, replaceDigitRuns_eq_nil rest h.2]

/-- The names that collapse to the bare token: the non-empty digit strings, and the
token itself. -/
theorem replaceDigitRuns_eq_token_iff (s : GoString) :
    replaceDigitRuns s = ['%', 'i'] ↔
      (s ≠ [] ∧ ∀ c ∈ s, c.isDigit = true) ∨ s = ['%', 'i'] := by
  constructor
  · intro h
    induction s using replaceDigitRuns.induct with
    | case1 => simp [replaceDigitRuns] at h
    | case2 c hc => left; exact ⟨by simp, by simpa using hc⟩
    | case3 c hc d tail hd ih =>
      rw [replaceDigitRuns] at h
      simp only [hc, hd, if_true] at h
      rcases ih h with ⟨_, hall⟩ | heq
      · left
        refine ⟨by simp, ?_⟩
        intro x hx
        rcases List.mem_cons.mp hx with rfl | hx
        · exact hc
        · exact hall x hx
      · simp only [List.cons.injEq] at heq
        rw [heq.1] at hd
        exact absurd hd (by decide)
    | case4 c hc d tail hd _ =>
      rw [replaceDigitRuns] at h
      simp only [hc, hd, if_true, Bool.false_eq_true, if_false, List.cons.injEq, true_and] at h
      exact absurd (replaceDigitRuns_eq_nil _ h) (by simp)
    | case5 c rest hc _ =>
      rw [replaceDigitRuns_cons_nondigit c rest (by simpa using hc)] at h
      simp only [List.cons.injEq] at h
      right
      rw [h.1, replaceDigitRuns_eq_i rest h.2]
  · rintro (⟨hne, hall⟩ | rfl)
    · have := replaceDigitRuns_digits s hne hall [] (by simp)
      simpa [replaceDigitRuns] using this
    · decide

theorem replaceAllToken_head (new : GoString) (s : GoString)
    (hs : ∀ c ∈ s, c.isDigit = false) (htok : ∀ r, s ≠ '%' :: 'i' :: r) :
    ∀ c r1, replaceAllToken new s = c :: r1 → c.isDigit = false := by
  intro c r1 h
  cases s with
  | nil => simp [replaceAllToken] at h
  | cons a rest =>
    have ha : ∀ r, a = '%' → rest = 'i' :: r → False := by
      intro r h1 h2
      exact htok r (by rw [h1, h2])
    rw [replaceAllToken_cons new a rest ha] at h
    simp only [List.cons.injEq] at h
    rw [← h.1]
    exact hs a (List.mem_cons_self _ _)

/-- Collapsing the digit runs of a generated file name gives back the pattern. -/
theorem replaceDigitRuns_replaceAllToken (new : GoString) (hne : new ≠ [])
    (hnew : ∀ c ∈ new, c.isDigit = true) (s : GoString)
    (hs : ∀ c ∈ s, c.isDigit = false) (hadj : ¬ ['%', 'i', '%', 'i'] <:+: s) :
    replaceDigitRuns (replaceAllToken new s) = s := by
  induction s using replaceAllToken.induct new with
  | case1 => simp [replaceAllToken, replaceDigitRuns]
  | case2 rest ih =>
    have hrest : ∀ c ∈ rest, c.isDigit = false :=
      fun c hc => hs c (List.mem_cons_of_mem _ (List.mem_cons_of_mem _ hc))
    have htok : ∀ r, rest ≠ '%' :: 'i' :: r := by
      intro r hr
      apply hadj
      rw [hr]
      exact (List.prefix_append ['%', 'i', '%', 'i'] r).isInfix
    have hadj1 : ¬ ['%', 'i', '%', 'i'] <:+: rest :=
      fun h => hadj (List.infix_cons (List.infix_cons h))
    rw [replaceAllToken_token,
      replaceDigitRuns_digits new hne hnew _ (replaceAllToken_head new rest hrest htok),
      ih hrest hadj1]
  | case3 c rest h ih =>
    have hc : c.isDigit = false := hs c (List.mem_cons_self _ _)
    rw [replaceAllToken_cons new c rest h, replaceDigitRuns_cons_nondigit _ _ hc,
      ih (fun x hx => hs x (List.mem_cons_of_mem _ hx)) (fun h1 => hadj (List.infix_cons h1))]

end DigitRuns

section DiscoveryTest

/-- The discovery loop calls `os.Open` on a directory entry exactly when the entry is not
a directory and its name collapses to the pattern. -/
theorem discoverParts_single (os : OS) (searchDir filePattern name : GoString) (isDir : Bool)
    (d : Discovery) (w : World) :
    (discoverParts os searchDir filePattern [(name, isDir)] d w).2.opened =
      if isDir = false ∧ replaceDigitRuns name = filePattern then
        w.opened ++ [.join searchDir name]
      else w.opened := by
  unfold discoverParts
  cases isDir with
  | true => simp [discoverParts]
  | false =>
    by_cases hm : replaceDigitRuns name = filePattern
    · simp only [Bool.false_eq_true, if_false, hm, ne_eq, not_true_eq_false, and_self, if_true]
      cases os.openRead (.join searchDir name) with
      | error e => rfl
      | ok partFile =>
        cases hstat : partFile.statSize with
        | error e => simp only [hstat]
        | ok size =>
          simp only [hstat]
          cases d.partLen with
          | none => simp [discoverParts]
          | some partLen =>
            by_cases hne : partLen = size <;> simp [hne, discoverParts]
    · simp [hm, discoverParts]

theorem mem_selectedEntries (filePattern : GoString) (files : List (GoString × Bool))
    (name : GoString) (isDir : Bool) :
    (name, isDir) ∈ selectedEntries filePattern files ↔
      (name, isDir) ∈ files ∧ isDir = false ∧ replaceDigitRuns name = filePattern := by
  unfold selectedEntries
  rw [List.mem_filter]
  simp

end DiscoveryTest

section ClaimsNames

/-- C19, as stated, fails: under the default pattern an entry named `%i` is selected,
although its name does not consist of digits. Here the directory holds the files `%i`
and `7`; `CombineFiles` with the empty pattern opens both and combines them. -/
theorem C19_counterexample :
    (¬ ∀ c ∈ ['%', 'i'], c.isDigit = true) ∧
    CombineFiles 283
      (exampleCombineOS [(['%', 'i'], [200, 189, 226, 110]), (['7'], [5, 1, 2, 3])])
      ['d'] [] ['o', 'u', 't'] 4 World.initial =
    some ((2, none), World.mk [.join ['d'] ['%', 'i'], .join ['d'] ['7']]
      [(.named ['o', 'u', 't'], [215, 253, 97])] []) := by
  decide!

/-- C19, amended: with the empty pattern or the bare pattern `%i`, `CombineFiles` accepts
the pattern, and its discovery selects an entry (calls `os.Open` on it) if and only if the
entry is not a directory and its name is a non-empty string of ASCII digits or is `%i`
itself. Every file name that `SplitFile` generates under the empty pattern is the decimal
representation of the part number and is selected. -/
theorem C19_default_discovery (filePattern : GoString)
    (hp : filePattern = [] ∨ filePattern = ['%', 'i']) (os : OS) (searchDir name : GoString)
    (isDir : Bool) (d : Discovery) (w : World) :
    ¬ (filePattern.length > 0 ∧ replaceAllToken [] filePattern = filePattern) ∧
    ((discoverParts os searchDir (if filePattern = [] then ['%', 'i'] else filePattern)
        [(name, isDir)] d w).2.opened =
      if isDir = false ∧ ((name ≠ [] ∧ ∀ c ∈ name, c.isDigit = true) ∨ name = ['%', 'i']) then
        w.opened ++ [.join searchDir name]
      else w.opened) ∧
    (∀ files, (name, isDir) ∈
        selectedEntries (if filePattern = [] then ['%', 'i'] else filePattern) files ↔
      (name, isDir) ∈ files ∧ isDir = false ∧
        ((name ≠ [] ∧ ∀ c ∈ name, c.isDigit = true) ∨ name = ['%', 'i'])) ∧
    ∀ k, partFileName [] k = .ok (fmtSprint (k + 1)) ∧
      replaceDigitRuns (fmtSprint (k + 1)) = ['%', 'i'] := by
  have heff : (if filePattern = [] then ['%', 'i'] else filePattern) = ['%', 'i'] := by
    rcases hp with rfl | rfl <;> simp
  refine ⟨?_, ?_, ?_, ?_⟩
  · rcases hp with rfl | rfl
    · simp
    · decide
  · rw [heff, discoverParts_single]
    simp only [replaceDigitRuns_eq_token_iff]
  · intro files
    rw [heff, mem_selectedEntries, replaceDigitRuns_eq_token_iff]
  · intro k
    refine ⟨by simp [partFileName], ?_⟩
    rw [replaceDigitRuns_eq_token_iff]
    exact Or.inl ⟨fmtSprint_ne_nil _, fmtSprint_isDigit _⟩

/-- C20: split file names are found again by combine under the same pattern. For every
pattern that contains `%i`, contains no ASCII digit and has no two adjacent `%i` tokens,
and every part, the file name that `SplitFile` generates is the pattern with each `%i`
replaced by the decimal part number; `CombineFiles` accepts the pattern, and replacing
every maximal digit run of that name by `%i` gives back the pattern, so that the discovery
selects the entry (calls `os.Open` on it). -/
theorem C20_names_found_again (filePattern : GoString)
    (htok : ['%', 'i'] <:+: filePattern) (hnd : ∀ c ∈ filePattern, c.isDigit = false)
    (hadj : ¬ ['%', 'i', '%', 'i'] <:+: filePattern) (k : Nat) :
    partFileName filePattern k = .ok (replaceAllToken (fmtSprint (k + 1)) filePattern) ∧
    ¬ (filePattern.length > 0 ∧ replaceAllToken [] filePattern = filePattern) ∧
    replaceDigitRuns (replaceAllToken (fmtSprint (k + 1)) filePattern) =
      (if filePattern = [] then ['%', 'i'] else filePattern) ∧
    ∀ (os : OS) (searchDir : GoString) (d : Discovery) (w : World),
      (discoverParts os searchDir (if filePattern = [] then ['%', 'i'] else filePattern)
        [(replaceAllToken (fmtSprint (k + 1)) filePattern, false)] d w).2.opened =
      w.opened ++ [.join searchDir (replaceAllToken (fmtSprint (k + 1)) filePattern)] := by
  have hne : filePattern ≠ [] := by
    rintro rfl
    simp at htok
  have hback := replaceDigitRuns_replaceAllToken (fmtSprint (k + 1)) (fmtSprint_ne_nil _)
    (fmtSprint_isDigit _) filePattern hnd hadj
  refine ⟨?_, ?_, ?_, ?_⟩
  · rw [partFileName_eq]; simp [hne, htok]
  · rintro ⟨_, h⟩
    exact (replaceAllToken_nil_eq_self_iff filePattern).mp h htok
  · rw [if_neg hne]; exact hback
  · intro os searchDir d w
    rw [discoverParts_single, if_neg hne, hback]
    simp

end ClaimsNames

/-! ## Examples: the theorems at concrete inputs -/

section Witnesses
open galois

/-- C1, as stated, fails for T = N = 255: `Split` accepts 255 parts and threshold 255, but
`Combine` rejects a list of 255 shares. Here the secret is empty, the tape delivers the
bytes 1, ..., 255, and the 255 returned shares are combined. -/
theorem C1_counterexample :
    irreducible8 283 = true ∧
    Split 283 [] 255 255 (List.finRange 256).tail =
      some ((List.finRange 256).tail.map (fun x => [x]), none) ∧
    ((List.finRange 256).tail.map (fun x : Byte => [x])).length = 255 ∧
    Combine 283 ((List.finRange 256).tail.map (fun x => [x])) = some ([], some .combineRange) := by
  decide!

/-- Witness of C1: secret `0x41`, N = 3, T = 2; the third and the first share. -/
theorem C1_round_trip_witness :
    Split 283 [0x41] 3 2 [5, 0, 5, 9, 200, 17] = some ([[5, 20], [9, 216], [200, 189]], none) ∧
    Combine 283 [[200, 189], [5, 20]] = some ([0x41], none) :=
  ⟨by decide!,
   C1_round_trip 283 (by decide!) [0x41] 3 2 [5, 0, 5, 9, 200, 17] (by decide) (by decide)
    (by decide) [[5, 20], [9, 216], [200, 189]] (by decide!) [[200, 189], [5, 20]] (by decide)
    (by decide) (by decide)⟩

/-- Witness of C2: threshold 3, the x-coordinates 1 and 2, secret byte `0x41` and the share
values 7 and 9. -/
theorem C2_witness :
    ∃! cs : List Byte, cs.length = (3 : Int).toNat - 1 ∧
      splitBlock 283 [0x41] (List.replicate ([1, 2] : List Byte).length [0]) [1, 2] (toUint8 3)
        true cs = some (([7, 9].map (fun y => [y]), none), []) :=
  C2_fewer_shares_reveal_nothing 283 (by decide!) 3 (by decide) [1, 2] (by decide) (by decide)
    (by decide) 0x41 [7, 9] (by decide)

/-- Witness of C3: three coordinates drawn from a tape with a zero and a repetition, and
the shares of scenario A. -/
theorem C3_witness :
    fillXCoords 3 [5, 0, 5, 9, 200] = (([5, 9, 200], none), []) ∧
    (([5, 9, 200] : List Byte).length = (3 : Byte).val ∧ (∀ x ∈ ([5, 9, 200] : List Byte), x ≠ 0) ∧
      ([5, 9, 200] : List Byte).Nodup) ∧
    (([[5, 20], [9, 216], [200, 189]] : List (List Byte)).map (fun s => s.head?)).Nodup :=
  ⟨by decide,
   (C3_distinct_coordinates 3 [5, 0, 5, 9, 200] [5, 9, 200] [] (by decide)).1,
   ((C3_distinct_coordinates 3 [5, 0, 5, 9, 200] [5, 9, 200] [] (by decide)).2 283 [0x41] 3 2
      [5, 0, 5, 9, 200, 17] [[5, 20], [9, 216], [200, 189]] (by decide!)).2.2⟩

/-- Witness of C4: scenario A (secret `0x41`, N = 3, T = 2: three shares of 2 bytes) and
scenario B (empty secret, N = 2, T = 2: two shares of length 1). -/
theorem C4_witness :
    (([[5, 20], [9, 216], [200, 189]] : List (List Byte)).length = (3 : Int).toNat ∧
      ∀ s ∈ ([[5, 20], [9, 216], [200, 189]] : List (List Byte)),
        s.length = ([0x41] : List Byte).length + 1) ∧
    (([[5], [9]] : List (List Byte)).length = (2 : Int).toNat ∧
      ∀ s ∈ ([[5], [9]] : List (List Byte)), s.length = ([] : List Byte).length + 1) :=
  ⟨⟨(C4_split_shape 283 [0x41] 3 2 [5, 0, 5, 9, 200, 17] (by decide) (by decide)
      [[5, 20], [9, 216], [200, 189]] (by decide!)).1,
    (C4_split_shape 283 [0x41] 3 2 [5, 0, 5, 9, 200, 17] (by decide) (by decide)
      [[5, 20], [9, 216], [200, 189]] (by decide!)).2.1⟩,
   ⟨(C4_split_shape 283 [] 2 2 [5, 0, 5, 9] (by decide) (by decide) [[5], [9]] (by decide!)).1,
    (C4_split_shape 283 [] 2 2 [5, 0, 5, 9] (by decide) (by decide) [[5], [9]] (by decide!)).2.1⟩⟩

/-- Witness of C5: two shares with the x-coordinate 5. -/
theorem C5_witness : Combine 283 [[5, 1], [5, 2]] = some ([0], some .divideByZero) :=
  C5_duplicate_coordinates 283 [[5, 1], [5, 2]] (by decide) (by decide) (by decide)

/-- C6 at its failing inputs: a second share that is shorter than the first makes
`Combine` panic with an index out of range, and a second share that is longer is accepted
without an error, its last byte being ignored. -/
theorem C6_failing_input :
    Combine 283 [[1, 5], [2]] = none ∧ Combine 283 [[5, 1], [6, 2, 3]] = some ([4], none) := by
  decide!

/-- Witness of C7: the pair (1, 2) is rejected, the pair (3, 2) is accepted. -/
theorem C7_witness :
    Split 283 [0x41] 1 2 [5, 0, 5, 9, 200, 17] = some ([], some .partsRange) ∧
    ∃ shares err, Split 283 [0x41] 3 2 [5, 0, 5, 9, 200, 17] = some (shares, err) ∧
      (err = none ∨ err = some .randFailure) := by
  refine ⟨?_, (C7_split_validation 283 [0x41] 3 2 [5, 0, 5, 9, 200, 17]).2.2 (by decide)⟩
  obtain ⟨e, _, hv, hs⟩ :=
    (C7_split_validation 283 [0x41] 1 2 [5, 0, 5, 9, 200, 17]).2.1 (by decide)
  have : e = .partsRange := by
    have h2 : validateSplitArgs 1 2 = some .partsRange := by decide
    rw [h2] at hv
    exact (Option.some.inj hv).symm
  rw [this] at hs
  exact hs

/-- Witness of C8: one share is rejected, two shares of length 2 are combined to one byte. -/
theorem C8_witness :
    Combine 283 [[5, 20]] = some ([], some .combineRange) ∧
    ∃ ret, Combine 283 [[200, 189], [5, 20]] = some (ret, none) ∧ ret.length = 2 - 1 :=
  ⟨(C8_combine_count 283 (by decide!) [[5, 20]]).1 (by decide),
   (C8_combine_count 283 (by decide!) [[200, 189], [5, 20]]).2 (by decide) 2 (by decide)
    (by decide)⟩

/-- C10: `SplitFile` discards the result of the write of the x-coordinate
(`outFiles[partIdx].Write(xCoords[partIdx : partIdx+1])`), while it checks the result of
every later write. Here every write to a part file fails and the input is empty:
`SplitFile` returns nil, and the three part files it has created are empty, so none of them
starts with its x-coordinate and none has the length `1 + len(input)`. -/
theorem C10_failing_input :
    SplitFile 283 (exampleNoWriteOS []) [] ['o'] [] 3 2 4 true [5, 9, 200] World.initial =
      some (none, World.mk []
        [(.join ['o'] ['1'], []), (.join ['o'] ['2'], []), (.join ['o'] ['3'], [])] []) := by
  decide!

/-- C9, as stated, fails for a block size that cannot be allocated and for an output that
is one of the part files. `SplitFile` of the input `[0x41]` with N = 3 and T = 2 creates
the part files `1`, `2` and `3`. `CombineFiles` over the part files `1` and `2` with the
block size 2^63 panics in `make([]byte, blockSize)`. With block size 4 and an output path
that names part file `1`, the opening of the output truncates that part file, the read of
its x-coordinate reports end-of-stream, and `CombineFiles` returns this error and writes
nothing; with any other output path it writes `[0x41]`. -/
theorem C9_counterexample :
    SplitFile 283 (exampleSplitOS [[0x41]]) [] ['d'] [] 3 2 4 true [5, 0, 5, 9, 200, 17]
        World.initial =
      some (none, World.mk [] [(.join ['d'] ['1'], [5, 20]), (.join ['d'] ['2'], [9, 216]),
        (.join ['d'] ['3'], [200, 189])] []) ∧
    CombineFiles 283 (exampleCombineOS [(['1'], [5, 20]), (['2'], [9, 216])]) ['d'] [] []
        9223372036854775808 World.initial = none ∧
    CombineFiles 283
        (exampleAliasOS [(['1'], [5, 20]), (['2'], [9, 216])] ['d', '/', '1'] ['1'])
        ['d'] [] ['d', '/', '1'] 4 World.initial =
      some ((2, some .eof), World.mk [.join ['d'] ['1'], .join ['d'] ['2']]
        [(.named ['d', '/', '1'], [])] []) ∧
    CombineFiles 283 (exampleCombineOS [(['1'], [5, 20]), (['2'], [9, 216])])
        ['d'] [] ['d', '/', '1'] 4 World.initial =
      some ((2, none), World.mk [.join ['d'] ['1'], .join ['d'] ['2']]
        [(.named ['d', '/', '1'], [0x41])] []) := by
  decide!

/-- C13, as stated, fails: the pattern `abc` is not empty and does not contain `%i`, and
N = T = 2 is valid, but the input file cannot be opened, and `SplitFile` returns the error
of `os.Open`, not the missing-token error; when the random source fails, it returns that
failure. -/
theorem C13_counterexample :
    (['a', 'b', 'c'] ≠ ([] : GoString) ∧ ¬ ['%', 'i'] <:+: ['a', 'b', 'c']) ∧
    SplitFile 283 (exampleSplitOS [[1, 2]]) ['n', 'o'] ['o'] ['a', 'b', 'c'] 2 2 4 true
        [1, 2, 3, 4, 5, 6] World.initial =
      some (some (.os 2), World.mk [.named ['n', 'o']] [] []) ∧
    SplitFile 283 (exampleSplitOS [[1, 2]]) [] ['o'] ['a', 'b', 'c'] 2 2 4 true [0, 0]
        World.initial = some (some .randFailure, World.initial) := by
  decide!

/-- Witness of C9: the part files 3 and 1 of a split of `[0x41, 0x42, 0x43]` with N = 3 and
T = 2, found in this order, are combined with block size 3 to standard output. -/
theorem C9_witness :
    ∃ w3, CombineFiles 283
        (exampleCombineOS [(['3'], [200, 189, 190, 227]), (['1'], [5, 20, 23, 230])])
        ['d'] [] [] 3 World.initial = some (((2 : Int), none), w3) ∧
      w3.stdout = [0x41, 0x42, 0x43] := by
  have hsel : selectedEntries (if ([] : GoString) = [] then ['%', 'i'] else [])
      [(['3'], false), (['1'], false)] = [(['3'], false), (['1'], false)] := by decide
  have h := C9_file_round_trip 283 (by decide!)
    (exampleSplitOS [[0x41, 0x42], [0x43]]) (fun _ _ => rfl) [] ['o'] [] 3 2 2 false
    [5, 0, 5, 9, 200, 17, 33, 34, 35] World.initial
    (World.mk [] [(.join ['o'] ['1'], [5, 20, 23, 230]),
        (.join ['o'] ['2'], [9, 216, 219, 113]), (.join ['o'] ['3'], [200, 189, 190, 227])] [])
    (by decide!) (exampleSplitOS [[0x41, 0x42], [0x43]]).stdin (Or.inl ⟨rfl, rfl⟩)
    (exampleCombineOS [(['3'], [200, 189, 190, 227]), (['1'], [5, 20, 23, 230])])
    (fun _ _ => rfl) ['d'] [] [] 3 World.initial (by decide) (fun _ => rfl) (by decide)
    [(['3'], false), (['1'], false)] rfl (fun _ _ _ => rfl)
    (by
      rw [hsel]
      intro e he
      rcases List.mem_cons.mp he with rfl | he
      · exact ⟨[200, 189, 190, 227], by decide, rfl⟩
      · rcases List.mem_cons.mp he with rfl | he
        · exact ⟨[5, 20, 23, 230], by decide, rfl⟩
        · simp at he)
    (by rw [hsel]; decide) (by rw [hsel]; decide)
  rw [hsel] at h
  obtain ⟨w3, h1, h2⟩ := h
  exact ⟨w3, h1, h2.1⟩

theorem C16_witness :
    (∃ v, polynomial.evaluate 283 ⟨[7, 9]⟩ 77 = some v ∧
      interpolate 283 [1, 0, 3] [14, 7, 28] 77 = some (v, none)) ∧
    ∃ c, (polynomial.mk [7, 9]).coefs.head? = some c ∧
      interpolate 283 [1, 0, 3] [14, 7, 28] 0 = some (c, none) :=
  C16_lagrange_exact 283 (by decide!) ⟨[7, 9]⟩ (by decide) [1, 0, 3] [14, 7, 28] (by decide)
    (by decide) (by decide!) 77

theorem C17_witness :
    ∃ yi yj : Byte, ([232, 235, 234, 7] : List Byte)[0]? = some yi ∧
      ([232, 235, 234, 7] : List Byte)[2]? = some yj ∧
      galois.Add yi yj = galois.Add (0x41 : Byte) (0x43 : Byte) :=
  C17_per_block_xor 283 [0x41, 0x42, 0x43] [[0, 0, 0, 7], [0, 0, 0, 7]] [5, 9] 3 [17, 200, 9]
    [[232, 235, 234, 7], [192, 195, 194, 7]] [9] (by decide!) 0 0 2 [232, 235, 234, 7] rfl
    (by decide) (by decide)

/-- C11, as stated, fails for a block size that cannot be allocated: the directory holds
the part files `1` (4 bytes) and `7` (3 bytes), but with the block size 2^63
`CombineFiles` panics in `buf = make([]byte, blockSize)` before it looks at the directory,
and returns no error; with the block size 4 it returns the size-mismatch error. -/
theorem C11_counterexample :
    partSize (exampleCombineOS [(['1'], [200, 189, 226, 110]), (['7'], [5, 1, 2])]) ['d'] ['1'] ≠
      partSize (exampleCombineOS [(['1'], [200, 189, 226, 110]), (['7'], [5, 1, 2])]) ['d'] ['7'] ∧
    CombineFiles 283 (exampleCombineOS [(['1'], [200, 189, 226, 110]), (['7'], [5, 1, 2])])
        ['d'] [] ['o', 'u', 't'] 9223372036854775808 World.initial = none ∧
    CombineFiles 283 (exampleCombineOS [(['1'], [200, 189, 226, 110]), (['7'], [5, 1, 2])])
        ['d'] [] ['o', 'u', 't'] 4 World.initial =
      some ((0, some .differentSize), World.mk [.join ['d'] ['1'], .join ['d'] ['7']] [] []) := by
  decide!

theorem C11_witness :
    ∃ w1, CombineFiles 283
        (exampleCombineOS [(['1'], [200, 189, 226, 110]), (['7'], [5, 1, 2])])
        ['d'] [] ['o', 'u', 't'] 4 World.initial = some ((0, some .differentSize), w1) ∧
      w1.created = World.initial.created ∧ w1.stdout = World.initial.stdout :=
  C11_size_mismatch 283 (exampleCombineOS [(['1'], [200, 189, 226, 110]), (['7'], [5, 1, 2])])
    ['d'] [] ['o', 'u', 't'] 4 World.initial (by decide) (by decide)
    [(['1'], false), (['7'], false)] [] rfl (by decide) (by decide)

theorem C12_witness :
    combineRounds 283 (exampleCombineOS []) 4 none [5, 9] 2 (0 + 1)
        [File.regular [20, 21, 22], File.regular [216, 217]] [0, 0, 0, 0] [0, 0] World.initial =
      some ((2, some .unevenRead), World.initial) ∧
    ∃ k s1, combineRoundsN 283 (exampleCombineOS []) 4 none [5, 9] k
        ⟨[File.regular [20], File.regular [216]], [0, 0, 0, 0], [0, 0], World.initial⟩ = some s1 ∧
      s1.world = World.mk [] [] [0x41] ∧
      ∃ f post, s1.partFiles = f :: post ∧ (f.read 4).1.2 = some .eof :=
  ⟨(C12_lock_step 283 (exampleCombineOS []) 4 none [5, 9] 2 0
      ⟨[File.regular [20, 21, 22], File.regular [216, 217]], [0, 0, 0, 0], [0, 0],
        World.initial⟩).1
      [File.regular [20, 21, 22]] (File.regular [216, 217]) [] 3 rfl (by simp)
      (by intro g hg; rw [List.mem_singleton] at hg; subst hg; exact ⟨rfl, rfl⟩) rfl
      (by decide),
   (C12_lock_step 283 (exampleCombineOS []) 4 none [5, 9] 2 3
      ⟨[File.regular [20], File.regular [216]], [0, 0, 0, 0], [0, 0], World.initial⟩).2.2.2
      2 (World.mk [] [] [0x41]) (by decide!)⟩

theorem C13_witness :
    (∀ k, partFileName ['a', 'b', 'c'] k =
      if ['a', 'b', 'c'] = [] then .ok (fmtSprint (k + 1))
      else if ['%', 'i'] <:+: ['a', 'b', 'c'] then
        .ok (replaceAllToken (fmtSprint (k + 1)) ['a', 'b', 'c'])
      else .error .missingToken) ∧
    (∀ k, replaceAllToken (fmtSprint (k + 1)) ['a', 'b', 'c'] = ['a', 'b', 'c'] ↔
      ¬ ['%', 'i'] <:+: ['a', 'b', 'c']) ∧
    ((∃ w1, SplitFile 283 (exampleSplitOS [[1, 2]]) [] ['o'] ['a', 'b', 'c'] 2 2 4 true
        [1, 2, 3, 4, 5, 6] World.initial = some (some .missingToken, w1)) ↔
      (['a', 'b', 'c'] ≠ [] ∧ ¬ ['%', 'i'] <:+: ['a', 'b', 'c'])) ∧
    (∀ w1, SplitFile 283 (exampleSplitOS [[1, 2]]) [] ['o'] ['a', 'b', 'c'] 2 2 4 true
        [1, 2, 3, 4, 5, 6] World.initial = some (some .missingToken, w1) →
      w1.created = World.initial.created) :=
  C13_pattern_validation 283 (exampleSplitOS [[1, 2]]) [] ['o'] ['a', 'b', 'c'] 2 2 4 true
    [1, 2, 3, 4, 5, 6] World.initial (by decide) (by decide) (exampleSplitOS [[1, 2]]).stdin
    (Or.inl ⟨rfl, rfl⟩) (by decide) (fun _ => by simp [exampleSplitOS])
    (fun _ _ => by simp [exampleSplitOS]) (by decide)

theorem C18_witness :
    (∀ seenX : List Byte, seenX.length < 255 → ∃ b : Byte, b ≠ 0 ∧ b ∉ seenX) ∧
      ∃ n xs, fillXCoords 255 (streamFrom (fun i => Fin.ofNat i) 0 n) = ((xs, none), []) :=
  C18_sampling_returns 255 (fun i => Fin.ofNat i)
    (fun b _ n => ⟨256 * n + b.val, by omega, Fin.ext (by simp [Fin.ofNat, Nat.mul_add_mod])⟩)

theorem C19_witness :
    ¬ (([] : GoString).length > 0 ∧ replaceAllToken [] [] = ([] : GoString)) ∧
    ((discoverParts (exampleCombineOS []) ['d'] (if ([] : GoString) = [] then ['%', 'i'] else [])
        [(['4', '2'], false)] ⟨[], none⟩ World.initial).2.opened =
      if false = false ∧ ((['4', '2'] ≠ [] ∧ ∀ c ∈ ['4', '2'], c.isDigit = true) ∨
          ['4', '2'] = ['%', 'i']) then
        World.initial.opened ++ [.join ['d'] ['4', '2']]
      else World.initial.opened) ∧
    (∀ files, ((['4', '2'] : GoString), false) ∈
        selectedEntries (if ([] : GoString) = [] then ['%', 'i'] else []) files ↔
      ((['4', '2'] : GoString), false) ∈ files ∧ false = false ∧
        ((['4', '2'] ≠ [] ∧ ∀ c ∈ ['4', '2'], c.isDigit = true) ∨ ['4', '2'] = ['%', 'i'])) ∧
    ∀ k, partFileName [] k = .ok (fmtSprint (k + 1)) ∧
      replaceDigitRuns (fmtSprint (k + 1)) = ['%', 'i'] :=
  C19_default_discovery [] (Or.inl rfl) (exampleCombineOS []) ['d'] ['4', '2'] false ⟨[], none⟩
    World.initial

theorem C20_witness :
    partFileName ['p', '%', 'i', '.', 'b'] 11 =
      .ok (replaceAllToken (fmtSprint (11 + 1)) ['p', '%', 'i', '.', 'b']) ∧
    ¬ ((['p', '%', 'i', '.', 'b'] : GoString).length > 0 ∧
      replaceAllToken [] ['p', '%', 'i', '.', 'b'] = ['p', '%', 'i', '.', 'b']) ∧
    replaceDigitRuns (replaceAllToken (fmtSprint (11 + 1)) ['p', '%', 'i', '.', 'b']) =
      (if (['p', '%', 'i', '.', 'b'] : GoString) = [] then ['%', 'i']
        else ['p', '%', 'i', '.', 'b']) ∧
    ∀ (os : OS) (searchDir : GoString) (d : Discovery) (w : World),
      (discoverParts os searchDir
        (if (['p', '%', 'i', '.', 'b'] : GoString) = [] then ['%', 'i']
          else ['p', '%', 'i', '.', 'b'])
        [(replaceAllToken (fmtSprint (11 + 1)) ['p', '%', 'i', '.', 'b'], false)] d w).2.opened =
      w.opened ++ [.join searchDir
        (replaceAllToken (fmtSprint (11 + 1)) ['p', '%', 'i', '.', 'b'])] :=
  C20_names_found_again ['p', '%', 'i', '.', 'b'] (by decide) (by decide) (by decide) 11

end Witnesses
